import Mathlib

/-!
Verification of the position core of a Makruk engine (Stockfish derivative).

The development shallowly embeds `src/position.cpp`: squares are naturals
`0..63`, bitboards are naturals used as 64-bit words, Zobrist tables and the
leaper attack tables are parameters (their initialisation lives outside the
translated unit), and the rook — the game's only slider — together with the
`between`/`line` geometry is defined concretely from the board coordinates.
-/

set_option maxRecDepth 100000

namespace Makruk

/-- Board squares `0..63`; `file = s % 8`, `rank = s / 8`. -/
abbrev Square := Nat

/-- 64-bit bitboards, one bit per square. -/
abbrev Bitboard := Nat

/-- 64-bit Zobrist hash keys, combined with `xor`. -/
abbrev Key := Nat

inductive Color where
  | white
  | black
deriving DecidableEq, Repr, Fintype

/-- `~c` in the source. -/
def Color.other : Color → Color
  | .white => .black
  | .black => .white

@[simp] theorem Color.other_other (c : Color) : c.other.other = c := by
  cases c <;> rfl

@[simp] theorem Color.other_ne (c : Color) : c.other ≠ c := by
  cases c <;> decide

/-- Piece types in the engine's enum order (`PieceToChar = " PMSNRK"`):
pawn, queen (met), bishop (khon), knight, rook, king. -/
inductive PieceType where
  | pawn
  | queen
  | bishop
  | knight
  | rook
  | king
deriving DecidableEq, Repr, Fintype

/-- A square's content: `none` is `NO_PIECE`. -/
abbrev Piece := Option (Color × PieceType)

/-- `color_of` with the source's behaviour on `NO_PIECE` (`color_of(0) = WHITE`). -/
def colorOf0 : Piece → Color
  | none => .white
  | some (c, _) => c

/-- Bitboard with exactly the bit of square `s` set (`square_bb`). -/
def sqBB (s : Square) : Bitboard := 1 <<< s

/-- Build a bitboard from a predicate over the 64 squares. -/
def mkBB (p : Square → Bool) : Bitboard :=
  (List.range 64).foldr (fun s acc => (if p s then sqBB s else 0) ||| acc) 0

theorem testBit_sqBB (s u : Nat) : (sqBB s).testBit u = decide (s = u) := by
  have h : sqBB s = 2 ^ s := by
    simp [sqBB, Nat.shiftLeft_eq]
  by_cases hsu : s = u
  · subst hsu
    simp [h, Nat.testBit_two_pow_self]
  · simp [h, Nat.testBit_two_pow_of_ne hsu, hsu]

theorem testBit_foldveil (p : Square → Bool) (l : List Nat) (u : Nat) :
    (l.foldr (fun s acc => (if p s then sqBB s else 0) ||| acc) 0).testBit u
      = (decide (u ∈ l) && p u) := by
  induction l with
  | nil => simp [Nat.zero_testBit]
  | cons a t ih =>
    simp only [List.foldr_cons, Nat.testBit_lor, ih, List.mem_cons]
    by_cases hau : a = u
    · subst hau
      by_cases hp : p a <;> simp [hp, testBit_sqBB]
    · by_cases hp : p a <;>
        simp [hp, testBit_sqBB, hau, Nat.zero_testBit, Ne.symm hau]

theorem testBit_mkBB (p : Square → Bool) (u : Nat) :
    (mkBB p).testBit u = (decide (u < 64) && p u) := by
  simp [mkBB, testBit_foldveil, List.mem_range]

theorem mkBB_lt (p : Square → Bool) : mkBB p < 2 ^ 64 := by
  have key : ∀ l : List Nat, (∀ s ∈ l, s < 64) →
      (l.foldr (fun s acc => (if p s then sqBB s else 0) ||| acc) 0) < 2 ^ 64 := by
    intro l
    induction l with
    | nil => intro _; positivity
    | cons a t ih =>
      intro hmem
      have ha : a < 64 := hmem a (by simp)
      have hhead : (if p a then sqBB a else 0) < 2 ^ 64 := by
        by_cases hp : p a
        · simp only [hp, if_true, sqBB, Nat.shiftLeft_eq, one_mul]
          exact Nat.pow_lt_pow_right (by norm_num) ha
        · simp only [hp, if_false]
          positivity
      exact Nat.or_lt_two_pow hhead (ih (fun s hs => hmem s (by simp [hs])))
  exact key _ (fun s hs => by simpa [List.mem_range] using hs)

/-- A set intersection is empty iff no bit is common. -/
theorem land_eq_zero_iff (a b : Nat) :
    a &&& b = 0 ↔ ∀ i, ¬(a.testBit i = true ∧ b.testBit i = true) := by
  constructor
  · intro h i hi
    have := congrArg (Nat.testBit · i) h
    simp only [Nat.testBit_land, Nat.zero_testBit] at this
    rw [hi.1, hi.2] at this
    simp at this
  · intro h
    apply Nat.eq_of_testBit_eq
    intro i
    simp only [Nat.testBit_land, Nat.zero_testBit]
    by_cases ha : a.testBit i
    · by_cases hb : b.testBit i
      · exact absurd ⟨ha, hb⟩ (h i)
      · simp [ha, hb]
    · simp [ha]

theorem land_ne_zero_iff (a b : Nat) :
    a &&& b ≠ 0 ↔ ∃ i, a.testBit i = true ∧ b.testBit i = true := by
  rw [Ne, land_eq_zero_iff]
  push_neg
  rfl

/-- `lsb`: index of the least set bit (64 when none exists below 64). -/
def lsbSq (b : Bitboard) : Square :=
  ((List.range 64).find? (fun s => b.testBit s)).getD 64

/-- `more_than_one`. -/
def moreThanOne (b : Bitboard) : Bool := b &&& (b - 1) != 0

/-- 64-bit complement (`~b` on a 64-bit word). -/
def bbNot (b : Bitboard) : Bitboard := 0xFFFFFFFFFFFFFFFF ^^^ (b &&& 0xFFFFFFFFFFFFFFFF)

/-- The set bits of a (64-bit) bitboard in increasing order: the order in
which `pop_lsb` enumerates them. -/
def bbSquares (b : Bitboard) : List Square :=
  (List.range 64).filter (fun s => b.testBit s)

theorem mem_bbSquares {b : Bitboard} {s : Square} :
    s ∈ bbSquares b ↔ s < 64 ∧ b.testBit s = true := by
  simp [bbSquares, List.mem_filter, List.mem_range]

/-! ### Board geometry: files, ranks, rays, `between_bb`, `LineBB` -/

def fileOf (s : Nat) : Nat := s % 8

def rankOf (s : Nat) : Nat := s / 8

theorem square_eq_of_coords {s t : Nat}
    (hf : fileOf s = fileOf t) (hr : rankOf s = rankOf t) : s = t := by
  simp only [fileOf, rankOf] at hf hr
  omega

/-- `x` strictly between `a` and `b` on a one-dimensional axis. -/
def strictBetween (a x b : Nat) : Bool := decide (min a b < x) && decide (x < max a b)

/-- Same (non-degenerate) diagonal direction test: `|Δfile| = |Δrank| ≠ 0`. -/
def sameDiag (s t : Square) : Bool :=
  (decide (fileOf s + rankOf t = fileOf t + rankOf s)
      || decide (fileOf s + rankOf s = fileOf t + rankOf t))
    && decide (fileOf s ≠ fileOf t) && decide (rankOf s ≠ rankOf t)

/-- Membership predicate of `between_bb s t`: the squares strictly between
`s` and `t` along a shared rank, file or diagonal (empty otherwise). -/
def betweenP (s t u : Square) : Bool :=
  if s = t then false
  else if rankOf s = rankOf t then
    decide (rankOf u = rankOf s) && strictBetween (fileOf s) (fileOf u) (fileOf t)
  else if fileOf s = fileOf t then
    decide (fileOf u = fileOf s) && strictBetween (rankOf s) (rankOf u) (rankOf t)
  else if sameDiag s t then
    sameDiag s u && sameDiag u t && strictBetween (fileOf s) (fileOf u) (fileOf t)
  else false

/-- `between_bb(s, t)`. -/
def betweenBB (s t : Square) : Bitboard := mkBB (fun u => betweenP s t u)

/-- Membership predicate of `LineBB[a][b]`: the full line through `a` and `b`
(endpoints included) when they are aligned, empty otherwise. -/
def onLineP (a b u : Square) : Bool :=
  if a = b then false
  else if rankOf a = rankOf b then decide (rankOf u = rankOf a)
  else if fileOf a = fileOf b then decide (fileOf u = fileOf a)
  else if fileOf a + rankOf b = fileOf b + rankOf a then
    decide (fileOf u + rankOf a = fileOf a + rankOf u)
  else if fileOf a + rankOf a = fileOf b + rankOf b then
    decide (fileOf u + rankOf u = fileOf a + rankOf a)
  else false

def lineBB (a b : Square) : Bitboard := mkBB (onLineP a b)

/-- `aligned(a, b, c) = LineBB[a][b] & c`. -/
def aligned (a b c : Square) : Bool := lineBB a b &&& sqBB c != 0

/-- Rook pseudo-attack relation (any other square on the same rank or file). -/
def rookRayP (s t : Square) : Bool :=
  decide (s ≠ t) && (decide (rankOf s = rankOf t) || decide (fileOf s = fileOf t))

/-- `PseudoAttacks[ROOK][s]`. -/
def pseudoRookBB (s : Square) : Bitboard := mkBB (rookRayP s)

/-- `attacks_bb<ROOK>(s, occ)`: rook attacks from `s` under occupancy `occ` —
a square on the same rank/file is attacked iff no occupied square lies
strictly between (the first blocker itself is attacked). -/
def rookAttacksBB (s : Square) (occ : Bitboard) : Bitboard :=
  mkBB (fun t => rookRayP s t && (betweenBB s t &&& occ == 0))

theorem testBit_rookAttacksBB (s : Square) (occ : Bitboard) (t : Square) :
    (rookAttacksBB s occ).testBit t
      = (decide (t < 64) && rookRayP s t && (betweenBB s t &&& occ == 0)) := by
  rw [rookAttacksBB, testBit_mkBB]
  by_cases h : t < 64 <;> simp [h]

/-- Removing a square from the occupancy only enlarges rook attacks. -/
theorem rookAttacks_mono_remove (s : Square) (occ : Bitboard) (x : Square)
    {t : Square} (ht : (rookAttacksBB s occ).testBit t = true) :
    (rookAttacksBB s (occ ^^^ sqBB x)).testBit t = true ∨ occ.testBit x = false := by
  by_cases hx : occ.testBit x
  · left
    rw [testBit_rookAttacksBB] at ht ⊢
    simp only [Bool.and_eq_true, beq_iff_eq] at ht ⊢
    refine ⟨ht.1, ?_⟩
    rw [land_eq_zero_iff]
    intro i ⟨hib, hio⟩
    have hocc : occ.testBit i = true := by
      rw [Nat.testBit_xor, testBit_sqBB] at hio
      by_cases hxi : x = i
      · exact hxi ▸ hx
      · simpa [hxi] using hio
    have := (land_eq_zero_iff _ _).1 ht.2 i
    exact this ⟨hib, hocc⟩
  · right
    simpa using hx

theorem testBit_betweenBB (s t u : Nat) :
    (betweenBB s t).testBit u = (decide (u < 64) && betweenP s t u) := by
  rw [betweenBB, testBit_mkBB]

theorem betweenP_row_iff {s t : Nat} (hne : s ≠ t) (hr : rankOf s = rankOf t)
    (u : Nat) :
    betweenP s t u = true ↔
      rankOf u = rankOf s ∧
        min (fileOf s) (fileOf t) < fileOf u ∧ fileOf u < max (fileOf s) (fileOf t) := by
  simp [betweenP, hne, hr, strictBetween, and_assoc]

theorem betweenP_col_iff {s t : Nat} (hne : s ≠ t) (hr : rankOf s ≠ rankOf t)
    (hf : fileOf s = fileOf t) (u : Nat) :
    betweenP s t u = true ↔
      fileOf u = fileOf s ∧
        min (rankOf s) (rankOf t) < rankOf u ∧ rankOf u < max (rankOf s) (rankOf t) := by
  simp [betweenP, hne, hr, hf, strictBetween, and_assoc]

/-- Splitting a rook segment at an interior square: if `m` lies strictly
between `s` and `t` on a rank/file ray, then `m`–`t` is a rook ray as well,
and every square strictly between `m` and `t` is strictly between `s` and `t`
and distinct from `m`. -/
theorem between_split {s t m : Nat} (hs : s < 64) (ht : t < 64)
    (hray : rookRayP s t = true) (hm : betweenP s t m = true) :
    rookRayP m t = true ∧
      ∀ x, betweenP m t x = true → betweenP s t x = true ∧ x ≠ m := by
  have hray2 := hray
  rw [rookRayP, Bool.and_eq_true, Bool.or_eq_true] at hray2
  obtain ⟨hne, hrow | hcol⟩ := hray2
  · -- same rank
    rw [decide_eq_true_eq] at hne hrow
    rw [betweenP_row_iff hne hrow] at hm
    obtain ⟨hmr, hm1, hm2⟩ := hm
    have hmt : m ≠ t := by
      intro h
      subst h
      simp only [fileOf, rankOf] at hm1 hm2
      omega
    have hmtr : rankOf m = rankOf t := by rw [hmr, hrow]
    refine ⟨?_, ?_⟩
    · rw [rookRayP, Bool.and_eq_true, Bool.or_eq_true]
      exact ⟨by simpa using hmt, Or.inl (by simpa using hmtr)⟩
    · intro x hx
      rw [betweenP_row_iff hmt hmtr] at hx
      obtain ⟨hxr, hx1, hx2⟩ := hx
      have hxs : betweenP s t x = true := by
        rw [betweenP_row_iff hne hrow]
        refine ⟨by rw [hxr, hmr], ?_, ?_⟩ <;> omega
      refine ⟨hxs, ?_⟩
      intro h
      subst h
      omega
  · -- same file
    rw [decide_eq_true_eq] at hne hcol
    have hrowne : rankOf s ≠ rankOf t := by
      intro h
      exact hne (square_eq_of_coords hcol h)
    rw [betweenP_col_iff hne hrowne hcol] at hm
    obtain ⟨hmf, hm1, hm2⟩ := hm
    have hmt : m ≠ t := by
      intro h
      subst h
      omega
    have hmtf : fileOf m = fileOf t := by rw [hmf, hcol]
    have hmtr : rankOf m ≠ rankOf t := by
      intro h
      rw [h] at hm1 hm2
      omega
    refine ⟨?_, ?_⟩
    · rw [rookRayP, Bool.and_eq_true, Bool.or_eq_true]
      exact ⟨by simpa using hmt, Or.inr (by simpa using hmtf)⟩
    · intro x hx
      rw [betweenP_col_iff hmt hmtr hmtf] at hx
      obtain ⟨hxf, hx1, hx2⟩ := hx
      have hxs : betweenP s t x = true := by
        rw [betweenP_col_iff hne hrowne hcol]
        refine ⟨by rw [hxf, hmf], ?_, ?_⟩ <;> omega
      refine ⟨hxs, ?_⟩
      intro h
      subst h
      omega

/-- X-ray through a removed blocker: if a rook on `p` attacks `to` once the
square `from0` is removed from the occupancy but did not attack it before,
then `from0` lies on the segment and the rook already attacked `from0`. -/
theorem rook_reveal {t0 from0 p : Nat} {occ : Bitboard}
    (hto : t0 < 64) (hfrom : from0 < 64)
    (hocc_from : occ.testBit from0 = true)
    (h1 : (rookAttacksBB t0 (occ ^^^ sqBB from0)).testBit p = true)
    (h0 : (rookAttacksBB t0 occ).testBit p = false) :
    (rookAttacksBB from0 occ).testBit p = true := by
  rw [testBit_rookAttacksBB] at h1 h0
  simp only [Bool.and_eq_true, decide_eq_true_eq, beq_iff_eq] at h1
  obtain ⟨⟨hp64, hray⟩, hempty⟩ := h1
  have hnonempty : betweenBB t0 p &&& occ ≠ 0 := by
    intro h
    simp [hp64, hray, h] at h0
  obtain ⟨i, hib, hio⟩ := (land_ne_zero_iff _ _).1 hnonempty
  have hio2 : (occ ^^^ sqBB from0).testBit i = false := by
    by_contra h
    rw [Bool.not_eq_false] at h
    exact absurd ((land_eq_zero_iff _ _).1 hempty i) (by simp [hib, h])
  have hif : i = from0 := by
    rw [Nat.testBit_xor, testBit_sqBB, hio] at hio2
    by_cases h : from0 = i
    · exact h.symm
    · simp [h] at hio2
  subst hif
  rw [testBit_betweenBB] at hib
  simp only [Bool.and_eq_true, decide_eq_true_eq] at hib
  obtain ⟨hsplit1, hsplit2⟩ := between_split hto hp64 hray hib.2
  rw [testBit_rookAttacksBB]
  simp only [Bool.and_eq_true, decide_eq_true_eq, beq_iff_eq]
  refine ⟨⟨hp64, hsplit1⟩, ?_⟩
  rw [land_eq_zero_iff]
  intro x ⟨hxb, hxo⟩
  rw [testBit_betweenBB] at hxb
  simp only [Bool.and_eq_true, decide_eq_true_eq] at hxb
  obtain ⟨hxto, hxne⟩ := hsplit2 x hxb.2
  have : (occ ^^^ sqBB i).testBit x = false := by
    by_contra h
    rw [Bool.not_eq_false] at h
    exact absurd ((land_eq_zero_iff _ _).1 hempty x)
      (by
        refine fun hcon => hcon ⟨?_, h⟩
        rw [testBit_betweenBB]
        simp [hxb.1, hxto])
  rw [Nat.testBit_xor, testBit_sqBB] at this
  have hix : ¬(i = x) := fun h => hxne (h.symm)
  simp [hix] at this
  rw [this] at hxo
  exact Bool.false_ne_true hxo

/-! ### Moves

Modelled from the spec: `types.h` is not part of the translated sources.  A
move is a 16-bit word — bits 0–5 destination, bits 6–11 origin, bits 12–13
the promotion piece (offset from the queen, the only Makruk promotion), bits
14–15 the move type (0 = `NORMAL`, 1 = `PROMOTION`). -/

abbrev Move := Nat

def fromSq (m : Move) : Square := (m >>> 6) &&& 63

def toSq (m : Move) : Square := m &&& 63

/-- `type_of(m)`: 0 is `NORMAL`, 1 is `PROMOTION`. -/
def moveTypeOf (m : Move) : Nat := (m >>> 14) &&& 3

/-- The raw promotion bits; `promotion_type(m) - QUEEN` in the source. -/
def promoCode (m : Move) : Nat := (m >>> 12) &&& 3

/-- `promotion_type(m)`: the promotion bits offset from `QUEEN`. -/
def promotionTypeOf (m : Move) : PieceType :=
  match promoCode m with
  | 0 => .queen
  | 1 => .bishop
  | 2 => .knight
  | _ => .rook

/-- `make_move(from, to)` (a `NORMAL` move). -/
def mkMove (f t : Square) : Move := (f <<< 6) ||| t

/-- A `PROMOTION` move. -/
def mkPromotion (f t : Square) : Move := (1 <<< 14) ||| (f <<< 6) ||| t

/-! ### Process-wide tables (parameters of the embedding)

The Zobrist tables and the leaper attack tables are initialised outside the
translated unit (`Position::init`, `bitboard.cpp`); the embedding abstracts
over them.  `NO_PIECE` contributes the zero key, as in the source where
`Zobrist::psq[NO_PIECE][*]` stays zero-initialised. -/

structure Zobrist where
  psq : Color → PieceType → Nat → Key
  side : Key
  noPawns : Key

/-- Modelled from the spec: the leaper attack patterns (`attacks_from` for
pawn, met, khon, knight, king) are game-specific tables from `bitboard.h`,
outside the translated sources; the spec treats the exact patterns as opaque,
so the embedding quantifies over them.  They do not depend on the occupancy.
The khon ("bishop") and pawn patterns depend on the attacker's colour. -/
structure AttackEnv where
  pawnAttacks : Color → Square → Bitboard
  queenAttacks : Square → Bitboard
  bishopAttacks : Color → Square → Bitboard
  knightAttacks : Square → Bitboard
  kingAttacks : Square → Bitboard

/-! ### StateInfo and Position -/

/-- One stack entry of incremental state, as in `position.h`.  The
`previous` pointer is represented by the position's `hist` list instead. -/
structure StateInfo where
  pawnKey : Key
  materialKey : Key
  npmWhite : Int
  npmBlack : Int
  rule50 : Nat
  pliesFromNull : Nat
  key : Key
  checkersBB : Bitboard
  capturedPiece : Piece
  blockersWhite : Bitboard
  blockersBlack : Bitboard
  pinnersWhite : Bitboard
  pinnersBlack : Bitboard
  csPawn : Bitboard
  csQueen : Bitboard
  csBishop : Bitboard
  csKnight : Bitboard
  csRook : Bitboard
  csKing : Bitboard
  repetition : Int
deriving DecidableEq, Repr

def StateInfo.npm (si : StateInfo) : Color → Int
  | .white => si.npmWhite
  | .black => si.npmBlack

def StateInfo.blockersForKing (si : StateInfo) : Color → Bitboard
  | .white => si.blockersWhite
  | .black => si.blockersBlack

def StateInfo.pinners (si : StateInfo) : Color → Bitboard
  | .white => si.pinnersWhite
  | .black => si.pinnersBlack

def StateInfo.checkSquares (si : StateInfo) : PieceType → Bitboard
  | .pawn => si.csPawn
  | .queen => si.csQueen
  | .bishop => si.csBishop
  | .knight => si.csKnight
  | .rook => si.csRook
  | .king => si.csKing

/-- The position: board array, redundant bitboards / counts / piece lists,
side to move, game ply, and the `StateInfo` stack (`st` is the top,
`hist` the chain of `previous` pointers, caller-owned in the source). -/
structure Position where
  board : Square → Piece
  byColorBB : Color → Bitboard
  byTypeBB : PieceType → Bitboard
  allBB : Bitboard
  pieceCount : Color → PieceType → Nat
  pieceCountAll : Color → Nat
  pieceList : Color → PieceType → List Square
  sideToMove : Color
  gamePly : Nat
  st : StateInfo
  hist : List StateInfo

/-- `pieces()`. -/
def Position.pieces (pos : Position) : Bitboard := pos.allBB

/-- `pieces(pt)`. -/
def Position.piecesT (pos : Position) (pt : PieceType) : Bitboard := pos.byTypeBB pt

/-- `pieces(c, pt)`. -/
def Position.piecesCT (pos : Position) (c : Color) (pt : PieceType) : Bitboard :=
  pos.byColorBB c &&& pos.byTypeBB pt

/-- `square<KING>(c)`: the head of the king's piece list. -/
def Position.kingSq (pos : Position) (c : Color) : Square :=
  (pos.pieceList c .king).headD 0

/-- `count<PAWN>()`: pawns of both colours. -/
def Position.countPawns (pos : Position) : Nat :=
  pos.pieceCount .white .pawn + pos.pieceCount .black .pawn

/-- The `StateInfo` chain with the current state first (`st`, `st->previous`,
`st->previous->previous`, ...). -/
def Position.chain (pos : Position) : List StateInfo := pos.st :: pos.hist

/-! ### Board & piece store

Modelled from the spec: `put_piece` / `remove_piece` / `move_piece` live in
`position.h`, outside the translated sources.  Spec §4.1: the piece list per
(colour, type) is an unordered array; removal swaps the removed entry with
the last live entry (swap-remove) and drops the last slot; insertion
appends.  The square→index map is represented by the index of the square in
the list. -/

def swapRemove (l : List Square) (s : Square) : List Square :=
  (l.set (l.indexOf s) (l.getLastD 0)).dropLast

def put_piece (pos : Position) (c : Color) (pt : PieceType) (s : Square) : Position :=
  { pos with
    board := fun x => if x = s then some (c, pt) else pos.board x
    allBB := pos.allBB ||| sqBB s
    byTypeBB := fun pt2 => if pt2 = pt then pos.byTypeBB pt ||| sqBB s else pos.byTypeBB pt2
    byColorBB := fun c2 => if c2 = c then pos.byColorBB c ||| sqBB s else pos.byColorBB c2
    pieceCount := fun c2 pt2 =>
      if c2 = c ∧ pt2 = pt then pos.pieceCount c pt + 1 else pos.pieceCount c2 pt2
    pieceCountAll := fun c2 => if c2 = c then pos.pieceCountAll c + 1 else pos.pieceCountAll c2
    pieceList := fun c2 pt2 =>
      if c2 = c ∧ pt2 = pt then pos.pieceList c pt ++ [s] else pos.pieceList c2 pt2 }

def remove_piece (pos : Position) (c : Color) (pt : PieceType) (s : Square) : Position :=
  { pos with
    board := fun x => if x = s then none else pos.board x
    allBB := pos.allBB ^^^ sqBB s
    byTypeBB := fun pt2 => if pt2 = pt then pos.byTypeBB pt ^^^ sqBB s else pos.byTypeBB pt2
    byColorBB := fun c2 => if c2 = c then pos.byColorBB c ^^^ sqBB s else pos.byColorBB c2
    pieceCount := fun c2 pt2 =>
      if c2 = c ∧ pt2 = pt then pos.pieceCount c pt - 1 else pos.pieceCount c2 pt2
    pieceCountAll := fun c2 => if c2 = c then pos.pieceCountAll c - 1 else pos.pieceCountAll c2
    pieceList := fun c2 pt2 =>
      if c2 = c ∧ pt2 = pt then swapRemove (pos.pieceList c pt) s else pos.pieceList c2 pt2 }

def move_piece (pos : Position) (c : Color) (pt : PieceType) (f t : Square) : Position :=
  { pos with
    board := fun x => if x = t then some (c, pt) else if x = f then none else pos.board x
    allBB := pos.allBB ^^^ (sqBB f ||| sqBB t)
    byTypeBB := fun pt2 =>
      if pt2 = pt then pos.byTypeBB pt ^^^ (sqBB f ||| sqBB t) else pos.byTypeBB pt2
    byColorBB := fun c2 =>
      if c2 = c then pos.byColorBB c ^^^ (sqBB f ||| sqBB t) else pos.byColorBB c2
    pieceList := fun c2 pt2 =>
      if c2 = c ∧ pt2 = pt then
        (pos.pieceList c pt).set ((pos.pieceList c pt).indexOf f) t
      else pos.pieceList c2 pt2 }

/-! ### Attack / check engine (`position.cpp`) -/

/-- `Position::attackers_to(s, occupied)`: every piece of either colour
attacking `s`, sliders (rooks) computed from the supplied occupancy. -/
def attackers_to (env : AttackEnv) (pos : Position) (s : Square) (occ : Bitboard) :
    Bitboard :=
    (env.pawnAttacks .black s &&& pos.piecesCT .white .pawn)
  ||| (env.pawnAttacks .white s &&& pos.piecesCT .black .pawn)
  ||| (env.queenAttacks s &&& pos.piecesT .queen)
  ||| (env.bishopAttacks .black s &&& pos.piecesCT .white .bishop)
  ||| (env.bishopAttacks .white s &&& pos.piecesCT .black .bishop)
  ||| (env.knightAttacks s &&& pos.piecesT .knight)
  ||| (rookAttacksBB s occ &&& pos.piecesT .rook)
  ||| (env.kingAttacks s &&& pos.piecesT .king)

/-- `Position::slider_blockers(sliders, s, pinners)`: returns the blockers
bitboard and (second component) the pinners out-parameter. -/
def slider_blockers (pos : Position) (sliders : Bitboard) (s : Square) :
    Bitboard × Bitboard :=
  let snipers := pseudoRookBB s &&& pos.piecesT .rook &&& sliders
  let occupancy := pos.pieces ^^^ snipers
  (bbSquares snipers).foldl
    (fun acc sniperSq =>
      let b := betweenBB s sniperSq &&& occupancy
      if b ≠ 0 ∧ ¬ (moreThanOne b = true) then
        (acc.1 ||| b,
         if b &&& pos.byColorBB (colorOf0 (pos.board s)) ≠ 0 then acc.2 ||| sqBB sniperSq
         else acc.2)
      else acc)
    (0, 0)

/-- `Position::set_check_info(si)`: blockers/pinners for both kings and the
check squares of the opponent of the side to move. -/
def applyCheckInfo (env : AttackEnv) (pos : Position) (si : StateInfo) : StateInfo :=
  let bw := slider_blockers pos (pos.byColorBB .black) (pos.kingSq .white)
  let bb := slider_blockers pos (pos.byColorBB .white) (pos.kingSq .black)
  let ksq := pos.kingSq pos.sideToMove.other
  { si with
    blockersWhite := bw.1
    pinnersBlack := bw.2
    blockersBlack := bb.1
    pinnersWhite := bb.2
    csPawn := env.pawnAttacks pos.sideToMove.other ksq
    csQueen := env.queenAttacks ksq
    csBishop := env.bishopAttacks pos.sideToMove.other ksq
    csKnight := env.knightAttacks ksq
    csRook := rookAttacksBB ksq pos.allBB
    csKing := 0 }

/-- The `Pieces[]` array: every concrete piece, in enum order. -/
def pieceEnum : List (Color × PieceType) :=
  [(.white, .pawn), (.white, .queen), (.white, .bishop),
   (.white, .knight), (.white, .rook), (.white, .king),
   (.black, .pawn), (.black, .queen), (.black, .bishop),
   (.black, .knight), (.black, .rook), (.black, .king)]

/-- The primary-key part of `set_state`: XOR of the Zobrist values of every
occupied square, plus the side key when Black is to move. -/
def stateKeyC (zob : Zobrist) (pos : Position) : Key :=
  let base := (bbSquares pos.pieces).foldl
    (fun k s =>
      match pos.board s with
      | none => k
      | some (c, pt) => k ^^^ zob.psq c pt s) 0
  if pos.sideToMove = .black then base ^^^ zob.side else base

/-- The pawn-key part of `set_state`. -/
def statePawnKeyC (zob : Zobrist) (pos : Position) : Key :=
  (bbSquares pos.pieces).foldl
    (fun k s =>
      match pos.board s with
      | some (c, .pawn) => k ^^^ zob.psq c .pawn s
      | _ => k) zob.noPawns

/-- The non-pawn-material part of `set_state` for one colour. -/
def stateNpmC (pval : PieceType → Int) (pos : Position) (c : Color) : Int :=
  (bbSquares pos.pieces).foldl
    (fun v s =>
      match pos.board s with
      | some (c2, pt) =>
        if c2 = c ∧ pt ≠ .pawn ∧ pt ≠ .king then v + pval pt else v
      | none => v) 0

/-- The material-key part of `set_state`: for every piece, XOR of
`psq[pc][0..count)`. -/
def stateMatKeyC (zob : Zobrist) (pos : Position) : Key :=
  pieceEnum.foldl
    (fun k cp =>
      (List.range (pos.pieceCount cp.1 cp.2)).foldl
        (fun k2 cnt => k2 ^^^ zob.psq cp.1 cp.2 cnt) k) 0

/-- The checkers part of `set_state`: attackers of the king of the side to
move belonging to the opponent. -/
def stateCheckersC (env : AttackEnv) (pos : Position) : Bitboard :=
  attackers_to env pos (pos.kingSq pos.sideToMove) pos.allBB
    &&& pos.byColorBB pos.sideToMove.other

/-- `Position::set_state(si)`: the full recomputation of the incremental
fields from the board; all other fields of `si` are kept. -/
def set_state (env : AttackEnv) (zob : Zobrist) (pval : PieceType → Int)
    (pos : Position) (si : StateInfo) : StateInfo :=
  applyCheckInfo env pos
    { si with
      key := stateKeyC zob pos
      pawnKey := statePawnKeyC zob pos
      materialKey := stateMatKeyC zob pos
      npmWhite := stateNpmC pval pos .white
      npmBlack := stateNpmC pval pos .black
      checkersBB := stateCheckersC env pos }

/-- The incremental state is exactly what the full recomputation produces. -/
def StateOk (env : AttackEnv) (zob : Zobrist) (pval : PieceType → Int)
    (pos : Position) : Prop :=
  pos.st = set_state env zob pval pos pos.st

instance (env : AttackEnv) (zob : Zobrist) (pval : PieceType → Int)
    (pos : Position) : Decidable (StateOk env zob pval pos) := by
  unfold StateOk
  infer_instance

/-! ### Move applier -/

/-- The repetition scan of `do_move`: starting from the state at ply
distance `i` (the head of `l`), compare keys every two plies up to distance
`endv`; on the first match return `±i` depending on whether the matching
state was itself marked. -/
def repAux (k : Key) (endv : Nat) : Nat → List StateInfo → Int
  | _, [] => 0
  | i, stp :: rest =>
    if endv < i then 0
    else if stp.key = k then (if stp.repetition ≠ 0 then -(i : Int) else (i : Int))
    else
      match rest with
      | [] => 0
      | _ :: rest2 => repAux k endv (i + 2) rest2

/-- The capture block of `do_move`: update pawn key / non-pawn material,
remove the captured piece, update primary and material keys, and reset the
rule-50 counter unless the position became a pawnless endgame. -/
def doMoveCapture (zob : Zobrist) (pval : PieceType → Int) (t : Square)
    (them : Color) (cap : Piece) (pos0 : Position) (st0 : StateInfo) (k0 : Key) :
    Position × StateInfo × Key :=
  match cap with
  | none => (pos0, st0, k0)
  | some (cc, cpt) =>
    let stA :=
      if cpt = PieceType.pawn then
        { st0 with pawnKey := st0.pawnKey ^^^ zob.psq cc PieceType.pawn t }
      else
        match them with
        | .white => { st0 with npmWhite := st0.npmWhite - pval cpt }
        | .black => { st0 with npmBlack := st0.npmBlack - pval cpt }
    let posA := remove_piece pos0 cc cpt t
    let kA := k0 ^^^ zob.psq cc cpt t
    let stB :=
      { stA with
        materialKey := stA.materialKey ^^^ zob.psq cc cpt (posA.pieceCount cc cpt) }
    let stC :=
      if 0 < posA.countPawns ∨ (cpt = PieceType.pawn ∧ 1 < posA.pieceCountAll cc) then
        { stB with rule50 := 0 }
      else stB
    (posA, stC, kA)

/-- The pawn block of `do_move`: promotion piece replacement plus the pawn
key update and rule-50 reset. -/
def doMovePawn (zob : Zobrist) (pval : PieceType → Int) (m : Move)
    (us uc : Color) (f t : Square) (pos2 : Position) (st1 : StateInfo) (k2 : Key) :
    Position × StateInfo × Key :=
  let step2a :=
    if moveTypeOf m = 1 then
      let ppt := promotionTypeOf m
      let posP := remove_piece pos2 uc .pawn t
      let posQ := put_piece posP us ppt t
      let kP := k2 ^^^ zob.psq uc PieceType.pawn t ^^^ zob.psq us ppt t
      let stP :=
        { st1 with
          pawnKey := st1.pawnKey ^^^ zob.psq uc PieceType.pawn t
          materialKey := st1.materialKey
            ^^^ zob.psq us ppt (posQ.pieceCount us ppt - 1)
            ^^^ zob.psq uc PieceType.pawn (posQ.pieceCount uc .pawn) }
      let stP2 :=
        match us with
        | .white => { stP with npmWhite := stP.npmWhite + pval ppt }
        | .black => { stP with npmBlack := stP.npmBlack + pval ppt }
      (posQ, stP2, kP)
    else (pos2, st1, k2)
  let stp3 :=
    { step2a.2.1 with
      pawnKey := step2a.2.1.pawnKey
        ^^^ zob.psq uc PieceType.pawn f ^^^ zob.psq uc PieceType.pawn t
      rule50 := 0 }
  (step2a.1, stp3, step2a.2.2)

/-- The tail of `do_move`: store captured piece and final key, compute the
checkers from the `givesCheck` hint, flip the side, push the new state,
recompute the check info and the repetition marker. -/
def doMoveFinish (env : AttackEnv) (gc : Bool) (pos : Position) (us : Color)
    (cap : Piece) (pos3 : Position) (st2 : StateInfo) (k3 : Key) : Position :=
  let them := us.other
  let st4 :=
    { st2 with
      capturedPiece := cap
      key := k3
      checkersBB :=
        if gc then
          attackers_to env pos3 (pos3.kingSq them) pos3.allBB &&& pos3.byColorBB us
        else 0 }
  let pos5 := { pos3 with sideToMove := them, st := st4, hist := pos.st :: pos.hist }
  let pos6 := { pos5 with st := applyCheckInfo env pos5 pos5.st }
  let endv := min pos6.st.rule50 pos6.st.pliesFromNull
  let rep : Int :=
    if endv < 4 then 0
    else repAux pos6.st.key endv 4 (pos6.chain.drop 4)
  { pos6 with st := { pos6.st with repetition := rep } }

/-- The body of `do_move` once the moving piece is known. -/
def doMoveMain (env : AttackEnv) (zob : Zobrist) (pval : PieceType → Int)
    (m : Move) (gc : Bool) (pos : Position) (uc : Color) (upt : PieceType) :
    Position :=
  let us := pos.sideToMove
  let them := us.other
  let f := fromSq m
  let t := toSq m
  let st0 : StateInfo :=
    { pos.st with
      rule50 := pos.st.rule50 + 1
      pliesFromNull := pos.st.pliesFromNull + 1 }
  let pos0 := { pos with gamePly := pos.gamePly + 1 }
  let s1 := doMoveCapture zob pval t them (pos.board t) pos0 st0 (pos.st.key ^^^ zob.side)
  let k2 := s1.2.2 ^^^ zob.psq uc upt f ^^^ zob.psq uc upt t
  let pos2 := move_piece s1.1 uc upt f t
  let s2 :=
    if upt = PieceType.pawn then doMovePawn zob pval m us uc f t pos2 s1.2.1 k2
    else (pos2, s1.2.1, k2)
  doMoveFinish env gc pos us (pos.board t) s2.1 s2.2.1 s2.2.2

/-- `Position::do_move(m, newSt, givesCheck)`. -/
def do_move (env : AttackEnv) (zob : Zobrist) (pval : PieceType → Int)
    (m : Move) (givesCheck : Bool) (pos : Position) : Position :=
  match pos.board (fromSq m) with
  | none => pos
  | some (uc, upt) => doMoveMain env zob pval m givesCheck pos uc upt

/-- `Position::undo_move(m)`. -/
def undo_move (m : Move) (pos : Position) : Position :=
  let us := pos.sideToMove.other
  let f := fromSq m
  let t := toSq m
  match pos.board t with
  | none => pos
  | some (c0, pt0) =>
    let step1 :=
      if moveTypeOf m = 1 then
        let posA := remove_piece pos c0 pt0 t
        let posB := put_piece posA us .pawn t
        (posB, us, PieceType.pawn)
      else (pos, c0, pt0)
    let pos2 := move_piece step1.1 step1.2.1 step1.2.2 t f
    let pos3 :=
      match pos.st.capturedPiece with
      | none => pos2
      | some (cc, cpt) => put_piece pos2 cc cpt t
    match pos.hist with
    | [] => { pos3 with sideToMove := us, gamePly := pos.gamePly - 1 }
    | h :: tl =>
      { pos3 with sideToMove := us, gamePly := pos.gamePly - 1, st := h, hist := tl }

/-- `Position::do_null_move(newSt)` (precondition: not in check). -/
def do_null_move (env : AttackEnv) (zob : Zobrist) (pos : Position) : Position :=
  let st1 :=
    { pos.st with
      key := pos.st.key ^^^ zob.side
      rule50 := pos.st.rule50 + 1
      pliesFromNull := 0 }
  let pos1 :=
    { pos with st := st1, hist := pos.st :: pos.hist, sideToMove := pos.sideToMove.other }
  let pos2 := { pos1 with st := applyCheckInfo env pos1 pos1.st }
  { pos2 with st := { pos2.st with repetition := 0 } }

/-- `Position::undo_null_move()`. -/
def undo_null_move (pos : Position) : Position :=
  match pos.hist with
  | [] => { pos with sideToMove := pos.sideToMove.other }
  | h :: tl => { pos with st := h, hist := tl, sideToMove := pos.sideToMove.other }

/-- `Position::key_after(m)`: speculative key of the position after `m`. -/
def key_after (zob : Zobrist) (pos : Position) (m : Move) : Key :=
  let f := fromSq m
  let t := toSq m
  let k := pos.st.key ^^^ zob.side
  let k :=
    match pos.board t with
    | none => k
    | some (cc, cpt) => k ^^^ zob.psq cc cpt t
  match pos.board f with
  | none => k
  | some (c, pt) => k ^^^ zob.psq c pt t ^^^ zob.psq c pt f

/-! ### Legality -/

def typeOn (pos : Position) (s : Square) : Option PieceType :=
  (pos.board s).map (fun p => p.2)

def colorOn (pos : Position) (s : Square) : Option Color :=
  (pos.board s).map (fun p => p.1)

/-- `Position::legal(m)` for a pseudo-legal move. -/
def legal (env : AttackEnv) (pos : Position) (m : Move) : Bool :=
  let us := pos.sideToMove
  let f := fromSq m
  if typeOn pos f = some .king then
    (attackers_to env pos (toSq m) pos.allBB &&& pos.byColorBB us.other) == 0
  else
    (pos.st.blockersForKing us &&& sqBB f == 0)
      || aligned f (toSq m) (pos.kingSq us)

/-- `Rank3BB` (rank index 2). -/
def rank3BB : Bitboard := 0xFF0000

/-- `Rank6BB` (rank index 5). -/
def rank6BB : Bitboard := 0xFF0000000000

/-- `from + pawn_push(us) == to`. -/
def pawnPushOk (us : Color) (f t : Square) : Bool :=
  match us with
  | .white => t == f + 8
  | .black => f == t + 8

/-- `attacks_from(pt, s)` for the non-pawn, non-khon types as used by
`pseudo_legal` (rooks from the live occupancy). -/
def attacksFromPT (env : AttackEnv) (pos : Position) (pt : PieceType) (s : Square) :
    Bitboard :=
  match pt with
  | .queen => env.queenAttacks s
  | .knight => env.knightAttacks s
  | .rook => rookAttacksBB s pos.allBB
  | .king => env.kingAttacks s
  | .pawn => env.pawnAttacks pos.sideToMove s
  | .bishop => env.bishopAttacks pos.sideToMove s

/-- `Position::pseudo_legal(m)`.  The non-`NORMAL` branch delegates to the
legal move list; `gen` stands for `MoveList<LEGAL>(*this)` (modelled from the
spec: move generation is an external collaborator). -/
def pseudo_legal (env : AttackEnv) (gen : List Move) (pos : Position) (m : Move) :
    Bool :=
  let us := pos.sideToMove
  let f := fromSq m
  let t := toSq m
  let tRank6 := if us = .white then rank6BB else rank3BB
  if moveTypeOf m ≠ 0 then gen.contains m
  else if promoCode m ≠ 0 then false
  else
    match pos.board f with
    | none => false
    | some (c, pt) =>
      if c ≠ us then false
      else if pos.byColorBB us &&& sqBB t ≠ 0 then false
      else
        let shapeOk : Bool :=
          if pt = .pawn then
            if tRank6 &&& sqBB t ≠ 0 then false
            else if (env.pawnAttacks us f &&& pos.byColorBB us.other &&& sqBB t = 0)
                ∧ ¬(pawnPushOk us f t = true ∧ pos.board t = none) then false
            else true
          else if pt = .bishop then env.bishopAttacks c f &&& sqBB t != 0
          else attacksFromPT env pos pt f &&& sqBB t != 0
        if shapeOk = false then false
        else if pos.st.checkersBB ≠ 0 then
          if pt ≠ .king then
            if moreThanOne pos.st.checkersBB then false
            else if (betweenBB (lsbSq pos.st.checkersBB) (pos.kingSq us)
                ||| pos.st.checkersBB) &&& sqBB t = 0 then false
            else true
          else if attackers_to env pos t (pos.allBB ^^^ sqBB f)
              &&& pos.byColorBB us.other ≠ 0 then false
          else true
        else true

/-! ### Static exchange evaluation -/

/-- `PieceValue[MG][piece_on(s)]` with `NO_PIECE ↦ 0`. -/
def pcValP (pval : PieceType → Int) : Piece → Int
  | none => 0
  | some (_, pt) => pval pt

/-- `min_attacker`: locate and remove the least valuable attacker of `t0`
for the side to move, adding rook X-rays behind removed khons/rooks. -/
def minAttackerStep (byTypeBB : PieceType → Bitboard) (t0 : Square)
    (pt : PieceType) (b occupied attackers : Bitboard) :
    PieceType × Bitboard × Bitboard :=
  let occupied2 := occupied ^^^ sqBB (lsbSq b)
  let attackers2 :=
    if pt = .bishop ∨ pt = .rook then
      attackers ||| (rookAttacksBB t0 occupied2 &&& byTypeBB .rook)
    else attackers
  (pt, occupied2, attackers2 &&& occupied2)

def min_attacker (byTypeBB : PieceType → Bitboard) (t0 : Square)
    (stmAttackers occupied attackers : Bitboard) :
    PieceType × Bitboard × Bitboard :=
  if stmAttackers &&& byTypeBB .pawn ≠ 0 then
    minAttackerStep byTypeBB t0 .pawn (stmAttackers &&& byTypeBB .pawn) occupied attackers
  else if stmAttackers &&& byTypeBB .queen ≠ 0 then
    minAttackerStep byTypeBB t0 .queen (stmAttackers &&& byTypeBB .queen) occupied attackers
  else if stmAttackers &&& byTypeBB .bishop ≠ 0 then
    minAttackerStep byTypeBB t0 .bishop (stmAttackers &&& byTypeBB .bishop) occupied attackers
  else if stmAttackers &&& byTypeBB .knight ≠ 0 then
    minAttackerStep byTypeBB t0 .knight (stmAttackers &&& byTypeBB .knight) occupied attackers
  else if stmAttackers &&& byTypeBB .rook ≠ 0 then
    minAttackerStep byTypeBB t0 .rook (stmAttackers &&& byTypeBB .rook) occupied attackers
  else (.king, occupied, attackers)

/-- The side-to-move attackers of one loop iteration: pinned pieces may not
take part while any of the opponent's pinners is still on the board. -/
def seeSa (colorBB : Color → Bitboard) (pW pB bW bB : Bitboard)
    (stm : Color) (occupied attackers : Bitboard) : Bitboard :=
  let pinnersOpp := match stm.other with | Color.white => pW | Color.black => pB
  let blockersStm := match stm with | Color.white => bW | Color.black => bB
  let sa0 := attackers &&& colorBB stm
  if pinnersOpp &&& occupied ≠ 0 then sa0 &&& bbNot blockersStm else sa0

/-- The `while (true)` loop of `see_ge`, with explicit fuel.  Each iteration
either stops or removes one occupied square, so any fuel above the number of
set bits of `occupied` is never exhausted; the fuel-out value mirrors the
"side to move loses" break. -/
def seeLoop (pval : PieceType → Int) (byTypeBB : PieceType → Bitboard)
    (colorBB : Color → Bitboard) (pinnersW pinnersB blockersW blockersB : Bitboard)
    (t0 : Square) (us : Color) :
    Nat → Color → Int → Bitboard → Bitboard → Bool
  | 0, stm, _, _, _ => decide (us ≠ stm)
  | fuel + 1, stm, balance, occupied, attackers =>
    if seeSa colorBB pinnersW pinnersB blockersW blockersB stm occupied attackers
        = 0 then
      decide (us ≠ stm)
    else
      if 0 ≤ -balance - 1 - pval (min_attacker byTypeBB t0
          (seeSa colorBB pinnersW pinnersB blockersW blockersB stm occupied
            attackers) occupied attackers).1 then
        decide (us ≠ (if (min_attacker byTypeBB t0
              (seeSa colorBB pinnersW pinnersB blockersW blockersB stm occupied
                attackers) occupied attackers).1 = PieceType.king ∧
              (min_attacker byTypeBB t0
                (seeSa colorBB pinnersW pinnersB blockersW blockersB stm occupied
                  attackers) occupied attackers).2.2 &&& colorBB stm.other ≠ 0
            then stm.other.other else stm.other))
      else
        seeLoop pval byTypeBB colorBB pinnersW pinnersB blockersW blockersB t0 us
          fuel stm.other
          (-balance - 1 - pval (min_attacker byTypeBB t0
            (seeSa colorBB pinnersW pinnersB blockersW blockersB stm occupied
              attackers) occupied attackers).1)
          (min_attacker byTypeBB t0
            (seeSa colorBB pinnersW pinnersB blockersW blockersB stm occupied
              attackers) occupied attackers).2.1
          (min_attacker byTypeBB t0
            (seeSa colorBB pinnersW pinnersB blockersW blockersB stm occupied
              attackers) occupied attackers).2.2

/-- `Position::see_ge(m, threshold)`. -/
def see_ge (env : AttackEnv) (pval : PieceType → Int) (pos : Position)
    (m : Move) (threshold : Int) : Bool :=
  if moveTypeOf m ≠ 0 then decide ((0 : Int) ≥ threshold)
  else
    let f := fromSq m
    let t := toSq m
    match pos.board f with
    | none => false
    | some (uc, upt) =>
      let us := uc
      let stm := us.other
      let balance := pcValP pval (pos.board t) - threshold
      if balance < 0 then false
      else
        let balance2 := balance - pval upt
        if 0 ≤ balance2 then true
        else
          let occupied := pos.pieces ^^^ sqBB f ^^^ sqBB t
          let attackers := attackers_to env pos t occupied &&& occupied
          seeLoop pval pos.byTypeBB pos.byColorBB
            pos.st.pinnersWhite pos.st.pinnersBlack
            pos.st.blockersWhite pos.st.blockersBlack
            t us (occupied + 1) stm balance2 occupied attackers

/-! ### Upcoming-repetition (cuckoo) detector -/

/-- First cuckoo hash. -/
def cuckooH1 (h : Key) : Nat := h &&& 0x1fff

/-- Second cuckoo hash. -/
def cuckooH2 (h : Key) : Nat := (h >>> 16) &&& 0x1fff

/-- One iteration body of the `has_game_cycle` loop for the state at ply
distance `i`: probe the two cuckoo slots with the key delta; on a match
verify that the squares between the stored move's endpoints are empty; then
accept beyond the root (`ply > i`), or — at or before the root — accept only
when the piece on the occupied endpoint belongs to the side to move and the
earlier state is itself marked.  `false` means "continue scanning". -/
def hgcStep (cuckooT : Nat → Key) (cuckooMoveT : Nat → Move)
    (occupied : Bitboard) (board : Square → Piece) (stm : Color)
    (origKey : Key) (ply : Int) (i : Nat) (stp : StateInfo) : Bool :=
  let moveKey := origKey ^^^ stp.key
  let j1 := cuckooH1 moveKey
  let j2 := cuckooH2 moveKey
  if cuckooT j1 = moveKey ∨ cuckooT j2 = moveKey then
    let j := if cuckooT j1 = moveKey then j1 else j2
    let mv := cuckooMoveT j
    let s1 := fromSq mv
    let s2 := toSq mv
    if betweenBB s1 s2 &&& occupied = 0 then
      if (i : Int) < ply then true
      else if colorOf0 (board (if board s1 = none then s2 else s1)) ≠ stm then false
      else if stp.repetition ≠ 0 then true
      else false
    else false
  else false

/-- The scan loop of `has_game_cycle`: the head of `l` is the state at ply
distance `i` (odd), stepping two plies at a time up to `endv`.  The cuckoo
tables are parameters (they are globals built by `Position::init` from the
Zobrist tables). -/
def hgcAux (cuckooT : Nat → Key) (cuckooMoveT : Nat → Move)
    (occupied : Bitboard) (board : Square → Piece) (stm : Color)
    (origKey : Key) (ply : Int) (endv : Nat) :
    Nat → List StateInfo → Bool
  | _, [] => false
  | i, stp :: rest =>
    if endv < i then false
    else if hgcStep cuckooT cuckooMoveT occupied board stm origKey ply i stp then
      true
    else
      match rest with
      | [] => false
      | _ :: rest2 =>
        hgcAux cuckooT cuckooMoveT occupied board stm origKey ply endv (i + 2) rest2

/-- `Position::has_game_cycle(ply)`. -/
def has_game_cycle (cuckooT : Nat → Key) (cuckooMoveT : Nat → Move)
    (pos : Position) (ply : Int) : Bool :=
  let endv := min pos.st.rule50 pos.st.pliesFromNull
  if endv < 3 then false
  else
    hgcAux cuckooT cuckooMoveT pos.allBB pos.board pos.sideToMove
      pos.st.key ply endv 3 (pos.chain.drop 3)

/-! ### Consistency invariants -/

/-- Structural consistency of a `Position` (§3 of the spec, and what
`pos_is_ok` checks in full mode): the bitboards, counts and piece lists are
coherent with the board array, each side has exactly one king, and the
since-null counter does not exceed the state stack. -/
def Consistent (pos : Position) : Prop :=
  pos.allBB < 2 ^ 64 ∧
  (∀ s, s < 64 → (pos.allBB.testBit s = true ↔ pos.board s ≠ none)) ∧
  (∀ c : Color, pos.byColorBB c < 2 ^ 64 ∧
    ∀ s, s < 64 → ((pos.byColorBB c).testBit s = true ↔ colorOn pos s = some c)) ∧
  (∀ pt : PieceType, pos.byTypeBB pt < 2 ^ 64 ∧
    ∀ s, s < 64 → ((pos.byTypeBB pt).testBit s = true ↔ typeOn pos s = some pt)) ∧
  (∀ c : Color, ∀ pt : PieceType,
    pos.pieceCount c pt = (pos.pieceList c pt).length ∧
    (pos.pieceList c pt).Nodup ∧
    (∀ s ∈ pos.pieceList c pt, s < 64 ∧ pos.board s = some (c, pt)) ∧
    (∀ s, s < 64 → pos.board s = some (c, pt) → s ∈ pos.pieceList c pt)) ∧
  (∀ c : Color, pos.pieceCountAll c =
    pos.pieceCount c .pawn + pos.pieceCount c .queen + pos.pieceCount c .bishop +
    pos.pieceCount c .knight + pos.pieceCount c .rook + pos.pieceCount c .king) ∧
  (∀ c : Color, pos.pieceCount c .king = 1) ∧
  pos.st.pliesFromNull ≤ pos.hist.length

instance (pos : Position) : Decidable (Consistent pos) := by
  unfold Consistent
  infer_instance

/-- The structural preconditions of `do_move`/`undo_move` (the asserts of
the source: the move is well-formed, moves a piece of the side to move to a
square not occupied by a friend, never captures a king, and promotions move
a pawn with queen promotion bits). -/
def MoveOk (pos : Position) (m : Move) : Prop :=
  fromSq m < 64 ∧ toSq m < 64 ∧ fromSq m ≠ toSq m ∧
  (∃ pt, pos.board (fromSq m) = some (pos.sideToMove, pt)) ∧
  (∀ c pt, pos.board (toSq m) = some (c, pt) → c = pos.sideToMove.other ∧ pt ≠ .king) ∧
  (moveTypeOf m = 1 →
    pos.board (fromSq m) = some (pos.sideToMove, .pawn) ∧ promoCode m = 0)

instance (pos : Position) (m : Move) : Decidable (MoveOk pos m) := by
  unfold MoveOk
  infer_instance

/-! ### Concrete instantiations used by witnesses and counterexamples -/

/-- Enum index of a concrete piece (as in the `Piece` enum). -/
def pieceIdx (c : Color) (pt : PieceType) : Nat :=
  (match c with | .white => 0 | .black => 6) +
  (match pt with
   | .pawn => 0 | .queen => 1 | .bishop => 2
   | .knight => 3 | .rook => 4 | .king => 5)

/-- A concrete Zobrist table with pairwise-distinct powers of two, so that
XOR combinations never collide. -/
def wzob : Zobrist :=
  { psq := fun c pt n => 2 ^ (64 * pieceIdx c pt + n % 64)
    side := 2 ^ 768
    noPawns := 2 ^ 769 }

/-- Concrete Makruk-flavoured piece values (the king is worthless, as in
`PieceValue[MG][KING] = VALUE_ZERO`). -/
def wpval : PieceType → Int
  | .pawn => 90
  | .queen => 300
  | .bishop => 270
  | .knight => 310
  | .rook => 500
  | .king => 0

def kingAttConcrete (s : Square) : Bitboard :=
  mkBB (fun t =>
    decide (s ≠ t) &&
    decide ((max (fileOf s) (fileOf t)) - (min (fileOf s) (fileOf t)) ≤ 1) &&
    decide ((max (rankOf s) (rankOf t)) - (min (rankOf s) (rankOf t)) ≤ 1))

def metAttConcrete (s : Square) : Bitboard :=
  mkBB (fun t =>
    decide ((max (fileOf s) (fileOf t)) - (min (fileOf s) (fileOf t)) = 1) &&
    decide ((max (rankOf s) (rankOf t)) - (min (rankOf s) (rankOf t)) = 1))

def pawnAttConcrete (c : Color) (s : Square) : Bitboard :=
  mkBB (fun t =>
    decide ((max (fileOf s) (fileOf t)) - (min (fileOf s) (fileOf t)) = 1) &&
    (match c with
     | .white => decide (rankOf t = rankOf s + 1)
     | .black => decide (rankOf t + 1 = rankOf s)))

def khonAttConcrete (c : Color) (s : Square) : Bitboard :=
  metAttConcrete s |||
  mkBB (fun t =>
    decide (fileOf t = fileOf s) &&
    (match c with
     | .white => decide (rankOf t = rankOf s + 1)
     | .black => decide (rankOf t + 1 = rankOf s)))

def knightAttConcrete (s : Square) : Bitboard :=
  mkBB (fun t =>
    (decide ((max (fileOf s) (fileOf t)) - (min (fileOf s) (fileOf t)) = 1) &&
     decide ((max (rankOf s) (rankOf t)) - (min (rankOf s) (rankOf t)) = 2)) ||
    (decide ((max (fileOf s) (fileOf t)) - (min (fileOf s) (fileOf t)) = 2) &&
     decide ((max (rankOf s) (rankOf t)) - (min (rankOf s) (rankOf t)) = 1)))

/-- A concrete attack environment with the real Makruk leaper patterns. -/
def wenv : AttackEnv :=
  { pawnAttacks := pawnAttConcrete
    queenAttacks := metAttConcrete
    bishopAttacks := khonAttConcrete
    knightAttacks := knightAttConcrete
    kingAttacks := kingAttConcrete }

/-- A `StateInfo` with all incremental fields zeroed (the `memset` of
`Position::set`) except the two counters. -/
def dummySt (r50 pfn : Nat) : StateInfo :=
  { pawnKey := 0, materialKey := 0, npmWhite := 0, npmBlack := 0
    rule50 := r50, pliesFromNull := pfn, key := 0, checkersBB := 0
    capturedPiece := none, blockersWhite := 0, blockersBlack := 0
    pinnersWhite := 0, pinnersBlack := 0, csPawn := 0, csQueen := 0
    csBishop := 0, csKnight := 0, csRook := 0, csKing := 0, repetition := 0 }

/-- Build a `Position` from a piece placement, computing the redundant
bitboards, counts and lists from it and the state by `set_state`
(the effect of `Position::set` on an already-parsed placement). -/
def mkPos (env : AttackEnv) (zob : Zobrist) (pval : PieceType → Int)
    (pls : List (Square × Color × PieceType)) (stm : Color) (r50 pfn : Nat) :
    Position :=
  let board : Square → Piece := fun s => (pls.find? (fun e => e.1 == s)).map (fun e => e.2)
  let base : Position :=
    { board := board
      byColorBB := fun c => mkBB (fun s => (board s).map Prod.fst == some c)
      byTypeBB := fun pt => mkBB (fun s => (board s).map Prod.snd == some pt)
      allBB := mkBB (fun s => (board s).isSome)
      pieceCount := fun c pt =>
        ((pls.filter (fun e => e.2.1 == c && e.2.2 == pt)).map (fun e => e.1)).length
      pieceCountAll := fun c => ((pls.filter (fun e => e.2.1 == c)).map (fun e => e.1)).length
      pieceList := fun c pt =>
        (pls.filter (fun e => e.2.1 == c && e.2.2 == pt)).map (fun e => e.1)
      sideToMove := stm
      gamePly := 0
      st := dummySt r50 pfn
      hist := [] }
  { base with st := set_state env zob pval base (dummySt r50 pfn) }

/-- A completely empty position (only used to instantiate theorems whose
statement does not constrain the position). -/
def trivPos : Position :=
  { board := fun _ => none, byColorBB := fun _ => 0, byTypeBB := fun _ => 0
    allBB := 0, pieceCount := fun _ _ => 0, pieceCountAll := fun _ => 0
    pieceList := fun _ _ => [], sideToMove := .white, gamePly := 0
    st := dummySt 0 0, hist := [] }

/-! ### XOR bookkeeping -/

theorem xor_swap_right (a x y : Nat) : a ^^^ x ^^^ y = a ^^^ y ^^^ x := by
  rw [Nat.xor_assoc, Nat.xor_comm x y, ← Nat.xor_assoc]

/-! ### Claim C10 -/

/-- C10: for every move whose type is not `NORMAL` (i.e. every promotion)
and every threshold `t`, `see_ge(m, t)` is true iff `t ≤ 0`, independently of
the position's contents. -/
theorem C10_see_ge_promotion (env : AttackEnv) (pval : PieceType → Int)
    (pos : Position) (m : Move) (t : Int) (h : moveTypeOf m ≠ 0) :
    see_ge env pval pos m t = true ↔ t ≤ 0 := by
  unfold see_ge
  simp [h, ge_iff_le]

/-- Witness for C10 at a concrete promotion move and threshold. -/
theorem C10_witness :
    moveTypeOf (mkPromotion 8 16) ≠ 0 ∧
      (see_ge wenv wpval trivPos (mkPromotion 8 16) 0 = true ↔ (0 : Int) ≤ 0) :=
  ⟨by decide, C10_see_ge_promotion wenv wpval trivPos (mkPromotion 8 16) 0 (by decide)⟩

/-! ### Claim C9 -/

/-- `doMoveFinish` installs the supplied key unchanged. -/
theorem doMoveFinish_key (env : AttackEnv) (gc : Bool) (pos : Position)
    (us : Color) (cap : Piece) (pos3 : Position) (st2 : StateInfo) (k3 : Key) :
    (doMoveFinish env gc pos us cap pos3 st2 k3).st.key = k3 := rfl

/-- The key component of the capture block. -/
theorem doMoveCapture_key (zob : Zobrist) (pval : PieceType → Int) (t : Square)
    (them : Color) (cap : Piece) (pos0 : Position) (st0 : StateInfo) (k0 : Key) :
    (doMoveCapture zob pval t them cap pos0 st0 k0).2.2 =
      (match cap with
       | none => k0
       | some (cc, cpt) => k0 ^^^ zob.psq cc cpt t) := by
  cases cap with
  | none => rfl
  | some cp => rfl

/-- The key component of the pawn block. -/
theorem doMovePawn_key (zob : Zobrist) (pval : PieceType → Int) (m : Move)
    (us uc : Color) (f t : Square) (pos2 : Position) (st1 : StateInfo) (k2 : Key) :
    (doMovePawn zob pval m us uc f t pos2 st1 k2).2.2 =
      if moveTypeOf m = 1 then
        k2 ^^^ zob.psq uc PieceType.pawn t ^^^ zob.psq us (promotionTypeOf m) t
      else k2 := by
  unfold doMovePawn
  by_cases h : moveTypeOf m = 1 <;> simp [h]

/-- The key computed by `do_move` for a non-promotion move. -/
theorem do_move_key_normal (env : AttackEnv) (zob : Zobrist) (pval : PieceType → Int)
    (m : Move) (gc : Bool) (pos : Position) (uc : Color) (upt : PieceType)
    (hn : moveTypeOf m ≠ 1) (hpc : pos.board (fromSq m) = some (uc, upt)) :
    (do_move env zob pval m gc pos).st.key =
      pos.st.key ^^^ zob.side ^^^
        (match pos.board (toSq m) with
         | none => 0
         | some (cc, cpt) => zob.psq cc cpt (toSq m)) ^^^
        zob.psq uc upt (fromSq m) ^^^ zob.psq uc upt (toSq m) := by
  unfold do_move
  simp only [hpc]
  unfold doMoveMain
  by_cases hpawn : upt = PieceType.pawn
  · subst hpawn
    cases hcap : pos.board (toSq m) with
    | none => simp [hcap, doMoveFinish_key, doMovePawn_key, doMoveCapture_key, hn]
    | some cp =>
      obtain ⟨cc, cpt⟩ := cp
      simp [hcap, doMoveFinish_key, doMovePawn_key, doMoveCapture_key, hn]
  · cases hcap : pos.board (toSq m) with
    | none => simp [hcap, hpawn, doMoveFinish_key, doMoveCapture_key]
    | some cp =>
      obtain ⟨cc, cpt⟩ := cp
      simp [hcap, hpawn, doMoveFinish_key, doMoveCapture_key]

/-- C9 (amended): for a `NORMAL` move of a present piece, `key_after(m)`
returns exactly the primary key the top `StateInfo` holds after
`do_move(m)`; `key_after` itself never mutates the position (it is a pure
function of it in this embedding). -/
theorem C9_key_after_normal (env : AttackEnv) (zob : Zobrist)
    (pval : PieceType → Int) (pos : Position) (m : Move) (gc : Bool)
    (uc : Color) (upt : PieceType)
    (hn : moveTypeOf m = 0) (hpc : pos.board (fromSq m) = some (uc, upt)) :
    key_after zob pos m = (do_move env zob pval m gc pos).st.key := by
  rw [do_move_key_normal env zob pval m gc pos uc upt (by simp [hn]) hpc]
  unfold key_after
  simp only [hpc]
  cases hcap : pos.board (toSq m) with
  | none => simp [xor_swap_right]
  | some cp =>
    obtain ⟨cc, cpt⟩ := cp
    simp [xor_swap_right]

/-- A small position: white rook a1, white king e1, black king e8. -/
def pos9w : Position :=
  mkPos wenv wzob wpval
    [(0, .white, .rook), (4, .white, .king), (60, .black, .king)] .white 0 0

/-- Witness for C9's amended theorem: the rook move a1–a2. -/
theorem C9_witness :
    moveTypeOf (mkMove 0 8) = 0 ∧
      pos9w.board (fromSq (mkMove 0 8)) = some (Color.white, PieceType.rook) ∧
      key_after wzob pos9w (mkMove 0 8) =
        (do_move wenv wzob wpval (mkMove 0 8) false pos9w).st.key :=
  ⟨by decide, by decide,
    C9_key_after_normal wenv wzob wpval pos9w (mkMove 0 8) false
      Color.white PieceType.rook (by decide) (by decide)⟩

/-! ### Claim C6 -/

/-- C6 (amended): `do_null_move` leaves the board, bitboards, counts, piece
lists, game ply, pawn/material keys and non-pawn material untouched, flips
the side to move and the side component of the key, resets the since-null
counter, keeps the (empty) checkers — but it increments the reversible-move
counter by one; `undo_null_move` then restores the position exactly. -/
theorem C6_do_null_move (env : AttackEnv) (zob : Zobrist) (pos : Position)
    (hchk : pos.st.checkersBB = 0) :
    (do_null_move env zob pos).board = pos.board ∧
    (do_null_move env zob pos).byColorBB = pos.byColorBB ∧
    (do_null_move env zob pos).byTypeBB = pos.byTypeBB ∧
    (do_null_move env zob pos).allBB = pos.allBB ∧
    (do_null_move env zob pos).pieceCount = pos.pieceCount ∧
    (do_null_move env zob pos).pieceCountAll = pos.pieceCountAll ∧
    (do_null_move env zob pos).pieceList = pos.pieceList ∧
    (do_null_move env zob pos).gamePly = pos.gamePly ∧
    (do_null_move env zob pos).sideToMove = pos.sideToMove.other ∧
    (do_null_move env zob pos).st.key = pos.st.key ^^^ zob.side ∧
    (do_null_move env zob pos).st.pawnKey = pos.st.pawnKey ∧
    (do_null_move env zob pos).st.materialKey = pos.st.materialKey ∧
    (do_null_move env zob pos).st.npmWhite = pos.st.npmWhite ∧
    (do_null_move env zob pos).st.npmBlack = pos.st.npmBlack ∧
    (do_null_move env zob pos).st.checkersBB = 0 ∧
    (do_null_move env zob pos).st.pliesFromNull = 0 ∧
    (do_null_move env zob pos).st.rule50 = pos.st.rule50 + 1 ∧
    undo_null_move (do_null_move env zob pos) = pos := by
  refine ⟨rfl, rfl, rfl, rfl, rfl, rfl, rfl, rfl, rfl, rfl, rfl, rfl, rfl, rfl,
    hchk, rfl, rfl, ?_⟩
  rcases pos with ⟨b, bc, bt, ab, pc, pca, pl, stm, gp, st, h⟩
  cases stm <;> rfl

/-- Witness for C6 at a concrete check-free position. -/
theorem C6_witness :
    pos9w.st.checkersBB = 0 ∧
      (do_null_move wenv wzob pos9w).st.rule50 = pos9w.st.rule50 + 1 ∧
      undo_null_move (do_null_move wenv wzob pos9w) = pos9w := by
  have h := C6_do_null_move wenv wzob pos9w (by decide)
  exact ⟨by decide, h.2.2.2.2.2.2.2.2.2.2.2.2.2.2.2.2.1, h.2.2.2.2.2.2.2.2.2.2.2.2.2.2.2.2.2⟩

/-- Counterexample to C6 as stated: `do_null_move` does change the
reversible-move counter (it increments it). -/
theorem C6_counterexample :
    pos9w.st.checkersBB = 0 ∧
      (do_null_move wenv wzob pos9w).st.rule50 ≠ pos9w.st.rule50 := by
  refine ⟨by decide, by decide⟩

/-! ### Claim C3 -/

/-- `doMoveFinish` keeps the rule-50 field of the supplied state. -/
theorem doMoveFinish_rule50 (env : AttackEnv) (gc : Bool) (pos : Position)
    (us : Color) (cap : Piece) (pos3 : Position) (st2 : StateInfo) (k3 : Key) :
    (doMoveFinish env gc pos us cap pos3 st2 k3).st.rule50 = st2.rule50 := rfl

/-- The pawn block always resets the rule-50 counter. -/
theorem doMovePawn_rule50 (zob : Zobrist) (pval : PieceType → Int) (m : Move)
    (us uc : Color) (f t : Square) (pos2 : Position) (st1 : StateInfo) (k2 : Key) :
    (doMovePawn zob pval m us uc f t pos2 st1 k2).2.1.rule50 = 0 := rfl

/-- The rule-50 counter after the capture block: reset only when a pawn
remains on the board or the captured pawn's side keeps more than one piece
(the "pawnless endgame" exception of the source). -/
theorem doMoveCapture_rule50_some (zob : Zobrist) (pval : PieceType → Int)
    (t : Square) (them : Color) (cc : Color) (cpt : PieceType)
    (pos0 : Position) (st0 : StateInfo) (k0 : Key) :
    (doMoveCapture zob pval t them (some (cc, cpt)) pos0 st0 k0).2.1.rule50 =
      if 0 < (remove_piece pos0 cc cpt t).countPawns
          ∨ (cpt = PieceType.pawn ∧ 1 < (remove_piece pos0 cc cpt t).pieceCountAll cc)
      then 0 else st0.rule50 := by
  simp only [doMoveCapture]
  cases them <;> split_ifs <;> rfl

/-- The rule-50 counter written by `do_move`. -/
theorem do_move_rule50 (env : AttackEnv) (zob : Zobrist) (pval : PieceType → Int)
    (m : Move) (gc : Bool) (pos : Position) (uc : Color) (upt : PieceType)
    (hpc : pos.board (fromSq m) = some (uc, upt)) :
    (do_move env zob pval m gc pos).st.rule50 =
      if upt = PieceType.pawn then 0
      else
        match pos.board (toSq m) with
        | none => pos.st.rule50 + 1
        | some (cc, cpt) =>
          if 0 < (remove_piece pos cc cpt (toSq m)).countPawns
              ∨ (cpt = PieceType.pawn ∧
                  1 < (remove_piece pos cc cpt (toSq m)).pieceCountAll cc)
          then 0 else pos.st.rule50 + 1 := by
  unfold do_move
  simp only [hpc]
  unfold doMoveMain
  by_cases hpawn : upt = PieceType.pawn
  · subst hpawn
    simp [doMoveFinish_rule50, doMovePawn_rule50]
  · cases hcap : pos.board (toSq m) with
    | none => simp [hcap, hpawn, doMoveFinish_rule50, doMoveCapture]
    | some cp =>
      obtain ⟨cc, cpt⟩ := cp
      simp only [hcap, if_neg hpawn, doMoveFinish_rule50, doMoveCapture_rule50_some]
      rfl

/-- C3 (amended): after `do_move`, the reversible-move counter is 0 for a
pawn move, and for a capture after which a pawn is still on the board or the
captured piece is a pawn whose side retains more than one piece; any other
move — including a capture that leaves a pawnless board (unless the captured
pawn's side keeps several pieces) — sets it to the previous counter plus
one. -/
theorem C3_rule50 (env : AttackEnv) (zob : Zobrist) (pval : PieceType → Int)
    (m : Move) (gc : Bool) (pos : Position) (uc : Color) (upt : PieceType)
    (hpc : pos.board (fromSq m) = some (uc, upt)) :
    (do_move env zob pval m gc pos).st.rule50 =
      if upt = PieceType.pawn then 0
      else
        match pos.board (toSq m) with
        | none => pos.st.rule50 + 1
        | some (cc, cpt) =>
          if 0 < (remove_piece pos cc cpt (toSq m)).countPawns
              ∨ (cpt = PieceType.pawn ∧
                  1 < (remove_piece pos cc cpt (toSq m)).pieceCountAll cc)
          then 0 else pos.st.rule50 + 1 :=
  do_move_rule50 env zob pval m gc pos uc upt hpc

/-- Rooks and kings only, rule50 = 5: a live capture position with no pawns
anywhere. -/
def pos3c : Position :=
  mkPos wenv wzob wpval
    [(0, .white, .rook), (4, .white, .king), (8, .black, .rook), (60, .black, .king)]
    .white 5 5

/-- Witness for C3's amended theorem at the pawnless capture Ra1xa2. -/
theorem C3_witness :
    pos3c.board (fromSq (mkMove 0 8)) = some (Color.white, PieceType.rook) ∧
      (do_move wenv wzob wpval (mkMove 0 8) false pos3c).st.rule50 =
        pos3c.st.rule50 + 1 := by
  have h := C3_rule50 wenv wzob wpval (mkMove 0 8) false pos3c
    Color.white PieceType.rook (by decide)
  refine ⟨by decide, ?_⟩
  rw [h]
  decide

/-- Counterexample to C3 as stated: the capture Ra1xa2 in a pawnless
position is legal and pseudo-legal, yet the reversible-move counter becomes
6 = 5 + 1 instead of 0. -/
theorem C3_counterexample :
    pos3c.board (toSq (mkMove 0 8)) = some (Color.black, PieceType.rook) ∧
      legal wenv pos3c (mkMove 0 8) = true ∧
      pseudo_legal wenv [] pos3c (mkMove 0 8) = true ∧
      (do_move wenv wzob wpval (mkMove 0 8) false pos3c).st.rule50 =
        pos3c.st.rule50 + 1 ∧
      pos3c.st.rule50 + 1 ≠ 0 := by
  refine ⟨by decide, by decide, by decide, by decide, by decide⟩

/-- White pawn a5 about to promote; kings far away. -/
def pos9p : Position :=
  mkPos wenv wzob wpval
    [(32, .white, .pawn), (4, .white, .king), (60, .black, .king)] .white 0 0

/-- Counterexample to C9 as stated: the promotion a5–a6 is pseudo-legal (and
legal), yet `key_after` disagrees with the key `do_move` computes, because
`key_after` ignores the pawn-to-queen hash replacement. -/
theorem C9_counterexample :
    pseudo_legal wenv [mkPromotion 32 40] pos9p (mkPromotion 32 40) = true ∧
      legal wenv pos9p (mkPromotion 32 40) = true ∧
      key_after wzob pos9p (mkPromotion 32 40) ≠
        (do_move wenv wzob wpval (mkPromotion 32 40) false pos9p).st.key := by
  refine ⟨by decide, by decide, by decide⟩

/-! ### Claim C5 -/

/-- The scan of the claim, transcribed from its words: for distances
`i = 4, 6, ..., endv`, the state at ply distance `i` from the new state
(indexing the state chain) is compared; the first whose primary key matches
gives the marker `i` (negated when that state is itself marked); `0` when
none matches.  The first argument of the recursion is plain fuel. -/
def specScanAux (chain : List StateInfo) (k : Key) (endv : Nat) :
    Nat → Nat → Int
  | 0, _ => 0
  | fuel + 1, i =>
    if endv < i then 0
    else
      match chain[i]? with
      | none => 0
      | some stp =>
        if stp.key = k then (if stp.repetition ≠ 0 then -(i : Int) else (i : Int))
        else specScanAux chain k endv fuel (i + 2)

/-- The repetition marker as the claim words it. -/
def repetitionSpec (chain : List StateInfo) (k : Key) (endv : Nat) : Int :=
  if endv < 4 then 0 else specScanAux chain k endv endv 4

/-- The pointer-chasing loop of the source equals the index-based scan of
the claim. -/
theorem repAux_eq_specScan (chain : List StateInfo) (k : Key) (endv : Nat) :
    ∀ (fuel i : Nat), endv + 2 ≤ 2 * fuel + i →
      repAux k endv i (chain.drop i) = specScanAux chain k endv fuel i := by
  intro fuel
  induction fuel with
  | zero =>
    intro i hfi
    have hlt : endv < i := by omega
    cases hdrop : chain.drop i with
    | nil => unfold repAux specScanAux; rfl
    | cons stp rest =>
      unfold repAux specScanAux
      simp [hlt]
  | succ fuel ih =>
    intro i hfi
    cases hdrop : chain.drop i with
    | nil =>
      have hlen : chain.length ≤ i := List.drop_eq_nil_iff.1 hdrop
      have hget : chain[i]? = none := by
        rw [List.getElem?_eq_none_iff]
        exact hlen
      unfold repAux specScanAux
      simp [hget]
    | cons stp rest =>
      have hget : chain[i]? = some stp := by
        have h0 : (chain.drop i)[0]? = chain[i + 0]? := List.getElem?_drop chain i 0
        rw [hdrop] at h0
        simpa using h0.symm
      have hdrop2 : chain.drop (i + 2) = rest.drop 1 := by
        have h2 : (chain.drop i).drop 2 = chain.drop (i + 2) := List.drop_drop 2 i chain
        rw [hdrop] at h2
        simpa using h2.symm
      by_cases hlt : endv < i
      · unfold repAux specScanAux
        simp [hlt]
      · by_cases hk : stp.key = k
        · unfold repAux specScanAux
          simp [hlt, hk, hget]
        · have ihspec := ih (i + 2) (by omega)
          rw [hdrop2] at ihspec
          unfold repAux specScanAux
          simp only [hlt, hk, hget, if_false, ite_false, if_neg]
          cases rest with
          | nil =>
            simp only [List.drop_nil] at ihspec
            simp [hlt, hk, ← ihspec]
            unfold repAux
            rfl
          | cons b rest2 =>
            simp only [List.drop_succ_cons, List.drop_zero] at ihspec
            simp [hlt, hk, ← ihspec]

/-- The repetition marker written by `do_move`, in terms of the source's
own loop. -/
theorem do_move_repetition_code (env : AttackEnv) (zob : Zobrist)
    (pval : PieceType → Int) (m : Move) (gc : Bool) (pos : Position)
    (uc : Color) (upt : PieceType)
    (hpc : pos.board (fromSq m) = some (uc, upt)) :
    (do_move env zob pval m gc pos).st.repetition =
      (if min (do_move env zob pval m gc pos).st.rule50
            (do_move env zob pval m gc pos).st.pliesFromNull < 4 then 0
       else repAux (do_move env zob pval m gc pos).st.key
          (min (do_move env zob pval m gc pos).st.rule50
            (do_move env zob pval m gc pos).st.pliesFromNull)
          4 ((do_move env zob pval m gc pos).chain.drop 4)) := by
  unfold do_move
  simp only [hpc]
  rfl

/-- C5: after `do_move`, the repetition marker is exactly the claim's scan:
with `end = min(rule50, pliesFromNull)` of the new state, the first ply
distance `i ∈ {4, 6, ..., end}` whose state has the same primary key gives
`±i` (negative when that state is itself marked), and `0` otherwise — in
particular whenever `end < 4`. -/
theorem C5_repetition (env : AttackEnv) (zob : Zobrist) (pval : PieceType → Int)
    (m : Move) (gc : Bool) (pos : Position) (uc : Color) (upt : PieceType)
    (hpc : pos.board (fromSq m) = some (uc, upt)) :
    (do_move env zob pval m gc pos).st.repetition =
      repetitionSpec (do_move env zob pval m gc pos).chain
        (do_move env zob pval m gc pos).st.key
        (min (do_move env zob pval m gc pos).st.rule50
          (do_move env zob pval m gc pos).st.pliesFromNull) := by
  rw [do_move_repetition_code env zob pval m gc pos uc upt hpc]
  unfold repetitionSpec
  by_cases h4 : min (do_move env zob pval m gc pos).st.rule50
      (do_move env zob pval m gc pos).st.pliesFromNull < 4
  · simp [h4]
  · simp only [h4, if_neg, if_false, ite_false]
    exact repAux_eq_specScan _ _ _ _ 4 (by omega)

/-- Witness for C5 at a concrete move (the scan bound is below 4, so the
marker is 0 on both sides). -/
theorem C5_witness :
    pos9w.board (fromSq (mkMove 0 8)) = some (Color.white, PieceType.rook) ∧
      (do_move wenv wzob wpval (mkMove 0 8) false pos9w).st.repetition =
        repetitionSpec (do_move wenv wzob wpval (mkMove 0 8) false pos9w).chain
          (do_move wenv wzob wpval (mkMove 0 8) false pos9w).st.key
          (min (do_move wenv wzob wpval (mkMove 0 8) false pos9w).st.rule50
            (do_move wenv wzob wpval (mkMove 0 8) false pos9w).st.pliesFromNull) :=
  ⟨by decide,
    C5_repetition wenv wzob wpval (mkMove 0 8) false pos9w
      Color.white PieceType.rook (by decide)⟩

/-! ### Claim C7 -/

/-- Modelled from the spec: the collaborator contract of the external move
generator (§6) — generated legal moves move a piece of the side to move, do
not land on a friendly piece, and promotions carry queen promotion bits,
the only non-`NORMAL` tag, and move a pawn. -/
def GenContract (gen : List Move) (pos : Position) : Prop :=
  ∀ m ∈ gen,
    (∃ pt, pos.board (fromSq m) = some (pos.sideToMove, pt)) ∧
    colorOn pos (toSq m) ≠ some pos.sideToMove ∧
    (moveTypeOf m = 1 → promoCode m = 0) ∧
    moveTypeOf m ≤ 1 ∧
    (moveTypeOf m = 1 → typeOn pos (fromSq m) = some PieceType.pawn)

theorem toSq_lt (m : Move) : toSq m < 64 :=
  Nat.lt_succ_of_le (Nat.and_le_right)

theorem fromSq_lt (m : Move) : fromSq m < 64 :=
  Nat.lt_succ_of_le (Nat.and_le_right)

/-- C7: on a consistent position, `pseudo_legal` (a total pure function in
this embedding: it always terminates and never touches the position)
conservatively returns `false` for any 16-bit pattern that is structurally
invalid — no piece of the side to move on the origin, a friendly piece on
the destination, or promotion bits inconsistent with the move type. -/
theorem C7_pseudo_legal_reject (env : AttackEnv) (gen : List Move)
    (pos : Position) (m : Move)
    (hcons : Consistent pos) (hgen : GenContract gen pos)
    (hbad : (∀ pt, pos.board (fromSq m) ≠ some (pos.sideToMove, pt)) ∨
        colorOn pos (toSq m) = some pos.sideToMove ∨
        promoCode m ≠ 0) :
    pseudo_legal env gen pos m = false := by
  unfold pseudo_legal
  by_cases ht : moveTypeOf m = 0
  · simp only [ht, ne_eq, not_true_eq_false, if_false, reduceIte]
    by_cases hpr : promoCode m = 0
    · simp only [hpr, not_true_eq_false, if_false, reduceIte]
      cases hbf : pos.board (fromSq m) with
      | none => rfl
      | some cp =>
        obtain ⟨c, pt⟩ := cp
        by_cases hc : c = pos.sideToMove
        · subst hc
          rcases hbad with ha | hb | hcode
          · exact absurd hbf (ha pt)
          · have hbit : (pos.byColorBB pos.sideToMove).testBit (toSq m) = true := by
              have hcol := ((hcons.2.2.1 pos.sideToMove).2 (toSq m) (toSq_lt m)).2
              exact hcol hb
            have hne : pos.byColorBB pos.sideToMove &&& sqBB (toSq m) ≠ 0 := by
              rw [land_ne_zero_iff]
              exact ⟨toSq m, hbit, by simp [testBit_sqBB]⟩
            simp [hne]
          · exact absurd hpr hcode
        · simp [hc]
    · simp [hpr]
  · simp only [ht, ne_eq, not_false_eq_true, if_true, reduceIte]
    have hnm : ¬ m ∈ gen := by
      intro hm
      obtain ⟨hown, hnotfr, hpromo, hle, _⟩ := hgen m hm
      rcases hbad with ha | hb | hcode
      · obtain ⟨pt, hpt⟩ := hown
        exact ha pt hpt
      · exact hnotfr hb
      · have h1 : moveTypeOf m = 1 := by omega
        exact hcode (hpromo h1)
    simp [List.contains, List.elem_eq_mem, hnm]

/-- Witness for C7: a bit pattern moving from an empty square is rejected
on a concrete consistent position (with the empty generator, whose contract
is vacuous). -/
theorem C7_witness :
    Consistent pos9w ∧
      pseudo_legal wenv [] pos9w (mkMove 20 28) = false :=
  ⟨by decide,
    C7_pseudo_legal_reject wenv [] pos9w (mkMove 20 28) (by decide)
      (by intro m hm; cases hm)
      (Or.inl (by decide))⟩

/-! ### Claim C8 -/

/-- The per-distance hit test exactly as the claim words it: the key delta
matches a stored reversible move at one of the two cuckoo slots, the squares
strictly between the stored move's endpoints are empty on the live board,
the piece standing on the (occupied) endpoint belongs to the side to move,
and for distances at or before the root the earlier state is marked. -/
def claimHitB (cuckooT : Nat → Key) (cuckooMoveT : Nat → Move)
    (occupied : Bitboard) (board : Square → Piece) (stm : Color)
    (origKey : Key) (ply : Int) (i : Nat) (stp : StateInfo) : Bool :=
  let mk := origKey ^^^ stp.key
  [cuckooH1 mk, cuckooH2 mk].any (fun j =>
    (cuckooT j == mk) &&
    (betweenBB (fromSq (cuckooMoveT j)) (toSq (cuckooMoveT j)) &&& occupied == 0) &&
    (colorOf0 (board (if board (fromSq (cuckooMoveT j)) = none
        then toSq (cuckooMoveT j) else fromSq (cuckooMoveT j))) == stm) &&
    (decide ((i : Int) < ply) || (stp.repetition != 0)))

/-- C8's condition as the claim words it ("returns true only if ..."). -/
def hasGameCycleClaim (cuckooT : Nat → Key) (cuckooMoveT : Nat → Move)
    (pos : Position) (ply : Int) : Bool :=
  let endv := min pos.st.rule50 pos.st.pliesFromNull
  (List.range (endv + 1)).any (fun i =>
    decide (3 ≤ i) && decide (i % 2 = 1) &&
    (match pos.chain[i]? with
     | none => false
     | some stp =>
       claimHitB cuckooT cuckooMoveT pos.allBB pos.board pos.sideToMove
         pos.st.key ply i stp))

/-- The amended hit test: beyond the root (`ply > i`) the detector accepts
on the empty-between test alone; the endpoint-colour requirement and the
repetition mark only gate distances at or before the root. -/
def amendedHitB (cuckooT : Nat → Key) (cuckooMoveT : Nat → Move)
    (occupied : Bitboard) (board : Square → Piece) (stm : Color)
    (origKey : Key) (ply : Int) (i : Nat) (stp : StateInfo) : Bool :=
  let mk := origKey ^^^ stp.key
  [cuckooH1 mk, cuckooH2 mk].any (fun j =>
    (cuckooT j == mk) &&
    (betweenBB (fromSq (cuckooMoveT j)) (toSq (cuckooMoveT j)) &&& occupied == 0) &&
    (decide ((i : Int) < ply) ||
      ((colorOf0 (board (if board (fromSq (cuckooMoveT j)) = none
          then toSq (cuckooMoveT j) else fromSq (cuckooMoveT j))) == stm) &&
        (stp.repetition != 0))))

/-- C8's condition as amended. -/
def hasGameCycleAmended (cuckooT : Nat → Key) (cuckooMoveT : Nat → Move)
    (pos : Position) (ply : Int) : Bool :=
  let endv := min pos.st.rule50 pos.st.pliesFromNull
  (List.range (endv + 1)).any (fun i =>
    decide (3 ≤ i) && decide (i % 2 = 1) &&
    (match pos.chain[i]? with
     | none => false
     | some stp =>
       amendedHitB cuckooT cuckooMoveT pos.allBB pos.board pos.sideToMove
         pos.st.key ply i stp))

/-- A successful loop body exhibits the amended per-distance hit. -/
theorem hgcStep_sound (cuckooT : Nat → Key) (cuckooMoveT : Nat → Move)
    (occupied : Bitboard) (board : Square → Piece) (stm : Color)
    (origKey : Key) (ply : Int) (i : Nat) (stp : StateInfo)
    (h : hgcStep cuckooT cuckooMoveT occupied board stm origKey ply i stp = true) :
    amendedHitB cuckooT cuckooMoveT occupied board stm origKey ply i stp = true := by
  unfold hgcStep at h
  set mk := origKey ^^^ stp.key with hmk
  by_cases hslot : cuckooT (cuckooH1 mk) = mk ∨ cuckooT (cuckooH2 mk) = mk
  · rw [if_pos hslot] at h
    set j := if cuckooT (cuckooH1 mk) = mk then cuckooH1 mk else cuckooH2 mk with hj
    have hjhit : cuckooT j = mk := by
      by_cases h1 : cuckooT (cuckooH1 mk) = mk
      · simp [hj, h1]
      · rcases hslot with hs | hs
        · exact absurd hs h1
        · simp [hj, h1, hs]
    have hjmem : j ∈ [cuckooH1 mk, cuckooH2 mk] := by
      rw [hj]
      by_cases h1 : cuckooT (cuckooH1 mk) = mk <;> simp [h1]
    by_cases hbet : betweenBB (fromSq (cuckooMoveT j)) (toSq (cuckooMoveT j))
        &&& occupied = 0
    · rw [if_pos hbet] at h
      have htail : (decide ((i : Int) < ply) ||
          ((colorOf0 (board (if board (fromSq (cuckooMoveT j)) = none
              then toSq (cuckooMoveT j) else fromSq (cuckooMoveT j))) == stm) &&
            (stp.repetition != 0))) = true := by
        by_cases hply : (i : Int) < ply
        · simp [hply]
        · rw [if_neg hply] at h
          by_cases hcol : colorOf0 (board (if board (fromSq (cuckooMoveT j)) = none
              then toSq (cuckooMoveT j) else fromSq (cuckooMoveT j))) = stm
          · by_cases hrep : stp.repetition ≠ 0
            · simp [hcol, hrep]
            · rw [if_neg (by simpa using hcol), if_neg hrep] at h
              exact absurd h (by simp)
          · rw [if_pos hcol] at h
            exact absurd h (by simp)
      unfold amendedHitB
      rw [List.any_eq_true]
      refine ⟨j, hjmem, ?_⟩
      simp only [Bool.and_eq_true, beq_iff_eq]
      exact ⟨⟨hjhit, by simpa using hbet⟩, htail⟩
    · rw [if_neg hbet] at h
      exact absurd h (by simp)
  · rw [if_neg hslot] at h
    exact absurd h (by simp)

/-- Soundness of the scan loop: a `true` answer exhibits a hit at some
distance of the right parity within the bound. -/
theorem hgcAux_sound (cuckooT : Nat → Key) (cuckooMoveT : Nat → Move)
    (occupied : Bitboard) (board : Square → Piece) (stm : Color)
    (origKey : Key) (ply : Int) (endv : Nat) :
    ∀ (n : Nat) (l : List StateInfo), l.length ≤ n →
      ∀ (i : Nat) (chain : List StateInfo), l = chain.drop i →
      hgcAux cuckooT cuckooMoveT occupied board stm origKey ply endv i l = true →
      ∃ i2, i ≤ i2 ∧ i2 ≤ endv ∧ (i2 - i) % 2 = 0 ∧
        ∃ stp, chain[i2]? = some stp ∧
          amendedHitB cuckooT cuckooMoveT occupied board stm origKey ply i2 stp
            = true := by
  intro n
  induction n with
  | zero =>
    intro l hlen i chain hdrop htrue
    have : l = [] := List.eq_nil_of_length_eq_zero (by omega)
    subst this
    unfold hgcAux at htrue
    exact absurd htrue (by simp)
  | succ n ih =>
    intro l hlen i chain hdrop htrue
    cases l with
    | nil =>
      unfold hgcAux at htrue
      exact absurd htrue (by simp)
    | cons stp rest =>
      have hget : chain[i]? = some stp := by
        have h0 : (chain.drop i)[0]? = chain[i + 0]? := List.getElem?_drop chain i 0
        rw [← hdrop] at h0
        simpa using h0.symm
      have hdropnext : rest.drop 1 = chain.drop (i + 2) := by
        have h2 : (chain.drop i).drop 2 = chain.drop (i + 2) := List.drop_drop 2 i chain
        rw [← hdrop] at h2
        simpa using h2
      unfold hgcAux at htrue
      by_cases hlt : endv < i
      · rw [if_pos hlt] at htrue
        exact absurd htrue (by simp)
      · rw [if_neg hlt] at htrue
        by_cases hstep : hgcStep cuckooT cuckooMoveT occupied board stm origKey
            ply i stp = true
        · exact ⟨i, le_refl i, by omega, by omega, stp, hget,
            hgcStep_sound _ _ _ _ _ _ _ _ _ hstep⟩
        · rw [if_neg (by simpa using hstep)] at htrue
          cases rest with
          | nil => exact absurd htrue (by simp)
          | cons b rest2 =>
            have hd2 : rest2 = chain.drop (i + 2) := by simpa using hdropnext
            have hlen2 : rest2.length ≤ n := by
              simp at hlen
              omega
            obtain ⟨i2, hi2a, hi2b, hi2c, hpay⟩ :=
              ih rest2 hlen2 (i + 2) chain hd2 htrue
            exact ⟨i2, by omega, hi2b, by omega, hpay⟩

/-- C8 (amended): `has_game_cycle(ply)` returns true only if some earlier
state at an odd distance `i ≤ min(rule50, pliesFromNull)` has a key delta
matching a stored reversible move at one of the two cuckoo slots with the
squares between the move's endpoints empty on the live board, where for
distances at or before the root (`ply ≤ i`) the piece on the occupied
endpoint must additionally belong to the side to move and the earlier state
must itself be marked as a repetition (beyond the root no endpoint-colour or
marker test is applied). -/
theorem C8_game_cycle_sound (cuckooT : Nat → Key) (cuckooMoveT : Nat → Move)
    (pos : Position) (ply : Int)
    (h : has_game_cycle cuckooT cuckooMoveT pos ply = true) :
    hasGameCycleAmended cuckooT cuckooMoveT pos ply = true := by
  unfold has_game_cycle at h
  by_cases h3 : min pos.st.rule50 pos.st.pliesFromNull < 3
  · rw [if_pos h3] at h
    exact absurd h (by simp)
  · rw [if_neg h3] at h
    obtain ⟨i2, hi3, hiend, hpar, stp, hget, hhit⟩ :=
      hgcAux_sound cuckooT cuckooMoveT pos.allBB pos.board pos.sideToMove
        pos.st.key ply (min pos.st.rule50 pos.st.pliesFromNull)
        (pos.chain.drop 3).length (pos.chain.drop 3) (le_refl _) 3 pos.chain rfl h
    unfold hasGameCycleAmended
    rw [List.any_eq_true]
    refine ⟨i2, ?_, ?_⟩
    · rw [List.mem_range]
      omega
    · simp only [Bool.and_eq_true, decide_eq_true_eq]
      refine ⟨⟨by omega, by omega⟩, ?_⟩
      rw [hget]
      exact hhit

/-- A concrete cuckoo-table instantiation: one slot holds the delta 12345
with the rook move a1–a3; every other slot holds an unmatchable key. -/
def cuckooT8 : Nat → Key := fun j => if j = cuckooH1 12345 then 12345 else 7777777

def cuckooMove8 : Nat → Move := fun _ => mkMove 0 16

def pos8base : Position :=
  mkPos wenv wzob wpval
    [(0, .black, .rook), (4, .white, .king), (60, .black, .king)] .white 3 3

/-- `pos8base` with a three-deep history whose state three plies back
differs from the current key exactly by the stored delta. -/
def pos8 : Position :=
  { pos8base with
    hist := [dummySt 0 0, dummySt 0 0,
      { dummySt 0 0 with key := pos8base.st.key ^^^ 12345 }] }

/-- Witness for C8's amended theorem: the same scenario satisfies the
amended condition. -/
theorem C8_witness :
    has_game_cycle cuckooT8 cuckooMove8 pos8 10 = true ∧
      hasGameCycleAmended cuckooT8 cuckooMove8 pos8 10 = true :=
  ⟨by decide, C8_game_cycle_sound cuckooT8 cuckooMove8 pos8 10 (by decide)⟩

/-- Counterexample to C8 as stated: beyond the root (`ply = 10 > i = 3`)
the detector accepts a cycle whose endpoint piece (the black rook on a1)
does not belong to the side to move, so the claim's unconditional
endpoint-colour condition does not hold. -/
theorem C8_counterexample :
    Consistent pos8 ∧
      has_game_cycle cuckooT8 cuckooMove8 pos8 10 = true ∧
      hasGameCycleClaim cuckooT8 cuckooMove8 pos8 10 = false :=
  ⟨by decide, by decide, by decide⟩

/-! ### Claim C4 -/

theorem Color.other_eq_of_ne {a b : Color} (h : a ≠ b) : a.other = b := by
  cases a <;> cases b <;> simp_all [Color.other]

/-- `see_ge` on a `NORMAL` move of a present piece, reduced to its fast
paths and the exchange loop. -/
theorem see_ge_normal_eq (env : AttackEnv) (pval : PieceType → Int)
    (pos : Position) (m : Move) (uc : Color) (upt : PieceType) (t : Int)
    (hn : moveTypeOf m = 0) (hpc : pos.board (fromSq m) = some (uc, upt)) :
    see_ge env pval pos m t =
      (if pcValP pval (pos.board (toSq m)) - t < 0 then false
       else if 0 ≤ pcValP pval (pos.board (toSq m)) - t - pval upt then true
       else
         seeLoop pval pos.byTypeBB pos.byColorBB
           pos.st.pinnersWhite pos.st.pinnersBlack
           pos.st.blockersWhite pos.st.blockersBlack
           (toSq m) uc
           ((pos.pieces ^^^ sqBB (fromSq m) ^^^ sqBB (toSq m)) + 1)
           uc.other
           (pcValP pval (pos.board (toSq m)) - t - pval upt)
           (pos.pieces ^^^ sqBB (fromSq m) ^^^ sqBB (toSq m))
           (attackers_to env pos (toSq m)
               (pos.pieces ^^^ sqBB (fromSq m) ^^^ sqBB (toSq m))
             &&& (pos.pieces ^^^ sqBB (fromSq m) ^^^ sqBB (toSq m)))) := by
  unfold see_ge
  simp only [hn, ne_eq, not_true_eq_false, if_false, reduceIte, hpc]

/-- Monotonicity of the exchange loop in the running balance.  The
direction alternates with the side to move; the king's zero piece value
guarantees that a king capture always ends the loop. -/
theorem seeLoop_mono (pval : PieceType → Int) (byTypeBB : PieceType → Bitboard)
    (colorBB : Color → Bitboard) (pW pB bW bB : Bitboard) (t0 : Square)
    (us : Color) (hking : pval .king = 0) :
    ∀ (fuel : Nat) (stm : Color) (b1 b2 : Int) (occ att : Bitboard),
      b1 ≤ b2 → b1 < 0 → b2 < 0 →
      ((stm ≠ us →
          seeLoop pval byTypeBB colorBB pW pB bW bB t0 us fuel stm b1 occ att
              = true →
          seeLoop pval byTypeBB colorBB pW pB bW bB t0 us fuel stm b2 occ att
              = true) ∧
       (stm = us →
          seeLoop pval byTypeBB colorBB pW pB bW bB t0 us fuel stm b2 occ att
              = true →
          seeLoop pval byTypeBB colorBB pW pB bW bB t0 us fuel stm b1 occ att
              = true)) := by
  intro fuel
  induction fuel with
  | zero =>
    intro stm b1 b2 occ att h12 hb1 hb2
    exact ⟨fun _ h => h, fun _ h => h⟩
  | succ fuel ih =>
    intro stm b1 b2 occ att h12 hb1 hb2
    unfold seeLoop
    by_cases hsaz : seeSa colorBB pW pB bW bB stm occ att = 0
    · simp only [if_pos hsaz]
      exact ⟨fun _ h => h, fun _ h => h⟩
    · simp only [if_neg hsaz]
      generalize hgr : min_attacker byTypeBB t0
        (seeSa colorBB pW pB bW bB stm occ att) occ att = r
      have hnb : -b2 - 1 - pval r.1 ≤ -b1 - 1 - pval r.1 := by omega
      constructor
      · intro hne h1
        have hstm2 : stm.other = us := Color.other_eq_of_ne hne
        by_cases hs2 : 0 ≤ -b2 - 1 - pval r.1
        · by_cases hs1 : 0 ≤ -b1 - 1 - pval r.1
          · rw [if_pos hs2]
            rw [if_pos hs1] at h1
            exact h1
          · omega
        · rw [if_neg hs2]
          by_cases hs1 : 0 ≤ -b1 - 1 - pval r.1
          · rw [if_pos hs1] at h1
            by_cases hk : r.1 = PieceType.king
            · rw [hk, hking] at hs2
              omega
            · exfalso
              rw [if_neg (by simp [hk])] at h1
              rw [hstm2] at h1
              simp at h1
          · rw [if_neg hs1] at h1
            have hrec := ih stm.other (-b2 - 1 - pval r.1) (-b1 - 1 - pval r.1)
              r.2.1 r.2.2 hnb (by omega) (by omega)
            exact hrec.2 hstm2 h1
      · intro heq h2
        subst heq
        by_cases hs1 : 0 ≤ -b1 - 1 - pval r.1
        · rw [if_pos hs1]
          by_cases hk : r.1 = PieceType.king
          · by_cases hs2 : 0 ≤ -b2 - 1 - pval r.1
            · rw [if_pos hs2] at h2
              exact h2
            · rw [hk, hking] at hs2
              omega
          · rw [if_neg (by simp [hk])]
            simp [Ne.symm (Color.other_ne stm)]
        · rw [if_neg hs1]
          by_cases hs2 : 0 ≤ -b2 - 1 - pval r.1
          · omega
          · rw [if_neg hs2] at h2
            have hrec := ih stm.other (-b2 - 1 - pval r.1) (-b1 - 1 - pval r.1)
              r.2.1 r.2.2 hnb (by omega) (by omega)
            exact hrec.1 (Color.other_ne stm) h2

/-- Antitonicity of `see_ge` in the threshold. -/
theorem see_ge_antitone (env : AttackEnv) (pval : PieceType → Int)
    (pos : Position) (m : Move) (hking : pval PieceType.king = 0)
    (t1 t2 : Int) (h12 : t1 ≤ t2) (h : see_ge env pval pos m t2 = true) :
    see_ge env pval pos m t1 = true := by
  by_cases hn : moveTypeOf m = 0
  · cases hpc : pos.board (fromSq m) with
    | none =>
      unfold see_ge at h
      simp [hn, hpc] at h
    | some cp =>
      obtain ⟨uc, upt⟩ := cp
      rw [see_ge_normal_eq env pval pos m uc upt t2 hn hpc] at h
      rw [see_ge_normal_eq env pval pos m uc upt t1 hn hpc]
      by_cases hb2 : pcValP pval (pos.board (toSq m)) - t2 < 0
      · rw [if_pos hb2] at h
        exact absurd h (by simp)
      · rw [if_neg hb2] at h
        rw [if_neg (by omega)]
        by_cases hf1 : 0 ≤ pcValP pval (pos.board (toSq m)) - t1 - pval upt
        · rw [if_pos hf1]
        · rw [if_neg hf1]
          rw [if_neg (by omega)] at h
          exact (seeLoop_mono pval pos.byTypeBB pos.byColorBB
            pos.st.pinnersWhite pos.st.pinnersBlack
            pos.st.blockersWhite pos.st.blockersBlack (toSq m) uc hking
            ((pos.pieces ^^^ sqBB (fromSq m) ^^^ sqBB (toSq m)) + 1) uc.other
            (pcValP pval (pos.board (toSq m)) - t2 - pval upt)
            (pcValP pval (pos.board (toSq m)) - t1 - pval upt)
            _ _ (by omega) (by omega) (by omega)).1 (Color.other_ne uc) h
  · unfold see_ge at h ⊢
    simp only [ne_eq, hn, not_false_eq_true, if_true, reduceIte,
      decide_eq_true_eq, ge_iff_le] at h ⊢
    omega

/-- An antitone boolean function of the integers that is somewhere true and
somewhere false has an exact threshold. -/
theorem antitone_threshold (f : Int → Bool)
    (hmono : ∀ t1 t2 : Int, t1 ≤ t2 → f t2 = true → f t1 = true)
    (b : Int) (hb : f b = false) :
    ∀ (n : Nat) (a : Int), f a = true → (b - a).toNat ≤ n →
      ∃ v, ∀ t, f t = true ↔ t ≤ v := by
  intro n
  induction n with
  | zero =>
    intro a ha hle
    exfalso
    have hab : b ≤ a := by omega
    have := hmono b a hab ha
    rw [this] at hb
    cases hb
  | succ n ih =>
    intro a ha hle
    by_cases hnext : f (a + 1) = true
    · have hab : a < b := by
        by_contra hc
        push_neg at hc
        have := hmono b a hc ha
        rw [this] at hb
        cases hb
      exact ih (a + 1) hnext (by omega)
    · refine ⟨a, fun t => ⟨?_, ?_⟩⟩
      · intro hft
        by_contra hgt
        push_neg at hgt
        exact absurd (hmono (a + 1) t (by omega) hft)
          (by simpa using hnext)
      · intro hta
        exact hmono t a hta ha

/-- C4: for a `NORMAL` capture, `see_ge` is antitone in the threshold;
there is a unique exchange value `v` with `see_ge(m, t)` true exactly for
`t ≤ v`; and when no opponent piece attacks the destination (with the mover
removed and X-rays applied), `see_ge(m, capturedValue)` is true while
`see_ge(m, capturedValue + 1)` is false. -/
theorem C4_see_ge (env : AttackEnv) (pval : PieceType → Int) (pos : Position)
    (m : Move) (uc : Color) (upt : PieceType) (cc : Color) (cpt : PieceType)
    (hking : pval PieceType.king = 0) (hpos : ∀ pt, 0 ≤ pval pt)
    (hn : moveTypeOf m = 0)
    (hpc : pos.board (fromSq m) = some (uc, upt))
    (hcap : pos.board (toSq m) = some (cc, cpt)) :
    (∀ t1 t2 : Int, t1 ≤ t2 → see_ge env pval pos m t2 = true →
        see_ge env pval pos m t1 = true) ∧
    (∃! v : Int, ∀ t : Int, see_ge env pval pos m t = true ↔ t ≤ v) ∧
    (attackers_to env pos (toSq m)
          (pos.pieces ^^^ sqBB (fromSq m) ^^^ sqBB (toSq m))
        &&& (pos.pieces ^^^ sqBB (fromSq m) ^^^ sqBB (toSq m))
        &&& pos.byColorBB uc.other = 0 →
      see_ge env pval pos m (pval cpt) = true ∧
        see_ge env pval pos m (pval cpt + 1) = false) := by
  have hanti : ∀ t1 t2 : Int, t1 ≤ t2 → see_ge env pval pos m t2 = true →
      see_ge env pval pos m t1 = true :=
    fun t1 t2 h12 h => see_ge_antitone env pval pos m hking t1 t2 h12 h
  have hA : pcValP pval (pos.board (toSq m)) = pval cpt := by
    rw [hcap]; rfl
  have htrue : see_ge env pval pos m (pval cpt - pval upt) = true := by
    rw [see_ge_normal_eq env pval pos m uc upt _ hn hpc, hA]
    have hp := hpos upt
    rw [if_neg (by omega), if_pos (by omega)]
  have hfalse : see_ge env pval pos m (pval cpt + 1) = false := by
    rw [see_ge_normal_eq env pval pos m uc upt _ hn hpc, hA]
    rw [if_pos (by omega)]
  refine ⟨hanti, ?_, ?_⟩
  · obtain ⟨v, hv⟩ := antitone_threshold _ hanti (pval cpt + 1) hfalse
      (pval cpt + 1 - (pval cpt - pval upt)).toNat (pval cpt - pval upt)
      htrue (le_refl _)
    refine ⟨v, hv, ?_⟩
    intro v2 hv2
    have h1 : v2 ≤ v := (hv v2).1 ((hv2 v2).2 (le_refl _))
    have h2 : v ≤ v2 := (hv2 v).1 ((hv v).2 (le_refl _))
    omega
  · intro hatt
    refine ⟨?_, hfalse⟩
    rw [see_ge_normal_eq env pval pos m uc upt _ hn hpc, hA]
    rw [if_neg (by omega)]
    by_cases hf : 0 ≤ pval cpt - pval cpt - pval upt
    · rw [if_pos hf]
    · rw [if_neg hf]
      have hsa : seeSa pos.byColorBB pos.st.pinnersWhite pos.st.pinnersBlack
          pos.st.blockersWhite pos.st.blockersBlack uc.other
          (pos.pieces ^^^ sqBB (fromSq m) ^^^ sqBB (toSq m))
          (attackers_to env pos (toSq m)
              (pos.pieces ^^^ sqBB (fromSq m) ^^^ sqBB (toSq m))
            &&& (pos.pieces ^^^ sqBB (fromSq m) ^^^ sqBB (toSq m))) = 0 := by
        unfold seeSa
        rw [hatt]
        by_cases hp : (match uc.other.other with
            | Color.white => pos.st.pinnersWhite
            | Color.black => pos.st.pinnersBlack)
            &&& (pos.pieces ^^^ sqBB (fromSq m) ^^^ sqBB (toSq m)) ≠ 0
        · rw [if_pos hp]
          exact Nat.zero_and _
        · rw [if_neg hp]
      unfold seeLoop
      rw [if_pos hsa]
      simp [Ne.symm (Color.other_ne uc)]

/-- Witness for C4 at the rook-takes-rook capture Ra1xa2 in `pos3c`. -/
theorem C4_witness :
    (∀ t1 t2 : Int, t1 ≤ t2 →
        see_ge wenv wpval pos3c (mkMove 0 8) t2 = true →
        see_ge wenv wpval pos3c (mkMove 0 8) t1 = true) ∧
    (∃! v : Int, ∀ t : Int,
        see_ge wenv wpval pos3c (mkMove 0 8) t = true ↔ t ≤ v) ∧
    (attackers_to wenv pos3c (toSq (mkMove 0 8))
          (pos3c.pieces ^^^ sqBB (fromSq (mkMove 0 8))
            ^^^ sqBB (toSq (mkMove 0 8)))
        &&& (pos3c.pieces ^^^ sqBB (fromSq (mkMove 0 8))
            ^^^ sqBB (toSq (mkMove 0 8)))
        &&& pos3c.byColorBB Color.white.other = 0 →
      see_ge wenv wpval pos3c (mkMove 0 8) (wpval PieceType.rook) = true ∧
        see_ge wenv wpval pos3c (mkMove 0 8) (wpval PieceType.rook + 1) =
          false) :=
  C4_see_ge wenv wpval pos3c (mkMove 0 8) Color.white PieceType.rook
    Color.black PieceType.rook (by decide) (by decide) (by decide)
    (by decide) (by decide)

/-! ### Claim C2 -/

/-- The king term and the leaper terms of `attackers_to` do not depend on the
occupancy, and removing an occupied square only enlarges the rook term. -/
theorem attackers_to_mono_remove (env : AttackEnv) (pos : Position)
    (t f : Square) (occ : Bitboard) (x : Nat)
    (hocc : occ.testBit f = true)
    (h : (attackers_to env pos t occ).testBit x = true) :
    (attackers_to env pos t (occ ^^^ sqBB f)).testBit x = true := by
  unfold attackers_to at h ⊢
  simp only [Nat.testBit_or, Bool.or_eq_true] at h ⊢
  rcases h with (hy | hr) | hk
  · exact Or.inl (Or.inl hy)
  · rw [Nat.testBit_land, Bool.and_eq_true] at hr
    rcases rookAttacks_mono_remove t occ f hr.1 with h2 | h2
    · refine Or.inl (Or.inr ?_)
      rw [Nat.testBit_land, Bool.and_eq_true]
      exact ⟨h2, hr.2⟩
    · simp [hocc] at h2
  · exact Or.inr hk

/-- Emptiness of an attack intersection is preserved when the occupancy
regains a square. -/
theorem attackers_land_zero_of_remove (env : AttackEnv) (pos : Position)
    (t f : Square) (occ opp : Bitboard)
    (hocc : occ.testBit f = true)
    (h : attackers_to env pos t (occ ^^^ sqBB f) &&& opp = 0) :
    attackers_to env pos t occ &&& opp = 0 := by
  rw [land_eq_zero_iff] at h ⊢
  intro i hi
  exact h i ⟨attackers_to_mono_remove env pos t f occ i hocc hi.1, hi.2⟩

/-- A piece that attacks `t` only once the occupied square `f` is removed is
a rook seeing `t` through `f`; it therefore attacks `f` on the live board. -/
theorem attackers_reveal (env : AttackEnv) (pos : Position)
    (t f : Square) (occ : Bitboard) (x : Nat)
    (ht : t < 64) (hf : f < 64)
    (hocc : occ.testBit f = true)
    (h1 : (attackers_to env pos t (occ ^^^ sqBB f)).testBit x = true)
    (h0 : (attackers_to env pos t occ).testBit x = false) :
    (attackers_to env pos f occ).testBit x = true := by
  unfold attackers_to at h1
  simp only [Nat.testBit_or, Bool.or_eq_true] at h1
  rcases h1 with (hy | hr) | hk
  · have hterm : (attackers_to env pos t occ).testBit x = true := by
      unfold attackers_to
      simp only [Nat.testBit_or, Bool.or_eq_true]
      exact Or.inl (Or.inl hy)
    simp [hterm] at h0
  · rw [Nat.testBit_land, Bool.and_eq_true] at hr
    have h0r : (rookAttacksBB t occ).testBit x = false := by
      by_contra hcon
      rw [Bool.not_eq_false] at hcon
      have hterm : (attackers_to env pos t occ).testBit x = true := by
        unfold attackers_to
        simp only [Nat.testBit_or, Bool.or_eq_true]
        refine Or.inl (Or.inr ?_)
        rw [Nat.testBit_land, Bool.and_eq_true]
        exact ⟨hcon, hr.2⟩
      simp [hterm] at h0
    have hrev := rook_reveal ht hf hocc hr.1 h0r
    unfold attackers_to
    simp only [Nat.testBit_or, Bool.or_eq_true]
    refine Or.inl (Or.inr ?_)
    rw [Nat.testBit_land, Bool.and_eq_true]
    exact ⟨hrev, hr.2⟩
  · have hterm : (attackers_to env pos t occ).testBit x = true := by
      unfold attackers_to
      simp only [Nat.testBit_or, Bool.or_eq_true]
      exact Or.inr hk
    simp [hterm] at h0

/-- On a state-coherent position the stored checkers bitboard is the
recomputed one. -/
theorem st_checkers_eq (env : AttackEnv) (zob : Zobrist)
    (pval : PieceType → Int) (pos : Position)
    (hS : StateOk env zob pval pos) :
    pos.st.checkersBB = stateCheckersC env pos := by
  have h := congrArg StateInfo.checkersBB hS
  exact h

/-- On a consistent position the king square of `c` is the square holding
the king of `c`. -/
theorem kingSq_eq_of_board {pos : Position} (hC : Consistent pos) {c : Color}
    {f : Square} (hf : f < 64)
    (hb : pos.board f = some (c, PieceType.king)) : pos.kingSq c = f := by
  obtain ⟨hcnt, hnd, hmemF, hmemB⟩ := hC.2.2.2.2.1 c PieceType.king
  have h1 : (pos.pieceList c PieceType.king).length = 1 := by
    rw [← hcnt]
    exact hC.2.2.2.2.2.2.1 c
  have hf2 : f ∈ pos.pieceList c PieceType.king := hmemB f hf hb
  obtain ⟨a, ha⟩ := List.length_eq_one.mp h1
  rw [ha] at hf2
  simp only [List.mem_singleton] at hf2
  unfold Position.kingSq
  rw [ha, hf2]
  rfl

/-- What `pseudo_legal = true` yields for a `NORMAL` move by a king: the
mover belongs to the side to move, and if the side is in check the
destination is unattacked with the king removed from the occupancy
(the evasion filter of `pseudo_legal`). -/
theorem pseudo_legal_king_facts (env : AttackEnv) (gen : List Move)
    (pos : Position) (m : Move) (c : Color)
    (hmt : moveTypeOf m = 0)
    (hb : pos.board (fromSq m) = some (c, PieceType.king))
    (hpl : pseudo_legal env gen pos m = true) :
    c = pos.sideToMove ∧
    (pos.st.checkersBB ≠ 0 →
      attackers_to env pos (toSq m) (pos.allBB ^^^ sqBB (fromSq m))
        &&& pos.byColorBB pos.sideToMove.other = 0) := by
  unfold pseudo_legal at hpl
  simp only [hmt, ne_eq, not_true_eq_false, if_false, reduceIte] at hpl
  by_cases hpr : promoCode m = 0
  · simp only [hpr, not_true_eq_false, if_false, reduceIte, hb] at hpl
    by_cases hc : c = pos.sideToMove
    · subst hc
      refine ⟨rfl, ?_⟩
      intro hchk
      rw [if_neg (by simp)] at hpl
      by_cases hfr : pos.byColorBB pos.sideToMove &&& sqBB (toSq m) ≠ 0
      · rw [if_pos hfr] at hpl
        exact Bool.noConfusion hpl
      · rw [if_neg hfr] at hpl
        rw [if_neg (by decide : ¬ (PieceType.king = PieceType.pawn)),
          if_neg (by decide : ¬ (PieceType.king = PieceType.bishop))] at hpl
        by_cases hso : (attacksFromPT env pos PieceType.king (fromSq m)
            &&& sqBB (toSq m) != 0) = false
        · rw [if_pos hso] at hpl
          exact Bool.noConfusion hpl
        · rw [if_neg hso, if_pos hchk] at hpl
          by_cases hat : attackers_to env pos (toSq m)
              (pos.allBB ^^^ sqBB (fromSq m))
              &&& pos.byColorBB pos.sideToMove.other ≠ 0
          · rw [if_pos hat] at hpl
            exact Bool.noConfusion hpl
          · exact not_ne_iff.mp hat
    · rw [if_pos hc] at hpl
      exact Bool.noConfusion hpl
  · rw [if_pos hpr] at hpl
    exact Bool.noConfusion hpl

/-- C2: for every pseudo-legal move, if the moving piece is the king then
`legal` is true exactly when the destination is unattacked by the opponent
with the moving king removed from the occupancy; for any other mover,
`legal` is true exactly when the origin is not a blocker for the own king or
origin, destination and own king square are aligned. -/
theorem C2_legal (env : AttackEnv) (zob : Zobrist) (pval : PieceType → Int)
    (gen : List Move) (pos : Position) (m : Move)
    (hC : Consistent pos) (hS : StateOk env zob pval pos)
    (hgen : GenContract gen pos)
    (hpl : pseudo_legal env gen pos m = true) :
    (typeOn pos (fromSq m) = some PieceType.king →
      (legal env pos m = true ↔
        attackers_to env pos (toSq m) (pos.allBB ^^^ sqBB (fromSq m))
          &&& pos.byColorBB pos.sideToMove.other = 0)) ∧
    (typeOn pos (fromSq m) ≠ some PieceType.king →
      (legal env pos m = true ↔
        (pos.st.blockersForKing pos.sideToMove &&& sqBB (fromSq m) = 0 ∨
          aligned (fromSq m) (toSq m) (pos.kingSq pos.sideToMove) = true))) := by
  constructor
  · intro hkt
    obtain ⟨c, hb⟩ : ∃ c0, pos.board (fromSq m) = some (c0, PieceType.king) := by
      cases hbf : pos.board (fromSq m) with
      | none => simp [typeOn, hbf] at hkt
      | some cp =>
        obtain ⟨c0, pt0⟩ := cp
        have : pt0 = PieceType.king := by simpa [typeOn, hbf] using hkt
        exact ⟨c0, by rw [this]⟩
    have hmt : moveTypeOf m = 0 := by
      by_contra hcon
      unfold pseudo_legal at hpl
      simp only [ne_eq, hcon, not_false_eq_true, if_true, reduceIte] at hpl
      have hm : m ∈ gen := by
        simpa [List.contains, List.elem_eq_mem] using hpl
      obtain ⟨_, _, _, hle, hpp⟩ := hgen m hm
      have h1 : moveTypeOf m = 1 := by omega
      have hpt := hpp h1
      rw [hpt] at hkt
      simp at hkt
    obtain ⟨hcus, hincheck⟩ := pseudo_legal_king_facts env gen pos m c hmt hb hpl
    subst hcus
    have hf64 := fromSq_lt m
    have ht64 := toSq_lt m
    have hocc : pos.allBB.testBit (fromSq m) = true := by
      rw [hC.2.1 (fromSq m) hf64, hb]
      simp
    have hleq : legal env pos m
        = ((attackers_to env pos (toSq m) pos.allBB
            &&& pos.byColorBB pos.sideToMove.other) == 0) := by
      unfold legal
      rw [if_pos hkt]
    constructor
    · intro hL
      rw [hleq] at hL
      have hfull : attackers_to env pos (toSq m) pos.allBB
          &&& pos.byColorBB pos.sideToMove.other = 0 := by
        simpa using hL
      by_cases hchk : pos.st.checkersBB = 0
      · rw [land_eq_zero_iff]
        intro x hx
        by_cases hfx : (attackers_to env pos (toSq m) pos.allBB).testBit x = true
        · exact (land_eq_zero_iff _ _).1 hfull x ⟨hfx, hx.2⟩
        · have hrev := attackers_reveal env pos (toSq m) (fromSq m) pos.allBB x
            ht64 hf64 hocc hx.1 (by simpa using hfx)
          have hks : pos.kingSq pos.sideToMove = fromSq m :=
            kingSq_eq_of_board hC hf64 hb
          have hcne : stateCheckersC env pos ≠ 0 := by
            unfold stateCheckersC
            rw [hks, land_ne_zero_iff]
            exact ⟨x, hrev, hx.2⟩
          rw [st_checkers_eq env zob pval pos hS] at hchk
          exact hcne hchk
      · exact hincheck hchk
    · intro hR
      rw [hleq]
      have h0 : attackers_to env pos (toSq m) pos.allBB
          &&& pos.byColorBB pos.sideToMove.other = 0 :=
        attackers_land_zero_of_remove env pos (toSq m) (fromSq m) pos.allBB
          (pos.byColorBB pos.sideToMove.other) hocc hR
      simp [h0]
  · intro hkn
    have hleq : legal env pos m
        = ((pos.st.blockersForKing pos.sideToMove &&& sqBB (fromSq m) == 0)
            || aligned (fromSq m) (toSq m) (pos.kingSq pos.sideToMove)) := by
      unfold legal
      rw [if_neg hkn]
    rw [hleq]
    simp [Bool.or_eq_true, beq_iff_eq]

/-- Witness for C2: the quiet king step e1–d1 on a concrete position. -/
theorem C2_witness :
    Consistent pos9w ∧ StateOk wenv wzob wpval pos9w ∧
      pseudo_legal wenv [] pos9w (mkMove 4 3) = true ∧
      ((typeOn pos9w (fromSq (mkMove 4 3)) = some PieceType.king →
        (legal wenv pos9w (mkMove 4 3) = true ↔
          attackers_to wenv pos9w (toSq (mkMove 4 3))
            (pos9w.allBB ^^^ sqBB (fromSq (mkMove 4 3)))
            &&& pos9w.byColorBB pos9w.sideToMove.other = 0)) ∧
      (typeOn pos9w (fromSq (mkMove 4 3)) ≠ some PieceType.king →
        (legal wenv pos9w (mkMove 4 3) = true ↔
          (pos9w.st.blockersForKing pos9w.sideToMove
              &&& sqBB (fromSq (mkMove 4 3)) = 0 ∨
            aligned (fromSq (mkMove 4 3)) (toSq (mkMove 4 3))
              (pos9w.kingSq pos9w.sideToMove) = true)))) :=
  ⟨by decide, by decide, by decide,
    C2_legal wenv wzob wpval [] pos9w (mkMove 4 3) (by decide) (by decide)
      (fun m hm => absurd hm (List.not_mem_nil m)) (by decide)⟩

/-! ### Claim C1: fold, bit and list bookkeeping -/

theorem xor_left_comm (a b c : Nat) : a ^^^ (b ^^^ c) = b ^^^ (a ^^^ c) := by
  rw [← Nat.xor_assoc, Nat.xor_comm a b, Nat.xor_assoc]

theorem foldl_xor_init {α : Type} (l : List α) (g : α → Nat) (a : Nat) :
    l.foldl (fun k s => k ^^^ g s) a = a ^^^ l.foldl (fun k s => k ^^^ g s) 0 := by
  induction l generalizing a with
  | nil => simp
  | cons x xs ih =>
    simp only [List.foldl_cons]
    rw [ih (a ^^^ g x), ih (0 ^^^ g x)]
    simp [Nat.xor_assoc]

theorem foldl_xor_congr {α : Type} (l : List α) (g g' : α → Nat) (a : Nat)
    (h : ∀ s ∈ l, g s = g' s) :
    l.foldl (fun k s => k ^^^ g s) a = l.foldl (fun k s => k ^^^ g' s) a := by
  induction l generalizing a with
  | nil => rfl
  | cons x xs ih =>
    simp only [List.foldl_cons]
    rw [h x (List.mem_cons_self x xs)]
    exact ih _ (fun s hs => h s (List.mem_cons_of_mem x hs))

theorem foldl_xor_combine {α : Type} (l : List α) (g g' : α → Nat) :
    l.foldl (fun k s => k ^^^ g s) 0 ^^^ l.foldl (fun k s => k ^^^ g' s) 0
      = l.foldl (fun k s => k ^^^ (g s ^^^ g' s)) 0 := by
  induction l with
  | nil => simp
  | cons x xs ih =>
    simp only [List.foldl_cons]
    rw [foldl_xor_init xs g, foldl_xor_init xs g',
      foldl_xor_init xs (fun s => g s ^^^ g' s), ← ih]
    simp only [Nat.zero_xor]
    rw [Nat.xor_assoc, Nat.xor_assoc, xor_left_comm (g' x), ← Nat.xor_assoc, ← Nat.xor_assoc]

theorem foldl_xor_zero {α : Type} (l : List α) (g : α → Nat)
    (h : ∀ s ∈ l, g s = 0) : l.foldl (fun k s => k ^^^ g s) 0 = 0 := by
  induction l with
  | nil => rfl
  | cons x xs ih =>
    simp only [List.foldl_cons, h x (List.mem_cons_self x xs), Nat.xor_zero]
    exact ih (fun s hs => h s (List.mem_cons_of_mem x hs))

theorem foldl_xor_single {α : Type} (l : List α) (g : α → Nat) (f0 : α)
    (hnd : l.Nodup) (hf : f0 ∈ l) (h : ∀ s ∈ l, s ≠ f0 → g s = 0) :
    l.foldl (fun k s => k ^^^ g s) 0 = g f0 := by
  induction l with
  | nil => cases hf
  | cons x xs ih =>
    simp only [List.foldl_cons]
    rw [foldl_xor_init]
    rcases List.mem_cons.mp hf with hfx | hf2
    · have hz : ∀ s ∈ xs, g s = 0 := by
        intro s hs
        refine h s (List.mem_cons_of_mem x hs) ?_
        intro hsf
        exact (List.nodup_cons.mp hnd).1 (hfx ▸ hsf ▸ hs)
      rw [foldl_xor_zero xs g hz, hfx]
      simp
    · have hx : g x = 0 := by
        refine h x (List.mem_cons_self x xs) ?_
        intro hxf
        exact (List.nodup_cons.mp hnd).1 (hxf ▸ hf2)
      rw [hx]
      simpa using ih (List.nodup_cons.mp hnd).2 hf2
        (fun s hs hne => h s (List.mem_cons_of_mem x hs) hne)

theorem foldl_xor_pair {α : Type} (l : List α) (g : α → Nat) (f0 t0 : α)
    (hnd : l.Nodup) (hf : f0 ∈ l) (ht : t0 ∈ l) (hne : f0 ≠ t0)
    (h : ∀ s ∈ l, s ≠ f0 → s ≠ t0 → g s = 0) :
    l.foldl (fun k s => k ^^^ g s) 0 = g f0 ^^^ g t0 := by
  induction l with
  | nil => cases hf
  | cons x xs ih =>
    simp only [List.foldl_cons]
    rw [foldl_xor_init]
    rcases List.mem_cons.mp hf with hfx | hf2
    · have ht2 : t0 ∈ xs := by
        rcases List.mem_cons.mp ht with htx | htx
        · exact absurd (hfx.trans htx.symm) hne
        · exact htx
      have hs1 : ∀ s ∈ xs, s ≠ t0 → g s = 0 := by
        intro s hs hst
        refine h s (List.mem_cons_of_mem x hs) ?_ hst
        intro hsf
        exact (List.nodup_cons.mp hnd).1 (hfx ▸ hsf ▸ hs)
      rw [foldl_xor_single xs g t0 (List.nodup_cons.mp hnd).2 ht2 hs1, hfx]
      simp
    · rcases List.mem_cons.mp ht with htx | ht2
      · have hs1 : ∀ s ∈ xs, s ≠ f0 → g s = 0 := by
          intro s hs hsf
          refine h s (List.mem_cons_of_mem x hs) hsf ?_
          intro hst
          exact (List.nodup_cons.mp hnd).1 (htx ▸ hst ▸ hs)
        rw [foldl_xor_single xs g f0 (List.nodup_cons.mp hnd).2 hf2 hs1, htx]
        simp [Nat.xor_comm]
      · have hx : g x = 0 := by
          refine h x (List.mem_cons_self x xs) ?_ ?_
          · intro hxf
            exact (List.nodup_cons.mp hnd).1 (hxf ▸ hf2)
          · intro hxt
            exact (List.nodup_cons.mp hnd).1 (hxt ▸ ht2)
        rw [hx]
        simpa using ih (List.nodup_cons.mp hnd).2 hf2 ht2
          (fun s hs h1 h2 => h s (List.mem_cons_of_mem x hs) h1 h2)

theorem foldl_xor_update {α : Type} (l : List α) (g g' : α → Nat) (f0 t0 : α)
    (hnd : l.Nodup) (hf : f0 ∈ l) (ht : t0 ∈ l) (hne : f0 ≠ t0)
    (hsame : ∀ s ∈ l, s ≠ f0 → s ≠ t0 → g' s = g s) :
    l.foldl (fun k s => k ^^^ g' s) 0
      = l.foldl (fun k s => k ^^^ g s) 0 ^^^ ((g f0 ^^^ g' f0) ^^^ (g t0 ^^^ g' t0)) := by
  have hp : l.foldl (fun k s => k ^^^ (g s ^^^ g' s)) 0
      = (g f0 ^^^ g' f0) ^^^ (g t0 ^^^ g' t0) :=
    foldl_xor_pair l (fun s => g s ^^^ g' s) f0 t0 hnd hf ht hne
      (fun s hs h1 h2 => by
        show g s ^^^ g' s = 0
        rw [hsame s hs h1 h2, Nat.xor_self])
  have hc := foldl_xor_combine l g g'
  rw [hp] at hc
  rw [← hc, ← Nat.xor_assoc, Nat.xor_self, Nat.zero_xor]

theorem foldl_xor_filter {α : Type} (l : List α) (pb : α → Bool) (g : α → Nat)
    (h : ∀ s ∈ l, pb s = false → g s = 0) (a : Nat) :
    (l.filter pb).foldl (fun k s => k ^^^ g s) a = l.foldl (fun k s => k ^^^ g s) a := by
  induction l generalizing a with
  | nil => rfl
  | cons x xs ih =>
    rw [List.filter_cons]
    by_cases hx : pb x = true
    · simp only [hx, if_true, List.foldl_cons, reduceIte]
      exact ih (fun s hs hz => h s (List.mem_cons_of_mem x hs) hz) _
    · have hx0 : g x = 0 := h x (List.mem_cons_self x xs) (by simpa using hx)
      simp only [hx, List.foldl_cons, if_false, Bool.false_eq_true, reduceIte, hx0, Nat.xor_zero]
      exact ih (fun s hs hz => h s (List.mem_cons_of_mem x hs) hz) _

theorem foldl_add_init {α : Type} (l : List α) (g : α → Int) (a : Int) :
    l.foldl (fun k s => k + g s) a = a + l.foldl (fun k s => k + g s) 0 := by
  induction l generalizing a with
  | nil => simp
  | cons x xs ih =>
    simp only [List.foldl_cons]
    rw [ih (a + g x), ih (0 + g x)]
    ring

theorem foldl_add_congr {α : Type} (l : List α) (g g' : α → Int) (a : Int)
    (h : ∀ s ∈ l, g s = g' s) :
    l.foldl (fun k s => k + g s) a = l.foldl (fun k s => k + g' s) a := by
  induction l generalizing a with
  | nil => rfl
  | cons x xs ih =>
    simp only [List.foldl_cons]
    rw [h x (List.mem_cons_self x xs)]
    exact ih _ (fun s hs => h s (List.mem_cons_of_mem x hs))

theorem foldl_add_combine {α : Type} (l : List α) (g g' : α → Int) :
    l.foldl (fun k s => k + g' s) 0
      = l.foldl (fun k s => k + g s) 0 + l.foldl (fun k s => k + (g' s - g s)) 0 := by
  induction l with
  | nil => simp
  | cons x xs ih =>
    simp only [List.foldl_cons]
    rw [foldl_add_init xs g, foldl_add_init xs g',
      foldl_add_init xs (fun s => g' s - g s), ih]
    ring

theorem foldl_add_zero {α : Type} (l : List α) (g : α → Int)
    (h : ∀ s ∈ l, g s = 0) : l.foldl (fun k s => k + g s) 0 = 0 := by
  induction l with
  | nil => rfl
  | cons x xs ih =>
    simp only [List.foldl_cons, h x (List.mem_cons_self x xs), add_zero]
    exact ih (fun s hs => h s (List.mem_cons_of_mem x hs))

theorem foldl_add_single {α : Type} (l : List α) (g : α → Int) (f0 : α)
    (hnd : l.Nodup) (hf : f0 ∈ l) (h : ∀ s ∈ l, s ≠ f0 → g s = 0) :
    l.foldl (fun k s => k + g s) 0 = g f0 := by
  induction l with
  | nil => cases hf
  | cons x xs ih =>
    simp only [List.foldl_cons]
    rw [foldl_add_init]
    rcases List.mem_cons.mp hf with hfx | hf2
    · have hz : ∀ s ∈ xs, g s = 0 := by
        intro s hs
        refine h s (List.mem_cons_of_mem x hs) ?_
        intro hsf
        exact (List.nodup_cons.mp hnd).1 (hfx ▸ hsf ▸ hs)
      rw [foldl_add_zero xs g hz, hfx]
      simp
    · have hx : g x = 0 := by
        refine h x (List.mem_cons_self x xs) ?_
        intro hxf
        exact (List.nodup_cons.mp hnd).1 (hxf ▸ hf2)
      rw [hx]
      simpa using ih (List.nodup_cons.mp hnd).2 hf2
        (fun s hs hne => h s (List.mem_cons_of_mem x hs) hne)

theorem foldl_add_pair {α : Type} (l : List α) (g : α → Int) (f0 t0 : α)
    (hnd : l.Nodup) (hf : f0 ∈ l) (ht : t0 ∈ l) (hne : f0 ≠ t0)
    (h : ∀ s ∈ l, s ≠ f0 → s ≠ t0 → g s = 0) :
    l.foldl (fun k s => k + g s) 0 = g f0 + g t0 := by
  induction l with
  | nil => cases hf
  | cons x xs ih =>
    simp only [List.foldl_cons]
    rw [foldl_add_init]
    rcases List.mem_cons.mp hf with hfx | hf2
    · have ht2 : t0 ∈ xs := by
        rcases List.mem_cons.mp ht with htx | htx
        · exact absurd (hfx.trans htx.symm) hne
        · exact htx
      have hs1 : ∀ s ∈ xs, s ≠ t0 → g s = 0 := by
        intro s hs hst
        refine h s (List.mem_cons_of_mem x hs) ?_ hst
        intro hsf
        exact (List.nodup_cons.mp hnd).1 (hfx ▸ hsf ▸ hs)
      rw [foldl_add_single xs g t0 (List.nodup_cons.mp hnd).2 ht2 hs1, hfx]
      simp
    · rcases List.mem_cons.mp ht with htx | ht2
      · have hs1 : ∀ s ∈ xs, s ≠ f0 → g s = 0 := by
          intro s hs hsf
          refine h s (List.mem_cons_of_mem x hs) hsf ?_
          intro hst
          exact (List.nodup_cons.mp hnd).1 (htx ▸ hst ▸ hs)
        rw [foldl_add_single xs g f0 (List.nodup_cons.mp hnd).2 hf2 hs1, htx]
        simp [Int.add_comm]
      · have hx : g x = 0 := by
          refine h x (List.mem_cons_self x xs) ?_ ?_
          · intro hxf
            exact (List.nodup_cons.mp hnd).1 (hxf ▸ hf2)
          · intro hxt
            exact (List.nodup_cons.mp hnd).1 (hxt ▸ ht2)
        rw [hx]
        simpa using ih (List.nodup_cons.mp hnd).2 hf2 ht2
          (fun s hs h1 h2 => h s (List.mem_cons_of_mem x hs) h1 h2)

theorem foldl_add_update {α : Type} (l : List α) (g g' : α → Int) (f0 t0 : α)
    (hnd : l.Nodup) (hf : f0 ∈ l) (ht : t0 ∈ l) (hne : f0 ≠ t0)
    (hsame : ∀ s ∈ l, s ≠ f0 → s ≠ t0 → g' s = g s) :
    l.foldl (fun k s => k + g' s) 0
      = l.foldl (fun k s => k + g s) 0 + ((g' f0 - g f0) + (g' t0 - g t0)) := by
  have hp : l.foldl (fun k s => k + (g' s - g s)) 0
      = (g' f0 - g f0) + (g' t0 - g t0) :=
    foldl_add_pair l (fun s => g' s - g s) f0 t0 hnd hf ht hne
      (fun s hs h1 h2 => by
        show g' s - g s = 0
        rw [hsame s hs h1 h2, sub_self])
  rw [foldl_add_combine l g g', hp]

theorem foldl_add_filter {α : Type} (l : List α) (pb : α → Bool) (g : α → Int)
    (h : ∀ s ∈ l, pb s = false → g s = 0) (a : Int) :
    (l.filter pb).foldl (fun k s => k + g s) a = l.foldl (fun k s => k + g s) a := by
  induction l generalizing a with
  | nil => rfl
  | cons x xs ih =>
    rw [List.filter_cons]
    by_cases hx : pb x = true
    · simp only [hx, if_true, List.foldl_cons, reduceIte]
      exact ih (fun s hs hz => h s (List.mem_cons_of_mem x hs) hz) _
    · have hx0 : g x = 0 := h x (List.mem_cons_self x xs) (by simpa using hx)
      simp only [hx, List.foldl_cons, if_false, Bool.false_eq_true, reduceIte, hx0, add_zero]
      exact ih (fun s hs hz => h s (List.mem_cons_of_mem x hs) hz) _

/-- Setting a bit that was just cleared restores the word. -/
theorem or_sqBB_of_xor {a : Nat} {s : Nat} (h : a.testBit s = true) :
    (a ^^^ sqBB s) ||| sqBB s = a := by
  apply Nat.eq_of_testBit_eq
  intro i
  simp only [Nat.testBit_or, Nat.testBit_xor, testBit_sqBB]
  by_cases hi : s = i
  · subst hi
    simp [h]
  · simp [hi]

/-- Clearing a bit that was just set restores the word. -/
theorem xor_sqBB_of_or {a : Nat} {s : Nat} (h : a.testBit s = false) :
    (a ||| sqBB s) ^^^ sqBB s = a := by
  apply Nat.eq_of_testBit_eq
  intro i
  simp only [Nat.testBit_or, Nat.testBit_xor, testBit_sqBB]
  by_cases hi : s = i
  · subst hi
    simp [h]
  · simp [hi]

theorem xor_mask_cancel (a m : Nat) : a ^^^ m ^^^ m = a := by
  rw [Nat.xor_assoc, Nat.xor_self, Nat.xor_zero]

theorem indexOf_concat_self {l : List Square} {s : Square} (h : s ∉ l) :
    (l ++ [s]).indexOf s = l.length := by
  rw [List.indexOf_append_of_not_mem h]
  simp

theorem set_concat_self (l : List Square) (s b : Square) :
    (l ++ [s]).set l.length b = l ++ [b] := by
  induction l with
  | nil => rfl
  | cons x xs ih =>
    simp only [List.cons_append, List.length_cons, List.set_cons_succ, ih]

/-- Removing a freshly appended entry by swap-remove recovers the list. -/
theorem swapRemove_concat_self {l : List Square} {s : Square} (h : s ∉ l) :
    swapRemove (l ++ [s]) s = l := by
  unfold swapRemove
  rw [indexOf_concat_self h, List.getLastD_concat, set_concat_self]
  exact List.dropLast_concat

/-- Swap-remove followed by re-appending permutes the original list. -/
theorem swapRemove_perm {l : List Square} {s : Square} (hmem : s ∈ l) :
    (swapRemove l s ++ [s]).Perm l := by
  have hi : l.indexOf s < l.length := List.indexOf_lt_length.mpr hmem
  have hgi := List.getElem_indexOf hi
  have hdrop : l.drop (l.indexOf s) = s :: l.drop (l.indexOf s + 1) := by
    rw [List.drop_eq_getElem_cons hi, hgi]
  set A := l.take (l.indexOf s) with hA
  set B := l.drop (l.indexOf s + 1) with hB
  have hl : l = A ++ s :: B := by
    rw [hA, hB]
    conv_lhs => rw [← List.take_append_drop (l.indexOf s) l]
    rw [hdrop]
  by_cases hBe : B = []
  · have hl2 : l = A ++ [s] := by rw [hl, hBe]
    have hlast : l.getLastD 0 = s := by rw [hl2, List.getLastD_concat]
    have hset : l.set (l.indexOf s) (l.getLastD 0) = l := by
      rw [hlast, List.set_eq_take_cons_drop s hi, ← hA, ← hB, ← hl]
    unfold swapRemove
    rw [hset, hl2, List.dropLast_concat]
  · set B' := B.dropLast with hB2
    set e := B.getLast hBe with he
    have hBsplit : B = B' ++ [e] := (List.dropLast_append_getLast hBe).symm
    have hassoc1 : A ++ s :: (B' ++ [e]) = (A ++ s :: B') ++ [e] := by simp
    have hlast : l.getLastD 0 = e := by
      rw [hl, hBsplit, hassoc1, List.getLastD_concat]
    have hassoc2 : A ++ e :: (B' ++ [e]) = (A ++ e :: B') ++ [e] := by simp
    have hset : l.set (l.indexOf s) (l.getLastD 0) = (A ++ e :: B') ++ [e] := by
      rw [hlast, List.set_eq_take_cons_drop e hi, ← hA, ← hB, hBsplit, hassoc2]
    unfold swapRemove
    rw [hset, List.dropLast_concat]
    conv_rhs => rw [hl, hBsplit]
    have hassoc3 : (A ++ e :: B') ++ [s] = A ++ (e :: (B' ++ [s])) := by simp
    rw [hassoc3]
    refine List.Perm.append_left _ ?_
    have h1 : List.Perm (e :: (B' ++ [s])) (e :: s :: B') :=
      (@List.perm_append_comm _ B' [s]).cons e
    have h2 : List.Perm (e :: s :: B') (s :: e :: B') := List.Perm.swap s e B'
    have h3 : List.Perm (s :: e :: B') (s :: (B' ++ [e])) :=
      (@List.perm_append_comm _ [e] B').cons s
    exact (h1.trans h2).trans h3

/-- Swap-remove is, up to order, erasure. -/
theorem swapRemove_perm_erase {l : List Square} {s : Square} (hmem : s ∈ l) :
    (swapRemove l s).Perm (l.erase s) := by
  have h1 := swapRemove_perm hmem
  have h2 : List.Perm l (s :: l.erase s) := List.perm_cons_erase hmem
  have h3 : List.Perm (s :: swapRemove l s) (swapRemove l s ++ [s]) :=
    @List.perm_append_comm _ [s] (swapRemove l s)
  exact (List.perm_cons s).mp ((h3.trans h1).trans h2)

theorem not_mem_swapRemove {l : List Square} {s : Square}
    (hnd : l.Nodup) (hmem : s ∈ l) : s ∉ swapRemove l s := by
  intro hcon
  have h1 := (swapRemove_perm_erase hmem).mem_iff.mp hcon
  have h2 : s ∉ l.erase s := List.Nodup.not_mem_erase hnd
  exact h2 h1

/-- Moving an entry to a fresh square and back restores the list exactly. -/
theorem set_indexOf_roundtrip (l : List Square) (f t : Square)
    (hf : f ∈ l) (ht : t ∉ l) :
    (l.set (l.indexOf f) t).set ((l.set (l.indexOf f) t).indexOf t) f = l := by
  induction l with
  | nil => cases hf
  | cons x xs ih =>
    by_cases hxf : x = f
    · subst hxf
      rw [List.indexOf_cons_self]
      simp only [List.set_cons_zero]
      rw [List.indexOf_cons_self]
      simp only [List.set_cons_zero]
    · have hf2 : f ∈ xs := by
        rcases List.mem_cons.mp hf with h | h
        · exact absurd h.symm hxf
        · exact h
      have hxt : x ≠ t := fun h => ht (h ▸ List.mem_cons_self x xs)
      rw [List.indexOf_cons_ne _ hxf]
      simp only [Nat.succ_eq_add_one, List.set_cons_succ]
      rw [List.indexOf_cons_ne _ hxt]
      simp only [Nat.succ_eq_add_one, List.set_cons_succ]
      rw [ih hf2 (fun h => ht (List.mem_cons_of_mem x h))]

theorem doMoveCapture_pos (zob : Zobrist) (pval : PieceType → Int)
    (t : Square) (them : Color) (cap : Piece) (pos0 : Position)
    (st0 : StateInfo) (k0 : Key) :
    (doMoveCapture zob pval t them cap pos0 st0 k0).1
      = match cap with
        | none => pos0
        | some (cc, cpt) => remove_piece pos0 cc cpt t := by
  cases cap with
  | none => rfl
  | some cp => obtain ⟨cc, cpt⟩ := cp; rfl

theorem doMovePawn_pos (zob : Zobrist) (pval : PieceType → Int) (m : Move)
    (us uc : Color) (f t : Square) (pos2 : Position) (st1 : StateInfo)
    (k2 : Key) :
    (doMovePawn zob pval m us uc f t pos2 st1 k2).1
      = if moveTypeOf m = 1 then
          put_piece (remove_piece pos2 uc PieceType.pawn t) us
            (promotionTypeOf m) t
        else pos2 := by
  unfold doMovePawn
  by_cases h : moveTypeOf m = 1 <;> simp [h]

/-- The piece-store part of `do_move`: capture removal, the mover slide and
the promotion replacement, without the state bookkeeping. -/
def coreAfterDo (m : Move) (pos : Position) (uc : Color) (upt : PieceType)
    (us : Color) : Position :=
  let pos1 := match pos.board (toSq m) with
    | none => pos
    | some (cc, cpt) => remove_piece pos cc cpt (toSq m)
  let pos2 := move_piece pos1 uc upt (fromSq m) (toSq m)
  if moveTypeOf m = 1 then
    put_piece (remove_piece pos2 uc PieceType.pawn (toSq m)) us
      (promotionTypeOf m) (toSq m)
  else pos2

theorem do_move_store (env : AttackEnv) (zob : Zobrist)
    (pval : PieceType → Int) (m : Move) (gc : Bool) (pos : Position)
    (uc : Color) (upt : PieceType)
    (hpc : pos.board (fromSq m) = some (uc, upt))
    (hpp : moveTypeOf m = 1 → upt = PieceType.pawn) :
    (do_move env zob pval m gc pos).board
        = (coreAfterDo m pos uc upt pos.sideToMove).board ∧
    (do_move env zob pval m gc pos).byColorBB
        = (coreAfterDo m pos uc upt pos.sideToMove).byColorBB ∧
    (do_move env zob pval m gc pos).byTypeBB
        = (coreAfterDo m pos uc upt pos.sideToMove).byTypeBB ∧
    (do_move env zob pval m gc pos).allBB
        = (coreAfterDo m pos uc upt pos.sideToMove).allBB ∧
    (do_move env zob pval m gc pos).pieceCount
        = (coreAfterDo m pos uc upt pos.sideToMove).pieceCount ∧
    (do_move env zob pval m gc pos).pieceCountAll
        = (coreAfterDo m pos uc upt pos.sideToMove).pieceCountAll ∧
    (do_move env zob pval m gc pos).pieceList
        = (coreAfterDo m pos uc upt pos.sideToMove).pieceList ∧
    (do_move env zob pval m gc pos).sideToMove = pos.sideToMove.other ∧
    (do_move env zob pval m gc pos).gamePly = pos.gamePly + 1 ∧
    (do_move env zob pval m gc pos).hist = pos.st :: pos.hist ∧
    (do_move env zob pval m gc pos).st.capturedPiece = pos.board (toSq m) := by
  unfold do_move coreAfterDo
  simp only [hpc]
  unfold doMoveMain
  simp only [doMoveCapture_pos]
  by_cases hmt : moveTypeOf m = 1
  · have hup := hpp hmt
    subst hup
    simp only [hmt, reduceIte, if_true, doMovePawn_pos]
    cases hcap2 : pos.board (toSq m) with
    | none => exact ⟨rfl, rfl, rfl, rfl, rfl, rfl, rfl, rfl, rfl, rfl, rfl⟩
    | some cp =>
      obtain ⟨cc, cpt⟩ := cp
      exact ⟨rfl, rfl, rfl, rfl, rfl, rfl, rfl, rfl, rfl, rfl, rfl⟩
  · by_cases hup : upt = PieceType.pawn
    · subst hup
      simp only [hmt, reduceIte, if_true, if_false, doMovePawn_pos]
      cases hcap2 : pos.board (toSq m) with
      | none => exact ⟨rfl, rfl, rfl, rfl, rfl, rfl, rfl, rfl, rfl, rfl, rfl⟩
      | some cp =>
        obtain ⟨cc, cpt⟩ := cp
        exact ⟨rfl, rfl, rfl, rfl, rfl, rfl, rfl, rfl, rfl, rfl, rfl⟩
    · simp only [hmt, hup, reduceIte, if_false]
      cases hcap2 : pos.board (toSq m) with
      | none => exact ⟨rfl, rfl, rfl, rfl, rfl, rfl, rfl, rfl, rfl, rfl, rfl⟩
      | some cp =>
        obtain ⟨cc, cpt⟩ := cp
        exact ⟨rfl, rfl, rfl, rfl, rfl, rfl, rfl, rfl, rfl, rfl, rfl⟩

/-- The piece-store part of `undo_move`. -/
def coreAfterUndo (m : Move) (q : Position) (c0 : Color) (pt0 : PieceType)
    (us : Color) : Position :=
  let q1 := if moveTypeOf m = 1 then
      put_piece (remove_piece q c0 pt0 (toSq m)) us PieceType.pawn (toSq m)
    else q
  let q2 := move_piece q1 (if moveTypeOf m = 1 then us else c0)
    (if moveTypeOf m = 1 then PieceType.pawn else pt0) (toSq m) (fromSq m)
  match q.st.capturedPiece with
  | none => q2
  | some (cc, cpt) => put_piece q2 cc cpt (toSq m)

theorem undo_move_store (m : Move) (q : Position) (c0 : Color) (pt0 : PieceType)
    (h : StateInfo) (tl : List StateInfo)
    (hb : q.board (toSq m) = some (c0, pt0))
    (hh : q.hist = h :: tl) :
    (undo_move m q).board
        = (coreAfterUndo m q c0 pt0 q.sideToMove.other).board ∧
    (undo_move m q).byColorBB
        = (coreAfterUndo m q c0 pt0 q.sideToMove.other).byColorBB ∧
    (undo_move m q).byTypeBB
        = (coreAfterUndo m q c0 pt0 q.sideToMove.other).byTypeBB ∧
    (undo_move m q).allBB
        = (coreAfterUndo m q c0 pt0 q.sideToMove.other).allBB ∧
    (undo_move m q).pieceCount
        = (coreAfterUndo m q c0 pt0 q.sideToMove.other).pieceCount ∧
    (undo_move m q).pieceCountAll
        = (coreAfterUndo m q c0 pt0 q.sideToMove.other).pieceCountAll ∧
    (undo_move m q).pieceList
        = (coreAfterUndo m q c0 pt0 q.sideToMove.other).pieceList ∧
    (undo_move m q).sideToMove = q.sideToMove.other ∧
    (undo_move m q).gamePly = q.gamePly - 1 ∧
    (undo_move m q).st = h ∧
    (undo_move m q).hist = tl := by
  unfold undo_move coreAfterUndo
  simp only [hb, hh]
  by_cases hmt : moveTypeOf m = 1
  · simp only [hmt, reduceIte, if_true]
    cases hcp : q.st.capturedPiece with
    | none => refine ⟨?_, ?_, ?_, ?_, ?_, ?_, ?_, ?_, ?_, ?_, ?_⟩ <;> first | rfl | trivial
    | some cp =>
      obtain ⟨cc, cpt⟩ := cp
      refine ⟨?_, ?_, ?_, ?_, ?_, ?_, ?_, ?_, ?_, ?_, ?_⟩ <;> first | rfl | trivial
  · simp only [hmt, reduceIte, if_false]
    cases hcp : q.st.capturedPiece with
    | none => refine ⟨?_, ?_, ?_, ?_, ?_, ?_, ?_, ?_, ?_, ?_, ?_⟩ <;> first | rfl | trivial
    | some cp =>
      obtain ⟨cc, cpt⟩ := cp
      refine ⟨?_, ?_, ?_, ?_, ?_, ?_, ?_, ?_, ?_, ?_, ?_⟩ <;> first | rfl | trivial

theorem mask_move_move (B : Bitboard) (f t : Square) :
    B ^^^ (sqBB f ||| sqBB t) ^^^ (sqBB t ||| sqBB f) = B := by
  rw [show sqBB t ||| sqBB f = sqBB f ||| sqBB t from Nat.or_comm _ _, xor_mask_cancel]

/-- Board-at-destination after `do_move`. -/
theorem do_move_board_to (env : AttackEnv) (zob : Zobrist)
    (pval : PieceType → Int) (m : Move) (gc : Bool) (pos : Position)
    (upt : PieceType)
    (hpc : pos.board (fromSq m) = some (pos.sideToMove, upt))
    (hpp : moveTypeOf m = 1 → upt = PieceType.pawn) :
    (do_move env zob pval m gc pos).board (toSq m)
      = some (pos.sideToMove,
          if moveTypeOf m = 1 then promotionTypeOf m else upt) := by
  rw [(do_move_store env zob pval m gc pos pos.sideToMove upt hpc hpp).1]
  unfold coreAfterDo
  by_cases hmt : moveTypeOf m = 1
  · simp [hmt, put_piece]
  · simp only [hmt, reduceIte, if_false]
    cases hcap : pos.board (toSq m) with
    | none => simp [move_piece]
    | some cp => obtain ⟨cc, cpt⟩ := cp; simp [move_piece]

theorem colorBit_true {pos : Position} (hC : Consistent pos) {c : Color}
    {s : Square} (hs : s < 64) (h : colorOn pos s = some c) :
    (pos.byColorBB c).testBit s = true :=
  ((hC.2.2.1 c).2 s hs).mpr h

theorem colorBit_false {pos : Position} (hC : Consistent pos) {c : Color}
    {s : Square} (hs : s < 64) (h : colorOn pos s ≠ some c) :
    (pos.byColorBB c).testBit s = false := by
  by_cases hbb : (pos.byColorBB c).testBit s = true
  · exact absurd (((hC.2.2.1 c).2 s hs).mp hbb) h
  · simpa using hbb

theorem typeBit_true {pos : Position} (hC : Consistent pos) {pt : PieceType}
    {s : Square} (hs : s < 64) (h : typeOn pos s = some pt) :
    (pos.byTypeBB pt).testBit s = true :=
  ((hC.2.2.2.1 pt).2 s hs).mpr h

theorem typeBit_false {pos : Position} (hC : Consistent pos) {pt : PieceType}
    {s : Square} (hs : s < 64) (h : typeOn pos s ≠ some pt) :
    (pos.byTypeBB pt).testBit s = false := by
  by_cases hbb : (pos.byTypeBB pt).testBit s = true
  · exact absurd (((hC.2.2.2.1 pt).2 s hs).mp hbb) h
  · simpa using hbb

theorem allBit_true {pos : Position} (hC : Consistent pos) {s : Square}
    (hs : s < 64) (h : pos.board s ≠ none) : pos.allBB.testBit s = true :=
  (hC.2.1 s hs).mpr h

theorem allBit_false {pos : Position} (hC : Consistent pos) {s : Square}
    (hs : s < 64) (h : pos.board s = none) : pos.allBB.testBit s = false := by
  by_cases hbb : pos.allBB.testBit s = true
  · exact absurd ((hC.2.1 s hs).mp hbb) (by simp [h])
  · simpa using hbb

theorem count_pos_of_board {pos : Position} (hC : Consistent pos) {c : Color}
    {pt : PieceType} {s : Square} (hs : s < 64)
    (h : pos.board s = some (c, pt)) : 1 ≤ pos.pieceCount c pt := by
  have hm : s ∈ pos.pieceList c pt := (hC.2.2.2.2.1 c pt).2.2.2 s hs h
  rw [(hC.2.2.2.2.1 c pt).1]
  exact List.length_pos_of_mem hm

theorem countAll_pos_of_board {pos : Position} (hC : Consistent pos)
    {c : Color} {pt : PieceType} {s : Square} (hs : s < 64)
    (h : pos.board s = some (c, pt)) : 1 ≤ pos.pieceCountAll c := by
  have h1 := count_pos_of_board hC hs h
  have h2 := hC.2.2.2.2.2.1 c
  cases pt <;> omega

theorem promotionTypeOf_ne_pawn (m : Move) :
    promotionTypeOf m ≠ PieceType.pawn := by
  unfold promotionTypeOf
  rcases h : promoCode m with - | - | - | n <;> simp

/-- Replacing the first occurrence of `f` by `t` permutes to `t` plus the
list with `f` erased. -/
theorem set_indexOf_perm (l : List Square) (f t : Square) (hf : f ∈ l) :
    List.Perm (l.set (l.indexOf f) t) (t :: l.erase f) := by
  induction l with
  | nil => cases hf
  | cons x xs ih =>
    by_cases hxf : x = f
    · subst hxf
      rw [List.indexOf_cons_self]
      simp only [List.set_cons_zero, List.erase_cons_head]
      exact List.Perm.refl _
    · have hf2 : f ∈ xs := by
        rcases List.mem_cons.mp hf with h | h
        · exact absurd h.symm hxf
        · exact h
      rw [List.indexOf_cons_ne _ hxf]
      simp only [Nat.succ_eq_add_one, List.set_cons_succ]
      have herase : (x :: xs).erase f = x :: xs.erase f :=
        List.erase_cons_tail (by simp [hxf])
      rw [herase]
      exact ((ih hf2).cons x).trans (List.Perm.swap t x (xs.erase f))

theorem nodup_set_fresh {l : List Square} {i : Nat} {b : Square}
    (hi : i < l.length) (hnd : l.Nodup) (hb : b ∉ l) : (l.set i b).Nodup := by
  rw [List.set_eq_take_cons_drop b hi]
  have hnd2 : (l.take i ++ l.drop i).Nodup := by
    rw [List.take_append_drop]
    exact hnd
  rw [List.nodup_append] at hnd2
  obtain ⟨hta, hdr, hdis⟩ := hnd2
  rw [List.nodup_append]
  refine ⟨hta, ?_, ?_⟩
  · rw [List.nodup_cons]
    constructor
    · intro hcon
      exact hb (List.drop_subset _ _ hcon)
    · have h2 := hdr
      rw [List.drop_eq_getElem_cons hi] at h2
      exact (List.nodup_cons.mp h2).2
  · intro a hmem1 hmem2
    rcases List.mem_cons.mp hmem2 with hab | hmem3
    · exact hb (hab ▸ List.take_subset _ _ hmem1)
    · have hmem4 : a ∈ l.drop i := by
        rw [List.drop_eq_getElem_cons hi]
        exact List.mem_cons_of_mem _ hmem3
      exact hdis hmem1 hmem4

/-- The roundtrip property of one `do_move`/`undo_move` pair: the board, the
bitboards, the counts, the side, the ply counter and the state stack come
back exactly; the piece lists come back up to order. -/
def RoundtripSpec (env : AttackEnv) (zob : Zobrist) (pval : PieceType → Int)
    (m : Move) (gc : Bool) (pos : Position) : Prop :=
  (undo_move m (do_move env zob pval m gc pos)).board = pos.board ∧
  (undo_move m (do_move env zob pval m gc pos)).byColorBB = pos.byColorBB ∧
  (undo_move m (do_move env zob pval m gc pos)).byTypeBB = pos.byTypeBB ∧
  (undo_move m (do_move env zob pval m gc pos)).allBB = pos.allBB ∧
  (undo_move m (do_move env zob pval m gc pos)).pieceCount = pos.pieceCount ∧
  (undo_move m (do_move env zob pval m gc pos)).pieceCountAll = pos.pieceCountAll ∧
  (∀ c pt, List.Perm
      ((undo_move m (do_move env zob pval m gc pos)).pieceList c pt)
      (pos.pieceList c pt)) ∧
  (undo_move m (do_move env zob pval m gc pos)).sideToMove = pos.sideToMove ∧
  (undo_move m (do_move env zob pval m gc pos)).gamePly = pos.gamePly ∧
  (undo_move m (do_move env zob pval m gc pos)).st = pos.st ∧
  (undo_move m (do_move env zob pval m gc pos)).hist = pos.hist

theorem roundtrip_promo_quiet (env : AttackEnv) (zob : Zobrist)
    (pval : PieceType → Int) (m : Move) (gc : Bool) (pos : Position)
    (hC : Consistent pos)
    (hpc : pos.board (fromSq m) = some (pos.sideToMove, PieceType.pawn))
    (hcap2 : pos.board (toSq m) = none)
    (hmt : moveTypeOf m = 1)
    (hft : fromSq m ≠ toSq m) :
    RoundtripSpec env zob pval m gc pos := by
  have hf64 := fromSq_lt m
  have ht64 := toSq_lt m
  obtain ⟨hb', hc', ht', ha', hcnt', hcall', hpl', hstm', hply', hhist', hcap'⟩ :=
    do_move_store env zob pval m gc pos pos.sideToMove PieceType.pawn hpc
      (fun _ => rfl)
  have hbt' := do_move_board_to env zob pval m gc pos PieceType.pawn hpc
    (fun _ => rfl)
  obtain ⟨ub, ucol, utyp, ua, ucnt, ucall, upl, ustm, uply, ust, uhist⟩ :=
    undo_move_store m (do_move env zob pval m gc pos) pos.sideToMove
      (if moveTypeOf m = 1 then promotionTypeOf m else PieceType.pawn)
      pos.st pos.hist hbt' hhist'
  rw [hstm', Color.other_other] at ub ucol utyp ua ucnt ucall upl ustm
  have hfl : fromSq m ∈ pos.pieceList pos.sideToMove PieceType.pawn :=
    (hC.2.2.2.2.1 pos.sideToMove PieceType.pawn).2.2.2 _ hf64 hpc
  have hndm : (pos.pieceList pos.sideToMove PieceType.pawn).Nodup :=
    (hC.2.2.2.2.1 pos.sideToMove PieceType.pawn).2.1
  have htl : toSq m ∉ pos.pieceList pos.sideToMove PieceType.pawn := by
    intro hcon
    obtain ⟨-, hbt⟩ :=
      (hC.2.2.2.2.1 pos.sideToMove PieceType.pawn).2.2.1 _ hcon
    rw [hcap2] at hbt
    cases hbt
  have hAf : pos.allBB.testBit (fromSq m) = true :=
    allBit_true hC hf64 (by rw [hpc]; simp)
  have hAt : pos.allBB.testBit (toSq m) = false := allBit_false hC ht64 hcap2
  have hCf : ∀ c2 : Color, (pos.byColorBB c2).testBit (fromSq m)
      = decide (c2 = pos.sideToMove) := by
    intro c2
    by_cases h : c2 = pos.sideToMove
    · subst h
      rw [colorBit_true hC hf64 (by simp [colorOn, hpc])]
      simp
    · rw [colorBit_false hC hf64
        (by simp [colorOn, hpc]; exact fun hh => h hh.symm)]
      simp [h]
  have hCt : ∀ c2 : Color, (pos.byColorBB c2).testBit (toSq m) = false :=
    fun c2 => colorBit_false hC ht64 (by simp [colorOn, hcap2])
  have hTf : ∀ pt2 : PieceType, (pos.byTypeBB pt2).testBit (fromSq m)
      = decide (pt2 = PieceType.pawn) := by
    intro pt2
    by_cases h : pt2 = PieceType.pawn
    · subst h
      rw [typeBit_true hC hf64 (by simp [typeOn, hpc])]
      simp
    · rw [typeBit_false hC hf64
        (by simp [typeOn, hpc]; exact fun hh => h hh.symm)]
      simp [h]
  have hTt : ∀ pt2 : PieceType, (pos.byTypeBB pt2).testBit (toSq m) = false :=
    fun pt2 => typeBit_false hC ht64 (by simp [typeOn, hcap2])
  have hnp : ¬ (PieceType.pawn = promotionTypeOf m) :=
    fun h => promotionTypeOf_ne_pawn m h.symm
  unfold RoundtripSpec
  refine ⟨?_, ?_, ?_, ?_, ?_, ?_, ?_, ustm, by rw [uply, hply']; omega, ust, uhist⟩
  · rw [ub]
    funext x
    simp only [coreAfterUndo, coreAfterDo, hcap', hcap2, hmt, put_piece,
      remove_piece, move_piece, hb', reduceIte, if_true, if_false]
    by_cases hxt : x = toSq m
    · subst hxt
      simp [Ne.symm hft, hcap2]
    · by_cases hxf : x = fromSq m
      · subst hxf
        simp [hxt, hpc]
      · simp [hxt, hxf]
  · rw [ucol]
    funext c2
    simp only [coreAfterUndo, coreAfterDo, hcap', hcap2, hmt, put_piece,
      remove_piece, move_piece, hc', reduceIte, if_true, if_false]
    by_cases hc2 : c2 = pos.sideToMove
    · subst hc2
      simp only [eq_self_iff_true, if_true]
      apply Nat.eq_of_testBit_eq
      intro i
      by_cases hit : toSq m = i
      · subst hit
        simp [Nat.testBit_xor, Nat.testBit_or, testBit_sqBB, hCt, hft]
      · by_cases hif : fromSq m = i
        · subst hif
          simp [Nat.testBit_xor, Nat.testBit_or, testBit_sqBB, hCf, hit]
        · simp [Nat.testBit_xor, Nat.testBit_or, testBit_sqBB, hit, hif]
    · simp [hc2]
  · rw [utyp]
    funext pt2
    simp only [coreAfterUndo, coreAfterDo, hcap', hcap2, hmt, put_piece,
      remove_piece, move_piece, ht', reduceIte, if_true, if_false]
    by_cases hp2 : pt2 = PieceType.pawn
    · subst hp2
      simp only [eq_self_iff_true, if_true, hnp, if_false, reduceIte]
      apply Nat.eq_of_testBit_eq
      intro i
      by_cases hit : toSq m = i
      · subst hit
        simp [Nat.testBit_xor, Nat.testBit_or, testBit_sqBB, hTt, hft]
      · by_cases hif : fromSq m = i
        · subst hif
          simp [Nat.testBit_xor, Nat.testBit_or, testBit_sqBB, hTf, hit]
        · simp [Nat.testBit_xor, Nat.testBit_or, testBit_sqBB, hit, hif]
    · by_cases hq2 : pt2 = promotionTypeOf m
      · subst hq2
        simp only [eq_self_iff_true, if_true, hp2, if_false, reduceIte]
        apply Nat.eq_of_testBit_eq
        intro i
        by_cases hit : toSq m = i
        · subst hit
          simp [Nat.testBit_xor, Nat.testBit_or, testBit_sqBB, hTt]
        · by_cases hif : fromSq m = i
          · subst hif
            simp [Nat.testBit_xor, Nat.testBit_or, testBit_sqBB, hTf, hit, hp2]
          · simp [Nat.testBit_xor, Nat.testBit_or, testBit_sqBB, hit, hif]
      · simp [hp2, hq2]
  · rw [ua]
    simp only [coreAfterUndo, coreAfterDo, hcap', hcap2, hmt, put_piece,
      remove_piece, move_piece, ha', reduceIte, if_true, if_false]
    apply Nat.eq_of_testBit_eq
    intro i
    by_cases hit : toSq m = i
    · subst hit
      simp [Nat.testBit_xor, Nat.testBit_or, testBit_sqBB, hAt, hft]
    · by_cases hif : fromSq m = i
      · subst hif
        simp [Nat.testBit_xor, Nat.testBit_or, testBit_sqBB, hAf, hit]
      · simp [Nat.testBit_xor, Nat.testBit_or, testBit_sqBB, hit, hif]
  · rw [ucnt]
    funext c2 pt2
    simp only [coreAfterUndo, coreAfterDo, hcap', hcap2, hmt, put_piece,
      remove_piece, move_piece, hcnt', reduceIte, if_true, if_false]
    have h1 : 1 ≤ pos.pieceCount pos.sideToMove PieceType.pawn :=
      count_pos_of_board hC hf64 hpc
    by_cases hc2 : c2 = pos.sideToMove
    · subst hc2
      by_cases hp2 : pt2 = PieceType.pawn
      · subst hp2
        simp only [eq_self_iff_true, true_and, and_true, if_true, hnp,
          and_false, false_and, if_false, reduceIte]
        omega
      · by_cases hq2 : pt2 = promotionTypeOf m
        · subst hq2
          simp only [eq_self_iff_true, true_and, and_true, if_true, hp2,
            and_false, false_and, if_false, reduceIte]
          omega
        · simp [hp2, hq2]
    · simp [hc2]
  · rw [ucall]
    funext c2
    simp only [coreAfterUndo, coreAfterDo, hcap', hcap2, hmt, put_piece,
      remove_piece, move_piece, hcall', reduceIte, if_true, if_false]
    by_cases hc2 : c2 = pos.sideToMove
    · subst hc2
      have h1 : 1 ≤ pos.pieceCountAll pos.sideToMove :=
        countAll_pos_of_board hC hf64 hpc
      simp only [eq_self_iff_true, if_true]
      omega
    · simp [hc2]
  · intro c2 pt2
    rw [upl]
    simp only [coreAfterUndo, coreAfterDo, hcap', hcap2, hmt, put_piece,
      remove_piece, move_piece, hpl', reduceIte, if_true, if_false]
    by_cases hc2 : c2 = pos.sideToMove
    · subst hc2
      by_cases hp2 : pt2 = PieceType.pawn
      · subst hp2
        simp only [eq_self_iff_true, true_and, and_true, if_true, hnp,
          and_false, false_and, if_false, reduceIte]
        have hil : (pos.pieceList pos.sideToMove PieceType.pawn).indexOf
            (fromSq m) < (pos.pieceList pos.sideToMove PieceType.pawn).length :=
          List.indexOf_lt_length.mpr hfl
        have hmem1 : toSq m ∈ (pos.pieceList pos.sideToMove PieceType.pawn).set
            ((pos.pieceList pos.sideToMove PieceType.pawn).indexOf (fromSq m))
            (toSq m) := by
          rw [List.set_eq_take_cons_drop _ hil]
          simp
        have hnd1 := nodup_set_fresh hil hndm htl
        have hnm := not_mem_swapRemove hnd1 hmem1
        rw [indexOf_concat_self hnm, set_concat_self]
        refine (List.perm_append_comm).trans ?_
        have hsw := swapRemove_perm_erase hmem1
        have hsp := set_indexOf_perm
          (pos.pieceList pos.sideToMove PieceType.pawn) (fromSq m) (toSq m) hfl
        have her := hsp.erase (toSq m)
        rw [List.erase_cons_head] at her
        exact ((hsw.trans her).cons (fromSq m)).trans
          (List.perm_cons_erase hfl).symm
      · by_cases hq2 : pt2 = promotionTypeOf m
        · subst hq2
          simp only [eq_self_iff_true, true_and, and_true, if_true, hp2,
            and_false, false_and, if_false, reduceIte]
          have htlp : toSq m ∉ pos.pieceList pos.sideToMove
              (promotionTypeOf m) := by
            intro hcon
            obtain ⟨-, hbt⟩ :=
              (hC.2.2.2.2.1 pos.sideToMove (promotionTypeOf m)).2.2.1 _ hcon
            rw [hcap2] at hbt
            cases hbt
          rw [swapRemove_concat_self htlp]
        · simp [hp2, hq2]
    · simp [hc2]

theorem roundtrip_normal_quiet (env : AttackEnv) (zob : Zobrist)
    (pval : PieceType → Int) (m : Move) (gc : Bool) (pos : Position)
    (upt : PieceType) (hC : Consistent pos)
    (hpc : pos.board (fromSq m) = some (pos.sideToMove, upt))
    (hcap2 : pos.board (toSq m) = none)
    (hmt : ¬ moveTypeOf m = 1)
    (hft : fromSq m ≠ toSq m) :
    RoundtripSpec env zob pval m gc pos := by
  have hf64 := fromSq_lt m
  have ht64 := toSq_lt m
  obtain ⟨hb', hc', ht', ha', hcnt', hcall', hpl', hstm', hply', hhist', hcap'⟩ :=
    do_move_store env zob pval m gc pos pos.sideToMove upt hpc
      (fun h => absurd h hmt)
  have hbt' := do_move_board_to env zob pval m gc pos upt hpc
    (fun h => absurd h hmt)
  obtain ⟨ub, ucol, utyp, ua, ucnt, ucall, upl, ustm, uply, ust, uhist⟩ :=
    undo_move_store m (do_move env zob pval m gc pos) pos.sideToMove
      (if moveTypeOf m = 1 then promotionTypeOf m else upt)
      pos.st pos.hist hbt' hhist'
  rw [hstm', Color.other_other] at ub ucol utyp ua ucnt ucall upl ustm
  have hfl : fromSq m ∈ pos.pieceList pos.sideToMove upt :=
    (hC.2.2.2.2.1 pos.sideToMove upt).2.2.2 _ hf64 hpc
  have htl : toSq m ∉ pos.pieceList pos.sideToMove upt := by
    intro hcon
    obtain ⟨-, hbt⟩ := (hC.2.2.2.2.1 pos.sideToMove upt).2.2.1 _ hcon
    rw [hcap2] at hbt
    cases hbt
  have hAf : pos.allBB.testBit (fromSq m) = true :=
    allBit_true hC hf64 (by rw [hpc]; simp)
  have hAt : pos.allBB.testBit (toSq m) = false := allBit_false hC ht64 hcap2
  have hCf : ∀ c2 : Color, (pos.byColorBB c2).testBit (fromSq m)
      = decide (c2 = pos.sideToMove) := by
    intro c2
    by_cases h : c2 = pos.sideToMove
    · subst h
      rw [colorBit_true hC hf64 (by simp [colorOn, hpc])]
      simp
    · rw [colorBit_false hC hf64
        (by simp [colorOn, hpc]; exact fun hh => h hh.symm)]
      simp [h]
  have hCt : ∀ c2 : Color, (pos.byColorBB c2).testBit (toSq m) = false :=
    fun c2 => colorBit_false hC ht64 (by simp [colorOn, hcap2])
  have hTf : ∀ pt2 : PieceType, (pos.byTypeBB pt2).testBit (fromSq m)
      = decide (pt2 = upt) := by
    intro pt2
    by_cases h : pt2 = upt
    · subst h
      rw [typeBit_true hC hf64 (by simp [typeOn, hpc])]
      simp
    · rw [typeBit_false hC hf64
        (by simp [typeOn, hpc]; exact fun hh => h hh.symm)]
      simp [h]
  have hTt : ∀ pt2 : PieceType, (pos.byTypeBB pt2).testBit (toSq m) = false :=
    fun pt2 => typeBit_false hC ht64 (by simp [typeOn, hcap2])
  unfold RoundtripSpec
  refine ⟨?_, ?_, ?_, ?_, ?_, ?_, ?_, ustm, by rw [uply, hply']; omega, ust,
    uhist⟩
  · rw [ub]
    funext x
    simp only [coreAfterUndo, coreAfterDo, hcap', hcap2, hmt, put_piece,
      remove_piece, move_piece, hb', reduceIte, if_true, if_false]
    by_cases hxt : x = toSq m
    · subst hxt
      simp [Ne.symm hft, hcap2]
    · by_cases hxf : x = fromSq m
      · subst hxf
        simp [hxt, hpc]
      · simp [hxt, hxf]
  · rw [ucol]
    funext c2
    simp only [coreAfterUndo, coreAfterDo, hcap', hcap2, hmt, put_piece,
      remove_piece, move_piece, hc', reduceIte, if_true, if_false]
    by_cases hc2 : c2 = pos.sideToMove
    · subst hc2
      simp only [eq_self_iff_true, if_true]
      apply Nat.eq_of_testBit_eq
      intro i
      by_cases hit : toSq m = i
      · subst hit
        simp [Nat.testBit_xor, Nat.testBit_or, testBit_sqBB, hCt, hft]
      · by_cases hif : fromSq m = i
        · subst hif
          simp [Nat.testBit_xor, Nat.testBit_or, testBit_sqBB, hCf, hit]
        · simp [Nat.testBit_xor, Nat.testBit_or, testBit_sqBB, hit, hif]
    · simp [hc2]
  · rw [utyp]
    funext pt2
    simp only [coreAfterUndo, coreAfterDo, hcap', hcap2, hmt, put_piece,
      remove_piece, move_piece, ht', reduceIte, if_true, if_false]
    by_cases hp2 : pt2 = upt
    · subst hp2
      simp only [eq_self_iff_true, if_true]
      apply Nat.eq_of_testBit_eq
      intro i
      by_cases hit : toSq m = i
      · subst hit
        simp [Nat.testBit_xor, Nat.testBit_or, testBit_sqBB, hTt, hft]
      · by_cases hif : fromSq m = i
        · subst hif
          simp [Nat.testBit_xor, Nat.testBit_or, testBit_sqBB, hTf, hit]
        · simp [Nat.testBit_xor, Nat.testBit_or, testBit_sqBB, hit, hif]
    · simp [hp2]
  · rw [ua]
    simp only [coreAfterUndo, coreAfterDo, hcap', hcap2, hmt, put_piece,
      remove_piece, move_piece, ha', reduceIte, if_true, if_false]
    apply Nat.eq_of_testBit_eq
    intro i
    by_cases hit : toSq m = i
    · subst hit
      simp [Nat.testBit_xor, Nat.testBit_or, testBit_sqBB, hAt, hft]
    · by_cases hif : fromSq m = i
      · subst hif
        simp [Nat.testBit_xor, Nat.testBit_or, testBit_sqBB, hAf, hit]
      · simp [Nat.testBit_xor, Nat.testBit_or, testBit_sqBB, hit, hif]
  · rw [ucnt]
    simp only [coreAfterUndo, coreAfterDo, hcap', hcap2, hmt, put_piece,
      remove_piece, move_piece, hcnt', reduceIte, if_true, if_false]
  · rw [ucall]
    simp only [coreAfterUndo, coreAfterDo, hcap', hcap2, hmt, put_piece,
      remove_piece, move_piece, hcall', reduceIte, if_true, if_false]
  · intro c2 pt2
    rw [upl]
    simp only [coreAfterUndo, coreAfterDo, hcap', hcap2, hmt, put_piece,
      remove_piece, move_piece, hpl', reduceIte, if_true, if_false]
    by_cases hc2 : c2 = pos.sideToMove ∧ pt2 = upt
    · obtain ⟨h1, h2⟩ := hc2
      subst h1
      subst h2
      simp only [eq_self_iff_true, true_and, and_true, if_true, reduceIte]
      rw [set_indexOf_roundtrip _ _ _ hfl htl]
    · simp only [hc2, if_false, reduceIte]
      exact List.Perm.refl _

theorem roundtrip_normal_capture (env : AttackEnv) (zob : Zobrist)
    (pval : PieceType → Int) (m : Move) (gc : Bool) (pos : Position)
    (upt cpt : PieceType) (hC : Consistent pos)
    (hpc : pos.board (fromSq m) = some (pos.sideToMove, upt))
    (hcap2 : pos.board (toSq m) = some (pos.sideToMove.other, cpt))
    (hmt : ¬ moveTypeOf m = 1)
    (hft : fromSq m ≠ toSq m) :
    RoundtripSpec env zob pval m gc pos := by
  have hf64 := fromSq_lt m
  have ht64 := toSq_lt m
  have hoth1 : ¬ (pos.sideToMove = pos.sideToMove.other) :=
    fun h => Color.other_ne _ h.symm
  have hoth2 : ¬ (pos.sideToMove.other = pos.sideToMove) := Color.other_ne _
  obtain ⟨hb', hc', ht', ha', hcnt', hcall', hpl', hstm', hply', hhist', hcap'⟩ :=
    do_move_store env zob pval m gc pos pos.sideToMove upt hpc
      (fun h => absurd h hmt)
  have hbt' := do_move_board_to env zob pval m gc pos upt hpc
    (fun h => absurd h hmt)
  obtain ⟨ub, ucol, utyp, ua, ucnt, ucall, upl, ustm, uply, ust, uhist⟩ :=
    undo_move_store m (do_move env zob pval m gc pos) pos.sideToMove
      (if moveTypeOf m = 1 then promotionTypeOf m else upt)
      pos.st pos.hist hbt' hhist'
  rw [hstm', Color.other_other] at ub ucol utyp ua ucnt ucall upl ustm
  have hfl : fromSq m ∈ pos.pieceList pos.sideToMove upt :=
    (hC.2.2.2.2.1 pos.sideToMove upt).2.2.2 _ hf64 hpc
  have htl : toSq m ∉ pos.pieceList pos.sideToMove upt := by
    intro hcon
    obtain ⟨-, hbt⟩ := (hC.2.2.2.2.1 pos.sideToMove upt).2.2.1 _ hcon
    rw [hcap2] at hbt
    rw [Option.some.injEq, Prod.mk.injEq] at hbt
    exact hoth2 hbt.1
  have htc : toSq m ∈ pos.pieceList pos.sideToMove.other cpt :=
    (hC.2.2.2.2.1 pos.sideToMove.other cpt).2.2.2 _ ht64 hcap2
  have h2cnt : 1 ≤ pos.pieceCount pos.sideToMove.other cpt :=
    count_pos_of_board hC ht64 hcap2
  have h2call : 1 ≤ pos.pieceCountAll pos.sideToMove.other :=
    countAll_pos_of_board hC ht64 hcap2
  have hAf : pos.allBB.testBit (fromSq m) = true :=
    allBit_true hC hf64 (by rw [hpc]; simp)
  have hAt : pos.allBB.testBit (toSq m) = true :=
    allBit_true hC ht64 (by rw [hcap2]; simp)
  have hCf : ∀ c2 : Color, (pos.byColorBB c2).testBit (fromSq m)
      = decide (c2 = pos.sideToMove) := by
    intro c2
    by_cases h : c2 = pos.sideToMove
    · subst h
      rw [colorBit_true hC hf64 (by simp [colorOn, hpc])]
      simp
    · rw [colorBit_false hC hf64
        (by simp [colorOn, hpc]; exact fun hh => h hh.symm)]
      simp [h]
  have hCt : ∀ c2 : Color, (pos.byColorBB c2).testBit (toSq m)
      = decide (c2 = pos.sideToMove.other) := by
    intro c2
    by_cases h : c2 = pos.sideToMove.other
    · subst h
      rw [colorBit_true hC ht64 (by simp [colorOn, hcap2])]
      simp
    · rw [colorBit_false hC ht64
        (by simp [colorOn, hcap2]; exact fun hh => h hh.symm)]
      simp [h]
  have hTf : ∀ pt2 : PieceType, (pos.byTypeBB pt2).testBit (fromSq m)
      = decide (pt2 = upt) := by
    intro pt2
    by_cases h : pt2 = upt
    · rw [h, typeBit_true hC hf64 (by simp [typeOn, hpc])]
      simp
    · rw [typeBit_false hC hf64
        (by simp [typeOn, hpc]; exact fun hh => h hh.symm)]
      simp [h]
  have hTt : ∀ pt2 : PieceType, (pos.byTypeBB pt2).testBit (toSq m)
      = decide (pt2 = cpt) := by
    intro pt2
    by_cases h : pt2 = cpt
    · rw [h, typeBit_true hC ht64 (by simp [typeOn, hcap2])]
      simp
    · rw [typeBit_false hC ht64
        (by simp [typeOn, hcap2]; exact fun hh => h hh.symm)]
      simp [h]
  unfold RoundtripSpec
  refine ⟨?_, ?_, ?_, ?_, ?_, ?_, ?_, ustm, by rw [uply, hply']; omega, ust,
    uhist⟩
  · rw [ub]
    funext x
    simp only [coreAfterUndo, coreAfterDo, hcap', hcap2, hmt, put_piece,
      remove_piece, move_piece, hb', reduceIte, if_true, if_false]
    by_cases hxt : x = toSq m
    · subst hxt
      simp [Ne.symm hft, hcap2]
    · by_cases hxf : x = fromSq m
      · subst hxf
        simp [hxt, hpc]
      · simp [hxt, hxf]
  · rw [ucol]
    funext c2
    simp only [coreAfterUndo, coreAfterDo, hcap', hcap2, hmt, put_piece,
      remove_piece, move_piece, hc', reduceIte, if_true, if_false]
    by_cases hc2 : c2 = pos.sideToMove
    · subst hc2
      simp only [eq_self_iff_true, if_true, hoth1, if_false, reduceIte]
      apply Nat.eq_of_testBit_eq
      intro i
      by_cases hit : toSq m = i
      · subst hit
        simp [Nat.testBit_xor, Nat.testBit_or, testBit_sqBB, hCt, hft, hoth1]
      · by_cases hif : fromSq m = i
        · subst hif
          simp [Nat.testBit_xor, Nat.testBit_or, testBit_sqBB, hCf, hit]
        · simp [Nat.testBit_xor, Nat.testBit_or, testBit_sqBB, hit, hif]
    · by_cases hc2o : c2 = pos.sideToMove.other
      · subst hc2o
        simp only [eq_self_iff_true, if_true, hc2, if_false, reduceIte]
        apply Nat.eq_of_testBit_eq
        intro i
        by_cases hit : toSq m = i
        · subst hit
          simp [Nat.testBit_xor, Nat.testBit_or, testBit_sqBB, hCt]
        · by_cases hif : fromSq m = i
          · subst hif
            simp [Nat.testBit_xor, Nat.testBit_or, testBit_sqBB, hCf, hit, hc2]
          · simp [Nat.testBit_xor, Nat.testBit_or, testBit_sqBB, hit, hif]
      · simp [hc2, hc2o]
  · rw [utyp]
    funext pt2
    simp only [coreAfterUndo, coreAfterDo, hcap', hcap2, hmt, put_piece,
      remove_piece, move_piece, ht', reduceIte, if_true, if_false]
    by_cases hp2 : pt2 = upt
    · by_cases hcu : upt = cpt
      · simp only [hp2, hcu, eq_self_iff_true, if_true, reduceIte]
        apply Nat.eq_of_testBit_eq
        intro i
        by_cases hit : toSq m = i
        · subst hit
          simp [Nat.testBit_xor, Nat.testBit_or, testBit_sqBB, hTt, hft]
        · by_cases hif : fromSq m = i
          · subst hif
            simp [Nat.testBit_xor, Nat.testBit_or, testBit_sqBB, hTf, hit, hcu]
          · simp [Nat.testBit_xor, Nat.testBit_or, testBit_sqBB, hit, hif]
      · simp only [hp2, eq_self_iff_true, if_true, hcu, if_false, reduceIte]
        apply Nat.eq_of_testBit_eq
        intro i
        by_cases hit : toSq m = i
        · subst hit
          simp [Nat.testBit_xor, Nat.testBit_or, testBit_sqBB, hTt, hft, hcu]
        · by_cases hif : fromSq m = i
          · subst hif
            simp [Nat.testBit_xor, Nat.testBit_or, testBit_sqBB, hTf, hit]
          · simp [Nat.testBit_xor, Nat.testBit_or, testBit_sqBB, hit, hif]
    · by_cases hq2 : pt2 = cpt
      · have hcu2 : ¬ (cpt = upt) := fun h => hp2 (hq2.trans h)
        simp only [hq2, hcu2, eq_self_iff_true, if_true, if_false, reduceIte]
        apply Nat.eq_of_testBit_eq
        intro i
        by_cases hit : toSq m = i
        · subst hit
          simp [Nat.testBit_xor, Nat.testBit_or, testBit_sqBB, hTt]
        · by_cases hif : fromSq m = i
          · subst hif
            simp [Nat.testBit_xor, Nat.testBit_or, testBit_sqBB, hTf, hit, hcu2]
          · simp [Nat.testBit_xor, Nat.testBit_or, testBit_sqBB, hit, hif]
      · simp [hp2, hq2]
  · rw [ua]
    simp only [coreAfterUndo, coreAfterDo, hcap', hcap2, hmt, put_piece,
      remove_piece, move_piece, ha', reduceIte, if_true, if_false]
    apply Nat.eq_of_testBit_eq
    intro i
    by_cases hit : toSq m = i
    · subst hit
      simp [Nat.testBit_xor, Nat.testBit_or, testBit_sqBB, hAt, hft]
    · by_cases hif : fromSq m = i
      · subst hif
        simp [Nat.testBit_xor, Nat.testBit_or, testBit_sqBB, hAf, hit]
      · simp [Nat.testBit_xor, Nat.testBit_or, testBit_sqBB, hit, hif]
  · rw [ucnt]
    funext c2 pt2
    simp only [coreAfterUndo, coreAfterDo, hcap', hcap2, hmt, put_piece,
      remove_piece, move_piece, hcnt', reduceIte, if_true, if_false]
    by_cases hx : c2 = pos.sideToMove.other ∧ pt2 = cpt
    · obtain ⟨h1, h2⟩ := hx
      subst h1
      simp only [h2, eq_self_iff_true, true_and, and_true, if_true, reduceIte]
      omega
    · simp [hx]
  · rw [ucall]
    funext c2
    simp only [coreAfterUndo, coreAfterDo, hcap', hcap2, hmt, put_piece,
      remove_piece, move_piece, hcall', reduceIte, if_true, if_false]
    by_cases hc2 : c2 = pos.sideToMove.other
    · subst hc2
      simp only [eq_self_iff_true, if_true, reduceIte]
      omega
    · simp [hc2]
  · intro c2 pt2
    rw [upl]
    simp only [coreAfterUndo, coreAfterDo, hcap', hcap2, hmt, put_piece,
      remove_piece, move_piece, hpl', reduceIte, if_true, if_false]
    by_cases hx : c2 = pos.sideToMove ∧ pt2 = upt
    · obtain ⟨h1, h2⟩ := hx
      subst h1
      simp only [h2, eq_self_iff_true, true_and, and_true, if_true, hoth1,
        false_and, if_false, reduceIte]
      rw [set_indexOf_roundtrip _ _ _ hfl htl]
    · by_cases hy : c2 = pos.sideToMove.other ∧ pt2 = cpt
      · obtain ⟨h1, h2⟩ := hy
        subst h1
        simp only [h2, eq_self_iff_true, true_and, and_true, if_true, hoth2,
          false_and, if_false, reduceIte]
        exact swapRemove_perm htc
      · simp only [hx, hy, if_false, reduceIte]
        exact List.Perm.refl _

theorem roundtrip_promo_capture (env : AttackEnv) (zob : Zobrist)
    (pval : PieceType → Int) (m : Move) (gc : Bool) (pos : Position)
    (cpt : PieceType) (hC : Consistent pos)
    (hpc : pos.board (fromSq m) = some (pos.sideToMove, PieceType.pawn))
    (hcap2 : pos.board (toSq m) = some (pos.sideToMove.other, cpt))
    (hmt : moveTypeOf m = 1)
    (hft : fromSq m ≠ toSq m) :
    RoundtripSpec env zob pval m gc pos := by
  have hf64 := fromSq_lt m
  have ht64 := toSq_lt m
  have hoth1 : ¬ (pos.sideToMove = pos.sideToMove.other) :=
    fun h => Color.other_ne _ h.symm
  have hoth2 : ¬ (pos.sideToMove.other = pos.sideToMove) := Color.other_ne _
  have hnp : ¬ (PieceType.pawn = promotionTypeOf m) :=
    fun h => promotionTypeOf_ne_pawn m h.symm
  have hqp : ¬ (promotionTypeOf m = PieceType.pawn) := promotionTypeOf_ne_pawn m
  obtain ⟨hb', hc', ht', ha', hcnt', hcall', hpl', hstm', hply', hhist', hcap'⟩ :=
    do_move_store env zob pval m gc pos pos.sideToMove PieceType.pawn hpc
      (fun _ => rfl)
  have hbt' := do_move_board_to env zob pval m gc pos PieceType.pawn hpc
    (fun _ => rfl)
  obtain ⟨ub, ucol, utyp, ua, ucnt, ucall, upl, ustm, uply, ust, uhist⟩ :=
    undo_move_store m (do_move env zob pval m gc pos) pos.sideToMove
      (if moveTypeOf m = 1 then promotionTypeOf m else PieceType.pawn)
      pos.st pos.hist hbt' hhist'
  rw [hstm', Color.other_other] at ub ucol utyp ua ucnt ucall upl ustm
  have hfl : fromSq m ∈ pos.pieceList pos.sideToMove PieceType.pawn :=
    (hC.2.2.2.2.1 pos.sideToMove PieceType.pawn).2.2.2 _ hf64 hpc
  have hndm : (pos.pieceList pos.sideToMove PieceType.pawn).Nodup :=
    (hC.2.2.2.2.1 pos.sideToMove PieceType.pawn).2.1
  have htl : toSq m ∉ pos.pieceList pos.sideToMove PieceType.pawn := by
    intro hcon
    obtain ⟨-, hbt⟩ :=
      (hC.2.2.2.2.1 pos.sideToMove PieceType.pawn).2.2.1 _ hcon
    rw [hcap2] at hbt
    rw [Option.some.injEq, Prod.mk.injEq] at hbt
    exact hoth2 hbt.1
  have htc : toSq m ∈ pos.pieceList pos.sideToMove.other cpt :=
    (hC.2.2.2.2.1 pos.sideToMove.other cpt).2.2.2 _ ht64 hcap2
  have h1cnt : 1 ≤ pos.pieceCount pos.sideToMove PieceType.pawn :=
    count_pos_of_board hC hf64 hpc
  have h1call : 1 ≤ pos.pieceCountAll pos.sideToMove :=
    countAll_pos_of_board hC hf64 hpc
  have h2cnt : 1 ≤ pos.pieceCount pos.sideToMove.other cpt :=
    count_pos_of_board hC ht64 hcap2
  have h2call : 1 ≤ pos.pieceCountAll pos.sideToMove.other :=
    countAll_pos_of_board hC ht64 hcap2
  have hAf : pos.allBB.testBit (fromSq m) = true :=
    allBit_true hC hf64 (by rw [hpc]; simp)
  have hAt : pos.allBB.testBit (toSq m) = true :=
    allBit_true hC ht64 (by rw [hcap2]; simp)
  have hCf : ∀ c2 : Color, (pos.byColorBB c2).testBit (fromSq m)
      = decide (c2 = pos.sideToMove) := by
    intro c2
    by_cases h : c2 = pos.sideToMove
    · subst h
      rw [colorBit_true hC hf64 (by simp [colorOn, hpc])]
      simp
    · rw [colorBit_false hC hf64
        (by simp [colorOn, hpc]; exact fun hh => h hh.symm)]
      simp [h]
  have hCt : ∀ c2 : Color, (pos.byColorBB c2).testBit (toSq m)
      = decide (c2 = pos.sideToMove.other) := by
    intro c2
    by_cases h : c2 = pos.sideToMove.other
    · subst h
      rw [colorBit_true hC ht64 (by simp [colorOn, hcap2])]
      simp
    · rw [colorBit_false hC ht64
        (by simp [colorOn, hcap2]; exact fun hh => h hh.symm)]
      simp [h]
  have hTf : ∀ pt2 : PieceType, (pos.byTypeBB pt2).testBit (fromSq m)
      = decide (pt2 = PieceType.pawn) := by
    intro pt2
    by_cases h : pt2 = PieceType.pawn
    · rw [h, typeBit_true hC hf64 (by simp [typeOn, hpc])]
      simp
    · rw [typeBit_false hC hf64
        (by simp [typeOn, hpc]; exact fun hh => h hh.symm)]
      simp [h]
  have hTt : ∀ pt2 : PieceType, (pos.byTypeBB pt2).testBit (toSq m)
      = decide (pt2 = cpt) := by
    intro pt2
    by_cases h : pt2 = cpt
    · rw [h, typeBit_true hC ht64 (by simp [typeOn, hcap2])]
      simp
    · rw [typeBit_false hC ht64
        (by simp [typeOn, hcap2]; exact fun hh => h hh.symm)]
      simp [h]
  unfold RoundtripSpec
  refine ⟨?_, ?_, ?_, ?_, ?_, ?_, ?_, ustm, by rw [uply, hply']; omega, ust,
    uhist⟩
  · rw [ub]
    funext x
    simp only [coreAfterUndo, coreAfterDo, hcap', hcap2, hmt, put_piece,
      remove_piece, move_piece, hb', reduceIte, if_true, if_false]
    by_cases hxt : x = toSq m
    · subst hxt
      simp [Ne.symm hft, hcap2]
    · by_cases hxf : x = fromSq m
      · subst hxf
        simp [hxt, hpc]
      · simp [hxt, hxf]
  · rw [ucol]
    funext c2
    simp only [coreAfterUndo, coreAfterDo, hcap', hcap2, hmt, put_piece,
      remove_piece, move_piece, hc', reduceIte, if_true, if_false]
    by_cases hc2 : c2 = pos.sideToMove
    · subst hc2
      simp only [eq_self_iff_true, if_true, hoth1, if_false, reduceIte]
      apply Nat.eq_of_testBit_eq
      intro i
      by_cases hit : toSq m = i
      · subst hit
        simp [Nat.testBit_xor, Nat.testBit_or, testBit_sqBB, hCt, hft, hoth1]
      · by_cases hif : fromSq m = i
        · subst hif
          simp [Nat.testBit_xor, Nat.testBit_or, testBit_sqBB, hCf, hit]
        · simp [Nat.testBit_xor, Nat.testBit_or, testBit_sqBB, hit, hif]
    · by_cases hc2o : c2 = pos.sideToMove.other
      · subst hc2o
        simp only [eq_self_iff_true, if_true, hc2, if_false, reduceIte]
        apply Nat.eq_of_testBit_eq
        intro i
        by_cases hit : toSq m = i
        · subst hit
          simp [Nat.testBit_xor, Nat.testBit_or, testBit_sqBB, hCt]
        · by_cases hif : fromSq m = i
          · subst hif
            simp [Nat.testBit_xor, Nat.testBit_or, testBit_sqBB, hCf, hit, hc2]
          · simp [Nat.testBit_xor, Nat.testBit_or, testBit_sqBB, hit, hif]
      · simp [hc2, hc2o]
  · rw [utyp]
    funext pt2
    simp only [coreAfterUndo, coreAfterDo, hcap', hcap2, hmt, put_piece,
      remove_piece, move_piece, ht', reduceIte, if_true, if_false]
    by_cases hp2 : pt2 = PieceType.pawn
    · by_cases hcw : PieceType.pawn = cpt
      · subst hcw
        simp only [hp2, hnp, hqp, eq_self_iff_true, if_true, if_false,
          reduceIte]
        apply Nat.eq_of_testBit_eq
        intro i
        by_cases hit : toSq m = i
        · subst hit
          simp [Nat.testBit_xor, Nat.testBit_or, testBit_sqBB, hTt, hft]
        · by_cases hif : fromSq m = i
          · subst hif
            simp [Nat.testBit_xor, Nat.testBit_or, testBit_sqBB, hTf, hit]
          · simp [Nat.testBit_xor, Nat.testBit_or, testBit_sqBB, hit, hif]
      · have hcw3 : ¬ (cpt = PieceType.pawn) := fun h => hcw h.symm
        simp only [hp2, hnp, hqp, hcw, hcw3, eq_self_iff_true, if_true,
          if_false, reduceIte]
        apply Nat.eq_of_testBit_eq
        intro i
        by_cases hit : toSq m = i
        · subst hit
          simp [Nat.testBit_xor, Nat.testBit_or, testBit_sqBB, hTt, hft, hcw]
        · by_cases hif : fromSq m = i
          · subst hif
            simp [Nat.testBit_xor, Nat.testBit_or, testBit_sqBB, hTf, hit]
          · simp [Nat.testBit_xor, Nat.testBit_or, testBit_sqBB, hit, hif]
    · by_cases hq2 : pt2 = promotionTypeOf m
      · by_cases hcq : promotionTypeOf m = cpt
        · subst hcq
          simp only [hq2, hnp, hqp, eq_self_iff_true, if_true, if_false,
            reduceIte]
          apply Nat.eq_of_testBit_eq
          intro i
          by_cases hit : toSq m = i
          · subst hit
            simp [Nat.testBit_xor, Nat.testBit_or, testBit_sqBB, hTt]
          · by_cases hif : fromSq m = i
            · subst hif
              simp [Nat.testBit_xor, Nat.testBit_or, testBit_sqBB, hTf, hit,
                hqp]
            · simp [Nat.testBit_xor, Nat.testBit_or, testBit_sqBB, hit, hif]
        · have hcq3 : ¬ (cpt = promotionTypeOf m) := fun h => hcq h.symm
          simp only [hq2, hnp, hqp, hcq, hcq3, eq_self_iff_true, if_true,
            if_false, reduceIte]
          apply Nat.eq_of_testBit_eq
          intro i
          by_cases hit : toSq m = i
          · subst hit
            simp [Nat.testBit_xor, Nat.testBit_or, testBit_sqBB, hTt, hcq3,
              hcq]
          · by_cases hif : fromSq m = i
            · subst hif
              simp [Nat.testBit_xor, Nat.testBit_or, testBit_sqBB, hTf, hit,
                hqp]
            · simp [Nat.testBit_xor, Nat.testBit_or, testBit_sqBB, hit, hif]
      · by_cases hr2 : pt2 = cpt
        · have hcp2 : ¬ (cpt = PieceType.pawn) := fun h => hp2 (hr2.trans h)
          have hcp2b : ¬ (PieceType.pawn = cpt) := fun h => hcp2 h.symm
          have hcq2 : ¬ (cpt = promotionTypeOf m) :=
            fun h => hq2 (hr2.trans h)
          have hcq2b : ¬ (promotionTypeOf m = cpt) := fun h => hcq2 h.symm
          simp only [hr2, hcp2, hcp2b, hcq2, hcq2b, hnp, hqp,
            eq_self_iff_true, if_true, if_false, reduceIte]
          apply Nat.eq_of_testBit_eq
          intro i
          by_cases hit : toSq m = i
          · subst hit
            simp [Nat.testBit_xor, Nat.testBit_or, testBit_sqBB, hTt]
          · by_cases hif : fromSq m = i
            · subst hif
              simp [Nat.testBit_xor, Nat.testBit_or, testBit_sqBB, hTf, hit,
                hcp2]
            · simp [Nat.testBit_xor, Nat.testBit_or, testBit_sqBB, hit, hif]
        · simp [hp2, hq2, hr2]
  · rw [ua]
    simp only [coreAfterUndo, coreAfterDo, hcap', hcap2, hmt, put_piece,
      remove_piece, move_piece, ha', reduceIte, if_true, if_false]
    apply Nat.eq_of_testBit_eq
    intro i
    by_cases hit : toSq m = i
    · subst hit
      simp [Nat.testBit_xor, Nat.testBit_or, testBit_sqBB, hAt, hft]
    · by_cases hif : fromSq m = i
      · subst hif
        simp [Nat.testBit_xor, Nat.testBit_or, testBit_sqBB, hAf, hit]
      · simp [Nat.testBit_xor, Nat.testBit_or, testBit_sqBB, hit, hif]
  · rw [ucnt]
    funext c2 pt2
    simp only [coreAfterUndo, coreAfterDo, hcap', hcap2, hmt, put_piece,
      remove_piece, move_piece, hcnt', reduceIte, if_true, if_false]
    by_cases hx : c2 = pos.sideToMove.other ∧ pt2 = cpt
    · obtain ⟨h1, h2⟩ := hx
      subst h1
      simp only [h2, hoth2, eq_self_iff_true, true_and, and_true, false_and,
        if_true, if_false, reduceIte]
      omega
    · by_cases hc2 : c2 = pos.sideToMove
      · subst hc2
        by_cases hp2 : pt2 = PieceType.pawn
        · simp only [hp2, hnp, hoth1, eq_self_iff_true, true_and, and_true,
            false_and, and_false, if_true, if_false, reduceIte]
          omega
        · by_cases hq2 : pt2 = promotionTypeOf m
          · simp only [hq2, hp2, hoth1, eq_self_iff_true, true_and, and_true,
              false_and, and_false, if_true, if_false, reduceIte]
            have hqp : ¬ (promotionTypeOf m = PieceType.pawn) :=
              fun h => hnp h.symm
            simp only [hqp, if_false, reduceIte]
            omega
          · simp [hp2, hq2, hx]
      · simp [hc2, hx]
  · rw [ucall]
    funext c2
    simp only [coreAfterUndo, coreAfterDo, hcap', hcap2, hmt, put_piece,
      remove_piece, move_piece, hcall', reduceIte, if_true, if_false]
    by_cases hc2 : c2 = pos.sideToMove
    · subst hc2
      simp only [eq_self_iff_true, if_true, hoth1, if_false, reduceIte]
      omega
    · by_cases hc2o : c2 = pos.sideToMove.other
      · subst hc2o
        simp only [eq_self_iff_true, if_true, hc2, if_false, reduceIte]
        omega
      · simp [hc2, hc2o]
  · intro c2 pt2
    rw [upl]
    simp only [coreAfterUndo, coreAfterDo, hcap', hcap2, hmt, put_piece,
      remove_piece, move_piece, hpl', reduceIte, if_true, if_false]
    by_cases hx : c2 = pos.sideToMove.other ∧ pt2 = cpt
    · obtain ⟨h1, h2⟩ := hx
      subst h1
      simp only [h2, hoth2, eq_self_iff_true, true_and, and_true, false_and,
        if_true, if_false, reduceIte]
      exact swapRemove_perm htc
    · by_cases hc2 : c2 = pos.sideToMove
      · subst hc2
        by_cases hp2 : pt2 = PieceType.pawn
        · simp only [hp2, hnp, hoth1, eq_self_iff_true, true_and, and_true,
            false_and, and_false, if_true, if_false, reduceIte]
          have hil : (pos.pieceList pos.sideToMove PieceType.pawn).indexOf
              (fromSq m)
              < (pos.pieceList pos.sideToMove PieceType.pawn).length :=
            List.indexOf_lt_length.mpr hfl
          have hmem1 : toSq m ∈
              (pos.pieceList pos.sideToMove PieceType.pawn).set
              ((pos.pieceList pos.sideToMove PieceType.pawn).indexOf
                (fromSq m)) (toSq m) := by
            rw [List.set_eq_take_cons_drop _ hil]
            simp
          have hnd1 := nodup_set_fresh hil hndm htl
          have hnm := not_mem_swapRemove hnd1 hmem1
          rw [indexOf_concat_self hnm, set_concat_self]
          refine (List.perm_append_comm).trans ?_
          have hsw := swapRemove_perm_erase hmem1
          have hsp := set_indexOf_perm
            (pos.pieceList pos.sideToMove PieceType.pawn) (fromSq m)
            (toSq m) hfl
          have her := hsp.erase (toSq m)
          rw [List.erase_cons_head] at her
          exact ((hsw.trans her).cons (fromSq m)).trans
            (List.perm_cons_erase hfl).symm
        · by_cases hq2 : pt2 = promotionTypeOf m
          · simp only [hq2, hp2, hoth1, eq_self_iff_true, true_and, and_true,
              false_and, and_false, if_true, if_false, reduceIte]
            have hqp : ¬ (promotionTypeOf m = PieceType.pawn) :=
              fun h => hnp h.symm
            simp only [hqp, if_false, reduceIte]
            have htlp : toSq m ∉ pos.pieceList pos.sideToMove
                (promotionTypeOf m) := by
              intro hcon
              obtain ⟨-, hbt⟩ :=
                (hC.2.2.2.2.1 pos.sideToMove (promotionTypeOf m)).2.2.1 _ hcon
              rw [hcap2] at hbt
              rw [Option.some.injEq, Prod.mk.injEq] at hbt
              exact hoth2 hbt.1
            rw [swapRemove_concat_self htlp]
          · simp [hp2, hq2, hx]
      · simp [hc2, hx]

/-- The roundtrip property holds for every well-formed move on a consistent
position. -/
theorem roundtrip_all (env : AttackEnv) (zob : Zobrist)
    (pval : PieceType → Int) (m : Move) (gc : Bool) (pos : Position)
    (hC : Consistent pos) (hM : MoveOk pos m) :
    RoundtripSpec env zob pval m gc pos := by
  obtain ⟨hf64, ht64, hft, ⟨upt, hpc⟩, hcapOk, hpromo⟩ := hM
  by_cases hmt : moveTypeOf m = 1
  · obtain ⟨hpcp, -⟩ := hpromo hmt
    cases hcap2 : pos.board (toSq m) with
    | none =>
      exact roundtrip_promo_quiet env zob pval m gc pos hC hpcp hcap2 hmt hft
    | some cp =>
      obtain ⟨cc, cpt⟩ := cp
      obtain ⟨hcc, -⟩ := hcapOk cc cpt hcap2
      subst hcc
      exact roundtrip_promo_capture env zob pval m gc pos cpt hC hpcp hcap2
        hmt hft
  · cases hcap2 : pos.board (toSq m) with
    | none =>
      exact roundtrip_normal_quiet env zob pval m gc pos upt hC hpc hcap2
        hmt hft
    | some cp =>
      obtain ⟨cc, cpt⟩ := cp
      obtain ⟨hcc, -⟩ := hcapOk cc cpt hcap2
      subst hcc
      exact roundtrip_normal_capture env zob pval m gc pos upt cpt hC hpc
        hcap2 hmt hft

/-! ### Full recomputation versus incremental state -/

theorem xor_cancel_left (a b : Nat) : a ^^^ (a ^^^ b) = b := by
  rw [← Nat.xor_assoc, Nat.xor_self, Nat.zero_xor]

theorem foldl_body_congr {α β : Type} (l : List α) (F G : β → α → β) (a : β)
    (h : ∀ (b : β) (x : α), x ∈ l → F b x = G b x) :
    l.foldl F a = l.foldl G a := by
  induction l generalizing a with
  | nil => rfl
  | cons x xs ih =>
    simp only [List.foldl_cons]
    rw [h a x (List.mem_cons_self x xs)]
    exact ih _ (fun b y hy => h b y (List.mem_cons_of_mem x hy))

/-- One square's contribution to the primary key. -/
def keyContrib (zob : Zobrist) (b : Square → Piece) (s : Square) : Key :=
  match b s with
  | none => 0
  | some (c, pt) => zob.psq c pt s

/-- One square's contribution to the pawn key. -/
def pawnContrib (zob : Zobrist) (b : Square → Piece) (s : Square) : Key :=
  match b s with
  | some (c, PieceType.pawn) => zob.psq c PieceType.pawn s
  | _ => 0

/-- One square's contribution to the non-pawn material of colour `c`. -/
def npmContrib (pval : PieceType → Int) (b : Square → Piece) (c : Color)
    (s : Square) : Int :=
  match b s with
  | some (c2, pt) => if c2 = c ∧ pt ≠ PieceType.pawn ∧ pt ≠ PieceType.king
      then pval pt else 0
  | none => 0

/-- One piece slot's contribution to the material key. -/
def matContrib (zob : Zobrist) (cnt : Color → PieceType → Nat)
    (cp : Color × PieceType) : Key :=
  (List.range (cnt cp.1 cp.2)).foldl
    (fun k i => k ^^^ zob.psq cp.1 cp.2 i) 0

theorem stateKeyC_range (zob : Zobrist) (pos : Position)
    (hcoh : ∀ s, s < 64 → pos.board s ≠ none → pos.allBB.testBit s = true) :
    stateKeyC zob pos
      = (List.range 64).foldl (fun k s => k ^^^ keyContrib zob pos.board s) 0
        ^^^ (if pos.sideToMove = Color.black then zob.side else 0) := by
  unfold stateKeyC
  have hbody : (bbSquares pos.pieces).foldl
      (fun k s =>
        match pos.board s with
        | none => k
        | some (c, pt) => k ^^^ zob.psq c pt s) 0
      = (bbSquares pos.pieces).foldl
        (fun k s => k ^^^ keyContrib zob pos.board s) 0 := by
    apply foldl_body_congr
    intro k s _
    unfold keyContrib
    cases pos.board s with
    | none => simp
    | some cp => obtain ⟨c, pt⟩ := cp; rfl
  have hfilter : (bbSquares pos.pieces).foldl
      (fun k s => k ^^^ keyContrib zob pos.board s) 0
      = (List.range 64).foldl
        (fun k s => k ^^^ keyContrib zob pos.board s) 0 := by
    unfold bbSquares Position.pieces
    apply foldl_xor_filter
    intro s hs hbit
    unfold keyContrib
    cases hb : pos.board s with
    | none => rfl
    | some cp =>
      exfalso
      have := hcoh s (by simpa [List.mem_range] using hs) (by simp [hb])
      rw [this] at hbit
      cases hbit
  rw [hbody, hfilter]
  by_cases h : pos.sideToMove = Color.black <;> simp [h]

theorem statePawnKeyC_range (zob : Zobrist) (pos : Position)
    (hcoh : ∀ s, s < 64 → pos.board s ≠ none → pos.allBB.testBit s = true) :
    statePawnKeyC zob pos
      = zob.noPawns ^^^ (List.range 64).foldl
          (fun k s => k ^^^ pawnContrib zob pos.board s) 0 := by
  unfold statePawnKeyC
  have hbody : (bbSquares pos.pieces).foldl
      (fun k s =>
        match pos.board s with
        | some (c, PieceType.pawn) => k ^^^ zob.psq c PieceType.pawn s
        | _ => k) zob.noPawns
      = (bbSquares pos.pieces).foldl
        (fun k s => k ^^^ pawnContrib zob pos.board s) zob.noPawns := by
    apply foldl_body_congr
    intro k s _
    unfold pawnContrib
    cases hb : pos.board s with
    | none => simp
    | some cp =>
      obtain ⟨c, pt⟩ := cp
      cases pt <;> simp
  rw [hbody]
  have hfilter : (bbSquares pos.pieces).foldl
      (fun k s => k ^^^ pawnContrib zob pos.board s) zob.noPawns
      = (List.range 64).foldl
        (fun k s => k ^^^ pawnContrib zob pos.board s) zob.noPawns := by
    unfold bbSquares Position.pieces
    apply foldl_xor_filter
    intro s hs hbit
    unfold pawnContrib
    cases hb : pos.board s with
    | none => rfl
    | some cp =>
      exfalso
      have := hcoh s (by simpa [List.mem_range] using hs) (by simp [hb])
      rw [this] at hbit
      cases hbit
  rw [hfilter, foldl_xor_init]

theorem stateNpmC_range (pval : PieceType → Int) (pos : Position) (c : Color)
    (hcoh : ∀ s, s < 64 → pos.board s ≠ none → pos.allBB.testBit s = true) :
    stateNpmC pval pos c
      = (List.range 64).foldl
          (fun v s => v + npmContrib pval pos.board c s) 0 := by
  unfold stateNpmC
  have hbody : (bbSquares pos.pieces).foldl
      (fun v s =>
        match pos.board s with
        | some (c2, pt) =>
          if c2 = c ∧ pt ≠ PieceType.pawn ∧ pt ≠ PieceType.king then
            v + pval pt
          else v
        | none => v) 0
      = (bbSquares pos.pieces).foldl
        (fun v s => v + npmContrib pval pos.board c s) 0 := by
    apply foldl_body_congr
    intro v s _
    unfold npmContrib
    cases hb : pos.board s with
    | none => simp
    | some cp =>
      obtain ⟨c2, pt⟩ := cp
      by_cases h : c2 = c ∧ pt ≠ PieceType.pawn ∧ pt ≠ PieceType.king <;>
        simp [h]
  rw [hbody]
  unfold bbSquares Position.pieces
  apply foldl_add_filter
  intro s hs hbit
  unfold npmContrib
  cases hb : pos.board s with
  | none => rfl
  | some cp =>
    exfalso
    have := hcoh s (by simpa [List.mem_range] using hs) (by simp [hb])
    rw [this] at hbit
    cases hbit

theorem stateMatKeyC_enum (zob : Zobrist) (pos : Position) :
    stateMatKeyC zob pos
      = pieceEnum.foldl
          (fun k cp => k ^^^ matContrib zob pos.pieceCount cp) 0 := by
  unfold stateMatKeyC
  apply foldl_body_congr
  intro k cp _
  unfold matContrib
  rw [foldl_xor_init]

theorem mem_pieceEnum (c : Color) (pt : PieceType) : (c, pt) ∈ pieceEnum := by
  cases c <;> cases pt <;> decide

theorem nodup_pieceEnum : pieceEnum.Nodup := by decide

/-- Single-point update of an XOR fold. -/
theorem foldl_xor_update1 {α : Type} (l : List α) (g g' : α → Nat) (f0 : α)
    (hnd : l.Nodup) (hf : f0 ∈ l)
    (hsame : ∀ s ∈ l, s ≠ f0 → g' s = g s) :
    l.foldl (fun k s => k ^^^ g' s) 0
      = l.foldl (fun k s => k ^^^ g s) 0 ^^^ (g f0 ^^^ g' f0) := by
  have hp : l.foldl (fun k s => k ^^^ (g s ^^^ g' s)) 0 = g f0 ^^^ g' f0 :=
    foldl_xor_single l (fun s => g s ^^^ g' s) f0 hnd hf
      (fun s hs h1 => by
        show g s ^^^ g' s = 0
        rw [hsame s hs h1, Nat.xor_self])
  have hc := foldl_xor_combine l g g'
  rw [hp] at hc
  rw [← hc, ← Nat.xor_assoc, Nat.xor_self, Nat.zero_xor]

/-- Three-point update of an XOR fold. -/
theorem foldl_xor_update3 {α : Type} [DecidableEq α] (l : List α)
    (g g' : α → Nat) (f0 t0 u0 : α)
    (hnd : l.Nodup) (hf : f0 ∈ l) (ht : t0 ∈ l) (hu : u0 ∈ l)
    (hft : f0 ≠ t0) (hfu : f0 ≠ u0) (htu : t0 ≠ u0)
    (hsame : ∀ s ∈ l, s ≠ f0 → s ≠ t0 → s ≠ u0 → g' s = g s) :
    l.foldl (fun k s => k ^^^ g' s) 0
      = l.foldl (fun k s => k ^^^ g s) 0
        ^^^ ((g f0 ^^^ g' f0) ^^^ (g t0 ^^^ g' t0) ^^^ (g u0 ^^^ g' u0)) := by
  have h1 := foldl_xor_update1 l (fun s => if s = u0 then g s else g' s) g' u0
    hnd hu (fun s hs hsu => by simp [hsu])
  have h2 := foldl_xor_update l g (fun s => if s = u0 then g s else g' s) f0
    t0 hnd hf ht hft
    (fun s hs hsf hst => by
      by_cases hsu : s = u0
      · simp [hsu]
      · simp [hsu, hsame s hs hsf hst hsu])
  rw [h2] at h1
  rw [h1]
  have e0 : (if u0 = u0 then g u0 else g' u0) = g u0 := by simp
  have e1 : (if f0 = u0 then g f0 else g' f0) = g' f0 := by simp [hfu]
  have e2 : (if t0 = u0 then g t0 else g' t0) = g' t0 := by simp [htu]
  simp only [e0, e1, e2, eq_self_iff_true, if_true]
  rw [Nat.xor_assoc]

/-- Peeling the top index off a material-key slot. -/
theorem rangeXor_succ (g : Nat → Key) (n : Nat) :
    (List.range (n + 1)).foldl (fun k i => k ^^^ g i) 0
      = (List.range n).foldl (fun k i => k ^^^ g i) 0 ^^^ g n := by
  rw [List.range_succ, List.foldl_append]
  simp only [List.foldl_cons, List.foldl_nil]

theorem doMoveFinish_stfields (env : AttackEnv) (gc : Bool) (pos : Position)
    (us : Color) (cap : Piece) (pos3 : Position) (st2 : StateInfo) (k3 : Key) :
    (doMoveFinish env gc pos us cap pos3 st2 k3).st.pawnKey = st2.pawnKey ∧
    (doMoveFinish env gc pos us cap pos3 st2 k3).st.materialKey
      = st2.materialKey ∧
    (doMoveFinish env gc pos us cap pos3 st2 k3).st.npmWhite = st2.npmWhite ∧
    (doMoveFinish env gc pos us cap pos3 st2 k3).st.npmBlack = st2.npmBlack ∧
    (doMoveFinish env gc pos us cap pos3 st2 k3).st.checkersBB
      = (if gc then
          attackers_to env pos3 (pos3.kingSq us.other) pos3.allBB
            &&& pos3.byColorBB us
        else 0) :=
  ⟨rfl, rfl, rfl, rfl, rfl⟩

theorem doMoveCapture_stfields (zob : Zobrist) (pval : PieceType → Int)
    (t : Square) (them : Color) (cap : Piece) (pos0 : Position)
    (st0 : StateInfo) (k0 : Key) :
    (doMoveCapture zob pval t them cap pos0 st0 k0).2.1.pawnKey
      = (match cap with
         | none => st0.pawnKey
         | some (cc, cpt) =>
           if cpt = PieceType.pawn then
             st0.pawnKey ^^^ zob.psq cc PieceType.pawn t
           else st0.pawnKey) ∧
    (doMoveCapture zob pval t them cap pos0 st0 k0).2.1.materialKey
      = (match cap with
         | none => st0.materialKey
         | some (cc, cpt) =>
           st0.materialKey ^^^ zob.psq cc cpt (pos0.pieceCount cc cpt - 1)) ∧
    (doMoveCapture zob pval t them cap pos0 st0 k0).2.1.npmWhite
      = (match cap with
         | none => st0.npmWhite
         | some (_, cpt) =>
           if cpt = PieceType.pawn then st0.npmWhite
           else if them = Color.white then st0.npmWhite - pval cpt
           else st0.npmWhite) ∧
    (doMoveCapture zob pval t them cap pos0 st0 k0).2.1.npmBlack
      = (match cap with
         | none => st0.npmBlack
         | some (_, cpt) =>
           if cpt = PieceType.pawn then st0.npmBlack
           else if them = Color.black then st0.npmBlack - pval cpt
           else st0.npmBlack) := by
  cases cap with
  | none => exact ⟨rfl, rfl, rfl, rfl⟩
  | some cp =>
    obtain ⟨cc, cpt⟩ := cp
    refine ⟨?_, ?_, ?_, ?_⟩ <;>
      (unfold doMoveCapture
       by_cases hp : cpt = PieceType.pawn) <;>
      cases them <;>
      simp [hp, remove_piece, apply_ite StateInfo.pawnKey,
        apply_ite StateInfo.materialKey, apply_ite StateInfo.npmWhite,
        apply_ite StateInfo.npmBlack]

theorem doMovePawn_stfields (zob : Zobrist) (pval : PieceType → Int)
    (m : Move) (us uc : Color) (f t : Square) (pos2 : Position)
    (st1 : StateInfo) (k2 : Key) :
    (doMovePawn zob pval m us uc f t pos2 st1 k2).2.1.pawnKey
      = (if moveTypeOf m = 1 then
          st1.pawnKey ^^^ zob.psq uc PieceType.pawn t
            ^^^ zob.psq uc PieceType.pawn f ^^^ zob.psq uc PieceType.pawn t
        else st1.pawnKey ^^^ zob.psq uc PieceType.pawn f
            ^^^ zob.psq uc PieceType.pawn t) ∧
    (doMovePawn zob pval m us uc f t pos2 st1 k2).2.1.materialKey
      = (if moveTypeOf m = 1 then
          st1.materialKey
            ^^^ zob.psq us (promotionTypeOf m)
              (pos2.pieceCount us (promotionTypeOf m))
            ^^^ zob.psq uc PieceType.pawn
              (pos2.pieceCount uc PieceType.pawn - 1)
        else st1.materialKey) ∧
    (doMovePawn zob pval m us uc f t pos2 st1 k2).2.1.npmWhite
      = (if moveTypeOf m = 1 ∧ us = Color.white then
          st1.npmWhite + pval (promotionTypeOf m)
        else st1.npmWhite) ∧
    (doMovePawn zob pval m us uc f t pos2 st1 k2).2.1.npmBlack
      = (if moveTypeOf m = 1 ∧ us = Color.black then
          st1.npmBlack + pval (promotionTypeOf m)
        else st1.npmBlack) := by
  have hppn := promotionTypeOf_ne_pawn m
  refine ⟨?_, ?_, ?_, ?_⟩ <;>
    (unfold doMovePawn
     by_cases h : moveTypeOf m = 1) <;>
    cases us <;>
    simp [h, put_piece, remove_piece, hppn, Ne.symm hppn]

theorem Color.ne_other (c : Color) : c ≠ c.other := by
  cases c <;> decide

theorem promotionTypeOf_ne_king (m : Move) :
    promotionTypeOf m ≠ PieceType.king := by
  unfold promotionTypeOf
  rcases h : promoCode m with - | - | - | n <;> simp

theorem testBit_sqBB2 (s u : Nat) : (sqBB s).testBit u = decide (u = s) := by
  rw [testBit_sqBB]
  simp [eq_comm]

/-- The side-key toggle matches the side-to-move flip. -/
theorem side_flip (zob : Zobrist) (c : Color) :
    (if c = Color.black then zob.side else 0) ^^^ zob.side
      = (if c.other = Color.black then zob.side else 0) := by
  cases c <;> simp [Color.other]

theorem doMoveFinish_pawnKey (env : AttackEnv) (gc : Bool) (pos : Position)
    (us : Color) (cap : Piece) (pos3 : Position) (st2 : StateInfo) (k3 : Key) :
    (doMoveFinish env gc pos us cap pos3 st2 k3).st.pawnKey = st2.pawnKey := rfl

theorem doMoveFinish_matKey (env : AttackEnv) (gc : Bool) (pos : Position)
    (us : Color) (cap : Piece) (pos3 : Position) (st2 : StateInfo) (k3 : Key) :
    (doMoveFinish env gc pos us cap pos3 st2 k3).st.materialKey
      = st2.materialKey := rfl

theorem doMoveFinish_npmW (env : AttackEnv) (gc : Bool) (pos : Position)
    (us : Color) (cap : Piece) (pos3 : Position) (st2 : StateInfo) (k3 : Key) :
    (doMoveFinish env gc pos us cap pos3 st2 k3).st.npmWhite = st2.npmWhite := rfl

theorem doMoveFinish_npmB (env : AttackEnv) (gc : Bool) (pos : Position)
    (us : Color) (cap : Piece) (pos3 : Position) (st2 : StateInfo) (k3 : Key) :
    (doMoveFinish env gc pos us cap pos3 st2 k3).st.npmBlack = st2.npmBlack := rfl

theorem doMoveCapture_pawnKeyE (zob : Zobrist) (pval : PieceType → Int)
    (t : Square) (them : Color) (cap : Piece) (pos0 : Position)
    (st0 : StateInfo) (k0 : Key) :
    (doMoveCapture zob pval t them cap pos0 st0 k0).2.1.pawnKey
      = (match cap with
         | none => st0.pawnKey
         | some (cc, cpt) =>
           if cpt = PieceType.pawn then
             st0.pawnKey ^^^ zob.psq cc PieceType.pawn t
           else st0.pawnKey) :=
  (doMoveCapture_stfields zob pval t them cap pos0 st0 k0).1

theorem doMoveCapture_matKeyE (zob : Zobrist) (pval : PieceType → Int)
    (t : Square) (them : Color) (cap : Piece) (pos0 : Position)
    (st0 : StateInfo) (k0 : Key) :
    (doMoveCapture zob pval t them cap pos0 st0 k0).2.1.materialKey
      = (match cap with
         | none => st0.materialKey
         | some (cc, cpt) =>
           st0.materialKey ^^^ zob.psq cc cpt (pos0.pieceCount cc cpt - 1)) :=
  (doMoveCapture_stfields zob pval t them cap pos0 st0 k0).2.1

theorem doMoveCapture_npmWE (zob : Zobrist) (pval : PieceType → Int)
    (t : Square) (them : Color) (cap : Piece) (pos0 : Position)
    (st0 : StateInfo) (k0 : Key) :
    (doMoveCapture zob pval t them cap pos0 st0 k0).2.1.npmWhite
      = (match cap with
         | none => st0.npmWhite
         | some (_, cpt) =>
           if cpt = PieceType.pawn then st0.npmWhite
           else if them = Color.white then st0.npmWhite - pval cpt
           else st0.npmWhite) :=
  (doMoveCapture_stfields zob pval t them cap pos0 st0 k0).2.2.1

theorem doMoveCapture_npmBE (zob : Zobrist) (pval : PieceType → Int)
    (t : Square) (them : Color) (cap : Piece) (pos0 : Position)
    (st0 : StateInfo) (k0 : Key) :
    (doMoveCapture zob pval t them cap pos0 st0 k0).2.1.npmBlack
      = (match cap with
         | none => st0.npmBlack
         | some (_, cpt) =>
           if cpt = PieceType.pawn then st0.npmBlack
           else if them = Color.black then st0.npmBlack - pval cpt
           else st0.npmBlack) :=
  (doMoveCapture_stfields zob pval t them cap pos0 st0 k0).2.2.2

theorem doMovePawn_pawnKeyE (zob : Zobrist) (pval : PieceType → Int)
    (m : Move) (us uc : Color) (f t : Square) (pos2 : Position)
    (st1 : StateInfo) (k2 : Key) :
    (doMovePawn zob pval m us uc f t pos2 st1 k2).2.1.pawnKey
      = (if moveTypeOf m = 1 then
          st1.pawnKey ^^^ zob.psq uc PieceType.pawn t
            ^^^ zob.psq uc PieceType.pawn f ^^^ zob.psq uc PieceType.pawn t
        else st1.pawnKey ^^^ zob.psq uc PieceType.pawn f
            ^^^ zob.psq uc PieceType.pawn t) :=
  (doMovePawn_stfields zob pval m us uc f t pos2 st1 k2).1

theorem doMovePawn_matKeyE (zob : Zobrist) (pval : PieceType → Int)
    (m : Move) (us uc : Color) (f t : Square) (pos2 : Position)
    (st1 : StateInfo) (k2 : Key) :
    (doMovePawn zob pval m us uc f t pos2 st1 k2).2.1.materialKey
      = (if moveTypeOf m = 1 then
          st1.materialKey
            ^^^ zob.psq us (promotionTypeOf m)
              (pos2.pieceCount us (promotionTypeOf m))
            ^^^ zob.psq uc PieceType.pawn
              (pos2.pieceCount uc PieceType.pawn - 1)
        else st1.materialKey) :=
  (doMovePawn_stfields zob pval m us uc f t pos2 st1 k2).2.1

theorem doMovePawn_npmWE (zob : Zobrist) (pval : PieceType → Int)
    (m : Move) (us uc : Color) (f t : Square) (pos2 : Position)
    (st1 : StateInfo) (k2 : Key) :
    (doMovePawn zob pval m us uc f t pos2 st1 k2).2.1.npmWhite
      = (if moveTypeOf m = 1 ∧ us = Color.white then
          st1.npmWhite + pval (promotionTypeOf m)
        else st1.npmWhite) :=
  (doMovePawn_stfields zob pval m us uc f t pos2 st1 k2).2.2.1

theorem doMovePawn_npmBE (zob : Zobrist) (pval : PieceType → Int)
    (m : Move) (us uc : Color) (f t : Square) (pos2 : Position)
    (st1 : StateInfo) (k2 : Key) :
    (doMovePawn zob pval m us uc f t pos2 st1 k2).2.1.npmBlack
      = (if moveTypeOf m = 1 ∧ us = Color.black then
          st1.npmBlack + pval (promotionTypeOf m)
        else st1.npmBlack) :=
  (doMovePawn_stfields zob pval m us uc f t pos2 st1 k2).2.2.2

/-- The board function after `do_move`, pointwise. -/
theorem do_move_board_desc (env : AttackEnv) (zob : Zobrist)
    (pval : PieceType → Int) (m : Move) (gc : Bool) (pos : Position)
    (upt : PieceType)
    (hpc : pos.board (fromSq m) = some (pos.sideToMove, upt))
    (hpp : moveTypeOf m = 1 → upt = PieceType.pawn) (x : Square) :
    (do_move env zob pval m gc pos).board x
      = if x = toSq m then
          some (pos.sideToMove,
            if moveTypeOf m = 1 then promotionTypeOf m else upt)
        else if x = fromSq m then none
        else pos.board x := by
  rw [(do_move_store env zob pval m gc pos pos.sideToMove upt hpc hpp).1]
  unfold coreAfterDo
  by_cases hxt : x = toSq m
  · by_cases hmt : moveTypeOf m = 1 <;>
      cases hcap : pos.board (toSq m) with
    | none =>
      simp [put_piece, remove_piece, move_piece, hmt, hxt]
    | some cp =>
      obtain ⟨cc, cpt⟩ := cp
      simp [put_piece, remove_piece, move_piece, hmt, hxt]
  · by_cases hxf : x = fromSq m
    · have hft : ¬ (fromSq m = toSq m) := fun h => hxt (hxf.trans h)
      by_cases hmt : moveTypeOf m = 1 <;>
        cases hcap : pos.board (toSq m) with
      | none =>
        simp [put_piece, remove_piece, move_piece, hmt, hxt, hxf, hft]
      | some cp =>
        obtain ⟨cc, cpt⟩ := cp
        simp [put_piece, remove_piece, move_piece, hmt, hxt, hxf, hft]
    · by_cases hmt : moveTypeOf m = 1 <;>
        cases hcap : pos.board (toSq m) with
      | none =>
        simp [put_piece, remove_piece, move_piece, hmt, hxt, hxf]
      | some cp =>
        obtain ⟨cc, cpt⟩ := cp
        simp [put_piece, remove_piece, move_piece, hmt, hxt, hxf]

/-- The occupancy bitboard after `do_move`, pointwise. -/
theorem do_move_allBB_bit (env : AttackEnv) (zob : Zobrist)
    (pval : PieceType → Int) (m : Move) (gc : Bool) (pos : Position)
    (upt : PieceType) (hC : Consistent pos)
    (hpc : pos.board (fromSq m) = some (pos.sideToMove, upt))
    (hpp : moveTypeOf m = 1 → upt = PieceType.pawn)
    (hf : fromSq m < 64) (ht : toSq m < 64) (hne : fromSq m ≠ toSq m)
    (i : Nat) :
    (do_move env zob pval m gc pos).allBB.testBit i
      = if i = toSq m then true
        else if i = fromSq m then false
        else pos.allBB.testBit i := by
  rw [(do_move_store env zob pval m gc pos pos.sideToMove upt hpc hpp).2.2.2.1]
  unfold coreAfterDo
  have hbf : pos.allBB.testBit (fromSq m) = true :=
    (hC.2.1 _ hf).mpr (by simp [hpc])
  by_cases hmt : moveTypeOf m = 1 <;>
    cases hcap : pos.board (toSq m) with
  | none =>
    have hbt : pos.allBB.testBit (toSq m) = false := by
      by_cases hb : pos.allBB.testBit (toSq m) = true
      · exact absurd ((hC.2.1 _ ht).mp hb) (by simp [hcap])
      · simpa using hb
    by_cases hit : i = toSq m <;> by_cases hif : i = fromSq m <;>
      simp [put_piece, remove_piece, move_piece, hmt, hit, hif,
        Nat.testBit_xor, Nat.testBit_or, testBit_sqBB2, hbf, hbt,
        (show toSq m ≠ fromSq m from fun h => hne h.symm), hne]
  | some cp =>
    obtain ⟨cc, cpt⟩ := cp
    have hbt : pos.allBB.testBit (toSq m) = true :=
      (hC.2.1 _ ht).mpr (by simp [hcap])
    by_cases hit : i = toSq m <;> by_cases hif : i = fromSq m <;>
      simp [put_piece, remove_piece, move_piece, hmt, hit, hif,
        Nat.testBit_xor, Nat.testBit_or, testBit_sqBB2, hbf, hbt,
        (show toSq m ≠ fromSq m from fun h => hne h.symm), hne]

/-- The board/occupancy coherence needed by the `set_state` fold
conversions survives `do_move`. -/
theorem do_move_coherence (env : AttackEnv) (zob : Zobrist)
    (pval : PieceType → Int) (m : Move) (gc : Bool) (pos : Position)
    (upt : PieceType) (hC : Consistent pos)
    (hpc : pos.board (fromSq m) = some (pos.sideToMove, upt))
    (hpp : moveTypeOf m = 1 → upt = PieceType.pawn)
    (hf : fromSq m < 64) (ht : toSq m < 64) (hne : fromSq m ≠ toSq m) :
    ∀ s, s < 64 → (do_move env zob pval m gc pos).board s ≠ none →
      (do_move env zob pval m gc pos).allBB.testBit s = true := by
  intro s hs hb
  rw [do_move_allBB_bit env zob pval m gc pos upt hC hpc hpp hf ht hne s]
  rw [do_move_board_desc env zob pval m gc pos upt hpc hpp s] at hb
  by_cases hst : s = toSq m
  · simp [hst]
  · by_cases hsf : s = fromSq m
    · simp [hst, hsf] at hb
      exact absurd hb hne
    · simp only [hst, hsf, if_false, reduceIte] at hb ⊢
      exact (hC.2.1 s hs).mpr hb

/-- After `do_move`, the incrementally maintained primary key equals the
full `set_state` recomputation. -/
theorem do_move_key_ok (env : AttackEnv) (zob : Zobrist)
    (pval : PieceType → Int) (m : Move) (gc : Bool) (pos : Position)
    (upt : PieceType) (hC : Consistent pos) (hM : MoveOk pos m)
    (hpc : pos.board (fromSq m) = some (pos.sideToMove, upt))
    (hkey : pos.st.key = stateKeyC zob pos) :
    (do_move env zob pval m gc pos).st.key
      = stateKeyC zob (do_move env zob pval m gc pos) := by
  obtain ⟨hf, ht, hne, -, -, hpromo⟩ := hM
  have hpp : moveTypeOf m = 1 → upt = PieceType.pawn := by
    intro h1
    have h2 := hpc.symm.trans (hpromo h1).1
    simpa using h2
  have hcoh2 := do_move_coherence env zob pval m gc pos upt hC hpc hpp hf ht hne
  rw [stateKeyC_range zob _ hcoh2]
  have hstm : (do_move env zob pval m gc pos).sideToMove
      = pos.sideToMove.other :=
    (do_move_store env zob pval m gc pos pos.sideToMove upt
      hpc hpp).2.2.2.2.2.2.2.1
  rw [hstm]
  have hbd := do_move_board_desc env zob pval m gc pos upt hpc hpp
  have hupd := foldl_xor_update (List.range 64)
      (keyContrib zob pos.board)
      (keyContrib zob (do_move env zob pval m gc pos).board)
      (fromSq m) (toSq m) (List.nodup_range 64)
      (List.mem_range.mpr hf) (List.mem_range.mpr ht) hne
      (fun s _ h1 h2 => by
        unfold keyContrib
        rw [hbd s]
        simp [h1, h2])
  rw [hupd]
  have hgf : keyContrib zob pos.board (fromSq m)
      = zob.psq pos.sideToMove upt (fromSq m) := by
    unfold keyContrib
    rw [hpc]
  have hgf2 : keyContrib zob (do_move env zob pval m gc pos).board (fromSq m)
      = 0 := by
    unfold keyContrib
    rw [hbd (fromSq m)]
    simp [hne]
  have hgt2 : keyContrib zob (do_move env zob pval m gc pos).board (toSq m)
      = zob.psq pos.sideToMove
          (if moveTypeOf m = 1 then promotionTypeOf m else upt) (toSq m) := by
    unfold keyContrib
    rw [hbd (toSq m)]
    simp
  rw [hgf, hgf2, hgt2]
  have hcohp : ∀ s, s < 64 → pos.board s ≠ none →
      pos.allBB.testBit s = true :=
    fun s hs hb => (hC.2.1 s hs).mpr hb
  have hkey2 : pos.st.key
      = (List.range 64).foldl
          (fun k s => k ^^^ keyContrib zob pos.board s) 0
        ^^^ (if pos.sideToMove = Color.black then zob.side else 0) := by
    rw [hkey, stateKeyC_range zob pos hcohp]
  unfold do_move
  simp only [hpc]
  unfold doMoveMain
  by_cases hmt : moveTypeOf m = 1
  · have hup := hpp hmt
    subst hup
    cases hcap : pos.board (toSq m) with
    | none =>
      simp only [hcap, hmt, reduceIte, if_true, doMoveFinish_key,
        doMovePawn_key, doMoveCapture_key]
      rw [hkey2]
      cases hus : pos.sideToMove <;>
        simp [Color.other, keyContrib, hcap, Nat.xor_assoc, Nat.xor_comm,
          xor_left_comm, xor_cancel_left]
    | some cp =>
      obtain ⟨cc, cpt⟩ := cp
      simp only [hcap, hmt, reduceIte, if_true, doMoveFinish_key,
        doMovePawn_key, doMoveCapture_key]
      rw [hkey2]
      cases hus : pos.sideToMove <;>
        simp [Color.other, keyContrib, hcap, Nat.xor_assoc, Nat.xor_comm,
          xor_left_comm, xor_cancel_left]
  · by_cases hup : upt = PieceType.pawn
    · subst hup
      cases hcap : pos.board (toSq m) with
      | none =>
        simp only [hcap, hmt, reduceIte, if_true, if_false, doMoveFinish_key,
          doMovePawn_key, doMoveCapture_key]
        rw [hkey2]
        cases hus : pos.sideToMove <;>
          simp [Color.other, keyContrib, hcap, Nat.xor_assoc, Nat.xor_comm,
            xor_left_comm, xor_cancel_left]
      | some cp =>
        obtain ⟨cc, cpt⟩ := cp
        simp only [hcap, hmt, reduceIte, if_true, if_false, doMoveFinish_key,
          doMovePawn_key, doMoveCapture_key]
        rw [hkey2]
        cases hus : pos.sideToMove <;>
          simp [Color.other, keyContrib, hcap, Nat.xor_assoc, Nat.xor_comm,
            xor_left_comm, xor_cancel_left]
    · cases hcap : pos.board (toSq m) with
      | none =>
        simp only [hcap, hmt, hup, reduceIte, if_false, doMoveFinish_key,
          doMoveCapture_key]
        rw [hkey2]
        cases hus : pos.sideToMove <;>
          simp [Color.other, keyContrib, hcap, Nat.xor_assoc, Nat.xor_comm,
            xor_left_comm, xor_cancel_left]
      | some cp =>
        obtain ⟨cc, cpt⟩ := cp
        simp only [hcap, hmt, hup, reduceIte, if_false, doMoveFinish_key,
          doMoveCapture_key]
        rw [hkey2]
        cases hus : pos.sideToMove <;>
          simp [Color.other, keyContrib, hcap, Nat.xor_assoc, Nat.xor_comm,
            xor_left_comm, xor_cancel_left]

/-- After `do_move`, the incrementally maintained pawn key equals the full
`set_state` recomputation. -/
theorem do_move_pawnKey_ok (env : AttackEnv) (zob : Zobrist)
    (pval : PieceType → Int) (m : Move) (gc : Bool) (pos : Position)
    (upt : PieceType) (hC : Consistent pos) (hM : MoveOk pos m)
    (hpc : pos.board (fromSq m) = some (pos.sideToMove, upt))
    (hpk : pos.st.pawnKey = statePawnKeyC zob pos) :
    (do_move env zob pval m gc pos).st.pawnKey
      = statePawnKeyC zob (do_move env zob pval m gc pos) := by
  obtain ⟨hf, ht, hne, -, -, hpromo⟩ := hM
  have hpp : moveTypeOf m = 1 → upt = PieceType.pawn := by
    intro h1
    have h2 := hpc.symm.trans (hpromo h1).1
    simpa using h2
  have hqp := promotionTypeOf_ne_pawn m
  have hcoh2 := do_move_coherence env zob pval m gc pos upt hC hpc hpp hf ht hne
  rw [statePawnKeyC_range zob _ hcoh2]
  have hbd := do_move_board_desc env zob pval m gc pos upt hpc hpp
  have hupd := foldl_xor_update (List.range 64)
      (pawnContrib zob pos.board)
      (pawnContrib zob (do_move env zob pval m gc pos).board)
      (fromSq m) (toSq m) (List.nodup_range 64)
      (List.mem_range.mpr hf) (List.mem_range.mpr ht) hne
      (fun s _ h1 h2 => by
        unfold pawnContrib
        rw [hbd s]
        simp [h1, h2])
  rw [hupd]
  have hgf : pawnContrib zob pos.board (fromSq m)
      = (if upt = PieceType.pawn then
          zob.psq pos.sideToMove PieceType.pawn (fromSq m) else 0) := by
    unfold pawnContrib
    rw [hpc]
    cases upt <;> simp
  have hgf2 : pawnContrib zob (do_move env zob pval m gc pos).board (fromSq m)
      = 0 := by
    unfold pawnContrib
    rw [hbd (fromSq m)]
    simp [hne]
  have hgt2 : pawnContrib zob (do_move env zob pval m gc pos).board (toSq m)
      = (if (if moveTypeOf m = 1 then promotionTypeOf m else upt)
            = PieceType.pawn then
          zob.psq pos.sideToMove PieceType.pawn (toSq m) else 0) := by
    unfold pawnContrib
    rw [hbd (toSq m)]
    simp only [if_pos rfl]
    cases hq : (if moveTypeOf m = 1 then promotionTypeOf m else upt) <;> simp
  have hgt3 : pawnContrib zob pos.board (toSq m)
      = (match pos.board (toSq m) with
         | none => 0
         | some (cc2, cpt2) =>
           if cpt2 = PieceType.pawn then
             zob.psq cc2 PieceType.pawn (toSq m) else 0) := by
    unfold pawnContrib
    cases hb : pos.board (toSq m) with
    | none => rfl
    | some cp =>
      obtain ⟨c2, p2⟩ := cp
      cases p2 <;> simp
  rw [hgf, hgf2, hgt2, hgt3]
  have hcohp : ∀ s, s < 64 → pos.board s ≠ none →
      pos.allBB.testBit s = true :=
    fun s hs hb => (hC.2.1 s hs).mpr hb
  have hpk2 : pos.st.pawnKey
      = zob.noPawns ^^^ (List.range 64).foldl
          (fun k s => k ^^^ pawnContrib zob pos.board s) 0 := by
    rw [hpk, statePawnKeyC_range zob pos hcohp]
  unfold do_move
  simp only [hpc]
  unfold doMoveMain
  by_cases hmt : moveTypeOf m = 1
  · have hup := hpp hmt
    subst hup
    cases hcap : pos.board (toSq m) with
    | none =>
      simp only [hcap, hmt, reduceIte, if_true, doMoveFinish_pawnKey,
        doMovePawn_pawnKeyE, doMoveCapture_pawnKeyE]
      rw [hpk2]
      simp [hqp, Nat.xor_assoc, Nat.xor_comm, xor_left_comm, xor_cancel_left]
    | some cp =>
      obtain ⟨cc, cpt⟩ := cp
      simp only [hcap, hmt, reduceIte, if_true, doMoveFinish_pawnKey,
        doMovePawn_pawnKeyE, doMoveCapture_pawnKeyE]
      rw [hpk2]
      by_cases hcp : cpt = PieceType.pawn <;>
        simp [hcp, hqp, Nat.xor_assoc, Nat.xor_comm, xor_left_comm,
          xor_cancel_left]
  · by_cases hup : upt = PieceType.pawn
    · subst hup
      cases hcap : pos.board (toSq m) with
      | none =>
        simp only [hcap, hmt, reduceIte, if_true, if_false,
          doMoveFinish_pawnKey, doMovePawn_pawnKeyE, doMoveCapture_pawnKeyE]
        rw [hpk2]
        simp [Nat.xor_assoc, Nat.xor_comm, xor_left_comm, xor_cancel_left]
      | some cp =>
        obtain ⟨cc, cpt⟩ := cp
        simp only [hcap, hmt, reduceIte, if_true, if_false,
          doMoveFinish_pawnKey, doMovePawn_pawnKeyE, doMoveCapture_pawnKeyE]
        rw [hpk2]
        by_cases hcp : cpt = PieceType.pawn <;>
          simp [hcp, Nat.xor_assoc, Nat.xor_comm, xor_left_comm,
            xor_cancel_left]
    · cases hcap : pos.board (toSq m) with
      | none =>
        simp only [hcap, hmt, hup, reduceIte, if_false, doMoveFinish_pawnKey,
          doMoveCapture_pawnKeyE]
        rw [hpk2]
        simp [hup, Nat.xor_assoc, Nat.xor_comm, xor_left_comm,
          xor_cancel_left]
      | some cp =>
        obtain ⟨cc, cpt⟩ := cp
        simp only [hcap, hmt, hup, reduceIte, if_false, doMoveFinish_pawnKey,
          doMoveCapture_pawnKeyE]
        rw [hpk2]
        by_cases hcp : cpt = PieceType.pawn <;>
          simp [hcp, hup, Nat.xor_assoc, Nat.xor_comm, xor_left_comm,
            xor_cancel_left]

/-- After `do_move`, the incrementally maintained white non-pawn
material equals the full `set_state` recomputation. -/
theorem do_move_npmW_ok (env : AttackEnv) (zob : Zobrist)
    (pval : PieceType → Int) (m : Move) (gc : Bool) (pos : Position)
    (upt : PieceType) (hC : Consistent pos) (hM : MoveOk pos m)
    (hpc : pos.board (fromSq m) = some (pos.sideToMove, upt))
    (hnw : pos.st.npmWhite = stateNpmC pval pos Color.white) :
    (do_move env zob pval m gc pos).st.npmWhite
      = stateNpmC pval (do_move env zob pval m gc pos) Color.white := by
  obtain ⟨hf, ht, hne, -, hcapc, hpromo⟩ := hM
  have hpp : moveTypeOf m = 1 → upt = PieceType.pawn := by
    intro h1
    have h2 := hpc.symm.trans (hpromo h1).1
    simpa using h2
  have hqp := promotionTypeOf_ne_pawn m
  have hqk := promotionTypeOf_ne_king m
  have hcoh2 := do_move_coherence env zob pval m gc pos upt hC hpc hpp hf ht hne
  rw [stateNpmC_range pval _ Color.white hcoh2]
  have hbd := do_move_board_desc env zob pval m gc pos upt hpc hpp
  have hupd := foldl_add_update (List.range 64)
      (npmContrib pval pos.board Color.white)
      (npmContrib pval (do_move env zob pval m gc pos).board Color.white)
      (fromSq m) (toSq m) (List.nodup_range 64)
      (List.mem_range.mpr hf) (List.mem_range.mpr ht) hne
      (fun s _ h1 h2 => by
        unfold npmContrib
        rw [hbd s]
        simp [h1, h2])
  rw [hupd]
  have hgf2 : npmContrib pval (do_move env zob pval m gc pos).board
      Color.white (fromSq m) = 0 := by
    unfold npmContrib
    rw [hbd (fromSq m)]
    simp [hne]
  have hgf : npmContrib pval pos.board Color.white (fromSq m)
      = (if pos.sideToMove = Color.white ∧ upt ≠ PieceType.pawn
            ∧ upt ≠ PieceType.king then pval upt else 0) := by
    unfold npmContrib
    rw [hpc]
  have hgt2 : npmContrib pval (do_move env zob pval m gc pos).board
      Color.white (toSq m)
      = (if pos.sideToMove = Color.white
            ∧ (if moveTypeOf m = 1 then promotionTypeOf m else upt)
                ≠ PieceType.pawn
            ∧ (if moveTypeOf m = 1 then promotionTypeOf m else upt)
                ≠ PieceType.king
         then pval (if moveTypeOf m = 1 then promotionTypeOf m else upt)
         else 0) := by
    unfold npmContrib
    rw [hbd (toSq m)]
    simp
  have hgt3 : npmContrib pval pos.board Color.white (toSq m)
      = (match pos.board (toSq m) with
         | none => 0
         | some (cc2, cpt2) =>
           if cc2 = Color.white ∧ cpt2 ≠ PieceType.pawn
              ∧ cpt2 ≠ PieceType.king then pval cpt2 else 0) := by
    unfold npmContrib
    cases hb : pos.board (toSq m) with
    | none => rfl
    | some cp =>
      obtain ⟨c2, p2⟩ := cp
      rfl
  rw [hgf, hgf2, hgt2, hgt3]
  have hcohp : ∀ s, s < 64 → pos.board s ≠ none →
      pos.allBB.testBit s = true :=
    fun s hs hb => (hC.2.1 s hs).mpr hb
  have hnw2 : pos.st.npmWhite
      = (List.range 64).foldl
          (fun v s => v + npmContrib pval pos.board Color.white s) 0 := by
    rw [hnw, stateNpmC_range pval pos Color.white hcohp]
  unfold do_move
  simp only [hpc]
  unfold doMoveMain
  by_cases hmt : moveTypeOf m = 1
  · have hup := hpp hmt
    subst hup
    cases hcap : pos.board (toSq m) with
    | none =>
      simp only [hcap, hmt, reduceIte, if_true, doMoveFinish_npmW,
        doMovePawn_npmWE, doMoveCapture_npmWE]
      rw [hnw2]
      cases hus : pos.sideToMove <;>
        simp [Color.other, hqp, hqk, hmt] <;> ring
    | some cp =>
      obtain ⟨cc, cpt⟩ := cp
      obtain ⟨hcc, hck⟩ := hcapc cc cpt hcap
      subst hcc
      simp only [hcap, hmt, reduceIte, if_true, doMoveFinish_npmW,
        doMovePawn_npmWE, doMoveCapture_npmWE]
      rw [hnw2]
      cases hus : pos.sideToMove <;>
        by_cases hcp : cpt = PieceType.pawn <;>
        simp [Color.other, hcp, hck, hqp, hqk, hmt] <;> ring
  · by_cases hup : upt = PieceType.pawn
    · subst hup
      cases hcap : pos.board (toSq m) with
      | none =>
        simp only [hcap, hmt, reduceIte, if_true, if_false, doMoveFinish_npmW,
          doMovePawn_npmWE, doMoveCapture_npmWE]
        rw [hnw2]
        cases hus : pos.sideToMove <;>
          simp [Color.other, hmt] <;> ring
      | some cp =>
        obtain ⟨cc, cpt⟩ := cp
        obtain ⟨hcc, hck⟩ := hcapc cc cpt hcap
        subst hcc
        simp only [hcap, hmt, reduceIte, if_true, if_false, doMoveFinish_npmW,
          doMovePawn_npmWE, doMoveCapture_npmWE]
        rw [hnw2]
        cases hus : pos.sideToMove <;>
          by_cases hcp : cpt = PieceType.pawn <;>
          simp [Color.other, hcp, hck, hmt] <;> ring
    · cases hcap : pos.board (toSq m) with
      | none =>
        simp only [hcap, hmt, hup, reduceIte, if_false, doMoveFinish_npmW, doMoveCapture_npmWE]
        rw [hnw2]
        cases hus : pos.sideToMove <;>
          simp [Color.other, hup, hmt] <;> ring
      | some cp =>
        obtain ⟨cc, cpt⟩ := cp
        obtain ⟨hcc, hck⟩ := hcapc cc cpt hcap
        subst hcc
        simp only [hcap, hmt, hup, reduceIte, if_false, doMoveFinish_npmW, doMoveCapture_npmWE]
        rw [hnw2]
        cases hus : pos.sideToMove <;>
          by_cases hcp : cpt = PieceType.pawn <;>
          simp [Color.other, hcp, hck, hup, hmt] <;> ring

/-- After `do_move`, the incrementally maintained black non-pawn
material equals the full `set_state` recomputation. -/
theorem do_move_npmB_ok (env : AttackEnv) (zob : Zobrist)
    (pval : PieceType → Int) (m : Move) (gc : Bool) (pos : Position)
    (upt : PieceType) (hC : Consistent pos) (hM : MoveOk pos m)
    (hpc : pos.board (fromSq m) = some (pos.sideToMove, upt))
    (hnb : pos.st.npmBlack = stateNpmC pval pos Color.black) :
    (do_move env zob pval m gc pos).st.npmBlack
      = stateNpmC pval (do_move env zob pval m gc pos) Color.black := by
  obtain ⟨hf, ht, hne, -, hcapc, hpromo⟩ := hM
  have hpp : moveTypeOf m = 1 → upt = PieceType.pawn := by
    intro h1
    have h2 := hpc.symm.trans (hpromo h1).1
    simpa using h2
  have hqp := promotionTypeOf_ne_pawn m
  have hqk := promotionTypeOf_ne_king m
  have hcoh2 := do_move_coherence env zob pval m gc pos upt hC hpc hpp hf ht hne
  rw [stateNpmC_range pval _ Color.black hcoh2]
  have hbd := do_move_board_desc env zob pval m gc pos upt hpc hpp
  have hupd := foldl_add_update (List.range 64)
      (npmContrib pval pos.board Color.black)
      (npmContrib pval (do_move env zob pval m gc pos).board Color.black)
      (fromSq m) (toSq m) (List.nodup_range 64)
      (List.mem_range.mpr hf) (List.mem_range.mpr ht) hne
      (fun s _ h1 h2 => by
        unfold npmContrib
        rw [hbd s]
        simp [h1, h2])
  rw [hupd]
  have hgf2 : npmContrib pval (do_move env zob pval m gc pos).board
      Color.black (fromSq m) = 0 := by
    unfold npmContrib
    rw [hbd (fromSq m)]
    simp [hne]
  have hgf : npmContrib pval pos.board Color.black (fromSq m)
      = (if pos.sideToMove = Color.black ∧ upt ≠ PieceType.pawn
            ∧ upt ≠ PieceType.king then pval upt else 0) := by
    unfold npmContrib
    rw [hpc]
  have hgt2 : npmContrib pval (do_move env zob pval m gc pos).board
      Color.black (toSq m)
      = (if pos.sideToMove = Color.black
            ∧ (if moveTypeOf m = 1 then promotionTypeOf m else upt)
                ≠ PieceType.pawn
            ∧ (if moveTypeOf m = 1 then promotionTypeOf m else upt)
                ≠ PieceType.king
         then pval (if moveTypeOf m = 1 then promotionTypeOf m else upt)
         else 0) := by
    unfold npmContrib
    rw [hbd (toSq m)]
    simp
  have hgt3 : npmContrib pval pos.board Color.black (toSq m)
      = (match pos.board (toSq m) with
         | none => 0
         | some (cc2, cpt2) =>
           if cc2 = Color.black ∧ cpt2 ≠ PieceType.pawn
              ∧ cpt2 ≠ PieceType.king then pval cpt2 else 0) := by
    unfold npmContrib
    cases hb : pos.board (toSq m) with
    | none => rfl
    | some cp =>
      obtain ⟨c2, p2⟩ := cp
      rfl
  rw [hgf, hgf2, hgt2, hgt3]
  have hcohp : ∀ s, s < 64 → pos.board s ≠ none →
      pos.allBB.testBit s = true :=
    fun s hs hb => (hC.2.1 s hs).mpr hb
  have hnw2 : pos.st.npmBlack
      = (List.range 64).foldl
          (fun v s => v + npmContrib pval pos.board Color.black s) 0 := by
    rw [hnb, stateNpmC_range pval pos Color.black hcohp]
  unfold do_move
  simp only [hpc]
  unfold doMoveMain
  by_cases hmt : moveTypeOf m = 1
  · have hup := hpp hmt
    subst hup
    cases hcap : pos.board (toSq m) with
    | none =>
      simp only [hcap, hmt, reduceIte, if_true, doMoveFinish_npmB,
        doMovePawn_npmBE, doMoveCapture_npmBE]
      rw [hnw2]
      cases hus : pos.sideToMove <;>
        simp [Color.other, hqp, hqk, hmt] <;> ring
    | some cp =>
      obtain ⟨cc, cpt⟩ := cp
      obtain ⟨hcc, hck⟩ := hcapc cc cpt hcap
      subst hcc
      simp only [hcap, hmt, reduceIte, if_true, doMoveFinish_npmB,
        doMovePawn_npmBE, doMoveCapture_npmBE]
      rw [hnw2]
      cases hus : pos.sideToMove <;>
        by_cases hcp : cpt = PieceType.pawn <;>
        simp [Color.other, hcp, hck, hqp, hqk, hmt] <;> ring
  · by_cases hup : upt = PieceType.pawn
    · subst hup
      cases hcap : pos.board (toSq m) with
      | none =>
        simp only [hcap, hmt, reduceIte, if_true, if_false, doMoveFinish_npmB,
          doMovePawn_npmBE, doMoveCapture_npmBE]
        rw [hnw2]
        cases hus : pos.sideToMove <;>
          simp [Color.other, hmt] <;> ring
      | some cp =>
        obtain ⟨cc, cpt⟩ := cp
        obtain ⟨hcc, hck⟩ := hcapc cc cpt hcap
        subst hcc
        simp only [hcap, hmt, reduceIte, if_true, if_false, doMoveFinish_npmB,
          doMovePawn_npmBE, doMoveCapture_npmBE]
        rw [hnw2]
        cases hus : pos.sideToMove <;>
          by_cases hcp : cpt = PieceType.pawn <;>
          simp [Color.other, hcp, hck, hmt] <;> ring
    · cases hcap : pos.board (toSq m) with
      | none =>
        simp only [hcap, hmt, hup, reduceIte, if_false, doMoveFinish_npmB, doMoveCapture_npmBE]
        rw [hnw2]
        cases hus : pos.sideToMove <;>
          simp [Color.other, hup, hmt] <;> ring
      | some cp =>
        obtain ⟨cc, cpt⟩ := cp
        obtain ⟨hcc, hck⟩ := hcapc cc cpt hcap
        subst hcc
        simp only [hcap, hmt, hup, reduceIte, if_false, doMoveFinish_npmB, doMoveCapture_npmBE]
        rw [hnw2]
        cases hus : pos.sideToMove <;>
          by_cases hcp : cpt = PieceType.pawn <;>
          simp [Color.other, hcp, hck, hup, hmt] <;> ring

/-- Material-key fold over `pieceEnum` is unchanged when the counts agree. -/
theorem matFold_congr (zob : Zobrist) (cnt cnt2 : Color → PieceType → Nat)
    (hsame : ∀ a b, cnt2 a b = cnt a b) :
    pieceEnum.foldl (fun k cp => k ^^^ matContrib zob cnt2 cp) 0
      = pieceEnum.foldl (fun k cp => k ^^^ matContrib zob cnt cp) 0 :=
  foldl_body_congr pieceEnum _ _ 0
    (fun k cp _ => by
      unfold matContrib
      rw [hsame cp.1 cp.2])

/-- Material-key fold after a one-slot count change. -/
theorem matFold_update1 (zob : Zobrist) (cnt cnt2 : Color → PieceType → Nat)
    (s1 : Color × PieceType)
    (hsame : ∀ cp : Color × PieceType, cp ≠ s1 →
      cnt2 cp.1 cp.2 = cnt cp.1 cp.2) :
    pieceEnum.foldl (fun k cp => k ^^^ matContrib zob cnt2 cp) 0
      = pieceEnum.foldl (fun k cp => k ^^^ matContrib zob cnt cp) 0
        ^^^ (matContrib zob cnt s1 ^^^ matContrib zob cnt2 s1) :=
  foldl_xor_update1 pieceEnum (matContrib zob cnt) (matContrib zob cnt2) s1
    nodup_pieceEnum (mem_pieceEnum s1.1 s1.2)
    (fun cp _ h1 => by
      unfold matContrib
      rw [hsame cp h1])

/-- Material-key fold after a two-slot count change. -/
theorem matFold_update2 (zob : Zobrist) (cnt cnt2 : Color → PieceType → Nat)
    (s1 s2 : Color × PieceType) (h12 : s1 ≠ s2)
    (hsame : ∀ cp : Color × PieceType, cp ≠ s1 → cp ≠ s2 →
      cnt2 cp.1 cp.2 = cnt cp.1 cp.2) :
    pieceEnum.foldl (fun k cp => k ^^^ matContrib zob cnt2 cp) 0
      = pieceEnum.foldl (fun k cp => k ^^^ matContrib zob cnt cp) 0
        ^^^ ((matContrib zob cnt s1 ^^^ matContrib zob cnt2 s1)
          ^^^ (matContrib zob cnt s2 ^^^ matContrib zob cnt2 s2)) :=
  foldl_xor_update pieceEnum (matContrib zob cnt) (matContrib zob cnt2) s1 s2
    nodup_pieceEnum (mem_pieceEnum s1.1 s1.2) (mem_pieceEnum s2.1 s2.2) h12
    (fun cp _ h1 h2 => by
      unfold matContrib
      rw [hsame cp h1 h2])

/-- Material-key fold after a three-slot count change. -/
theorem matFold_update3 (zob : Zobrist) (cnt cnt2 : Color → PieceType → Nat)
    (s1 s2 s3 : Color × PieceType) (h12 : s1 ≠ s2) (h13 : s1 ≠ s3)
    (h23 : s2 ≠ s3)
    (hsame : ∀ cp : Color × PieceType, cp ≠ s1 → cp ≠ s2 → cp ≠ s3 →
      cnt2 cp.1 cp.2 = cnt cp.1 cp.2) :
    pieceEnum.foldl (fun k cp => k ^^^ matContrib zob cnt2 cp) 0
      = pieceEnum.foldl (fun k cp => k ^^^ matContrib zob cnt cp) 0
        ^^^ ((matContrib zob cnt s1 ^^^ matContrib zob cnt2 s1)
          ^^^ (matContrib zob cnt s2 ^^^ matContrib zob cnt2 s2)
          ^^^ (matContrib zob cnt s3 ^^^ matContrib zob cnt2 s3)) :=
  foldl_xor_update3 pieceEnum (matContrib zob cnt) (matContrib zob cnt2)
    s1 s2 s3 nodup_pieceEnum (mem_pieceEnum s1.1 s1.2) (mem_pieceEnum s2.1 s2.2)
    (mem_pieceEnum s3.1 s3.2) h12 h13 h23
    (fun cp _ h1 h2 h3 => by
      unfold matContrib
      rw [hsame cp h1 h2 h3])

/-- XOR difference of one material slot when the count drops by one. -/
theorem matContrib_drop (zob : Zobrist) (cnt cnt2 : Color → PieceType → Nat)
    (cp : Color × PieceType) (k : Nat) (h : cnt cp.1 cp.2 = k + 1)
    (h2 : cnt2 cp.1 cp.2 = k) :
    matContrib zob cnt cp ^^^ matContrib zob cnt2 cp
      = zob.psq cp.1 cp.2 k := by
  unfold matContrib
  rw [h, h2, rangeXor_succ, xor_swap_right, Nat.xor_self, Nat.zero_xor]

/-- XOR difference of one material slot when the count rises by one. -/
theorem matContrib_raise (zob : Zobrist) (cnt cnt2 : Color → PieceType → Nat)
    (cp : Color × PieceType) (q : Nat) (h : cnt cp.1 cp.2 = q)
    (h2 : cnt2 cp.1 cp.2 = q + 1) :
    matContrib zob cnt cp ^^^ matContrib zob cnt2 cp
      = zob.psq cp.1 cp.2 q := by
  unfold matContrib
  rw [h, h2, rangeXor_succ, xor_cancel_left]

/-- After `do_move`, the incrementally maintained material key equals the
full `set_state` recomputation. -/
theorem do_move_matKey_ok (env : AttackEnv) (zob : Zobrist)
    (pval : PieceType → Int) (m : Move) (gc : Bool) (pos : Position)
    (upt : PieceType) (hC : Consistent pos) (hM : MoveOk pos m)
    (hpc : pos.board (fromSq m) = some (pos.sideToMove, upt))
    (hmk : pos.st.materialKey = stateMatKeyC zob pos) :
    (do_move env zob pval m gc pos).st.materialKey
      = stateMatKeyC zob (do_move env zob pval m gc pos) := by
  obtain ⟨hf, ht, hne, -, hcapc, hpromo⟩ := hM
  have hpp : moveTypeOf m = 1 → upt = PieceType.pawn := by
    intro h1
    have h2 := hpc.symm.trans (hpromo h1).1
    simpa using h2
  have hqp := promotionTypeOf_ne_pawn m
  rw [stateMatKeyC_enum zob (do_move env zob pval m gc pos),
    (do_move_store env zob pval m gc pos pos.sideToMove upt hpc hpp).2.2.2.2.1]
  have hmk2 : pos.st.materialKey
      = pieceEnum.foldl
          (fun k cp => k ^^^ matContrib zob pos.pieceCount cp) 0 := by
    rw [hmk, stateMatKeyC_enum]
  generalize hcnt2 :
    (coreAfterDo m pos pos.sideToMove upt pos.sideToMove).pieceCount = cnt2
  unfold do_move
  simp only [hpc]
  unfold doMoveMain
  by_cases hmt : moveTypeOf m = 1
  · have hup := hpp hmt
    subst hup
    have hp1 : 1 ≤ pos.pieceCount pos.sideToMove PieceType.pawn :=
      count_pos_of_board hC hf hpc
    obtain ⟨n, hn⟩ : ∃ n,
        pos.pieceCount pos.sideToMove PieceType.pawn = n + 1 :=
      ⟨_, (Nat.succ_pred_eq_of_pos hp1).symm⟩
    cases hcap : pos.board (toSq m) with
    | none =>
      have hv1 : cnt2 pos.sideToMove PieceType.pawn = n := by
        rw [← hcnt2]
        unfold coreAfterDo
        simp [hcap, hmt, put_piece, remove_piece, move_piece,
          Ne.symm hqp, hn]
      have hv2 : cnt2 pos.sideToMove (promotionTypeOf m)
          = pos.pieceCount pos.sideToMove (promotionTypeOf m) + 1 := by
        rw [← hcnt2]
        unfold coreAfterDo
        simp [hcap, hmt, put_piece, remove_piece, move_piece, hqp]
      have hsame : ∀ cp : Color × PieceType,
          cp ≠ (pos.sideToMove, PieceType.pawn) →
          cp ≠ (pos.sideToMove, promotionTypeOf m) →
          cnt2 cp.1 cp.2 = pos.pieceCount cp.1 cp.2 := by
        intro cp h1 h2
        obtain ⟨a, b⟩ := cp
        have n1 : ¬ (a = pos.sideToMove ∧ b = PieceType.pawn) :=
          fun h => h1 (by rw [h.1, h.2])
        have n2 : ¬ (a = pos.sideToMove ∧ b = promotionTypeOf m) :=
          fun h => h2 (by rw [h.1, h.2])
        rw [← hcnt2]
        unfold coreAfterDo
        simp [hcap, hmt, put_piece, remove_piece, move_piece, n1, n2]
      rw [matFold_update2 zob pos.pieceCount cnt2
        (pos.sideToMove, PieceType.pawn)
        (pos.sideToMove, promotionTypeOf m)
        (fun h => hqp (congrArg Prod.snd h).symm) hsame]
      rw [matContrib_drop zob pos.pieceCount cnt2
        (pos.sideToMove, PieceType.pawn) n hn hv1]
      rw [matContrib_raise zob pos.pieceCount cnt2
        (pos.sideToMove, promotionTypeOf m)
        (pos.pieceCount pos.sideToMove (promotionTypeOf m)) rfl hv2]
      simp only [hcap, hmt, reduceIte, if_true, doMoveFinish_matKey,
        doMovePawn_matKeyE, doMoveCapture_matKeyE, doMoveCapture_pos]
      rw [hmk2]
      simp [move_piece, hn, Nat.xor_assoc, Nat.xor_comm, xor_left_comm,
        xor_cancel_left]
    | some cp =>
      obtain ⟨cc, cpt⟩ := cp
      obtain ⟨hcc, hck⟩ := hcapc cc cpt hcap
      subst hcc
      have hpcap : 1 ≤ pos.pieceCount pos.sideToMove.other cpt :=
        count_pos_of_board hC ht hcap
      obtain ⟨q, hq⟩ : ∃ q,
          pos.pieceCount pos.sideToMove.other cpt = q + 1 :=
        ⟨_, (Nat.succ_pred_eq_of_pos hpcap).symm⟩
      have hv0 : cnt2 pos.sideToMove.other cpt = q := by
        rw [← hcnt2]
        unfold coreAfterDo
        simp [hcap, hmt, put_piece, remove_piece, move_piece,
          Color.ne_other pos.sideToMove, Color.other_ne pos.sideToMove,
          Ne.symm hqp, hq]
      have hv1 : cnt2 pos.sideToMove PieceType.pawn = n := by
        rw [← hcnt2]
        unfold coreAfterDo
        simp [hcap, hmt, put_piece, remove_piece, move_piece,
          Color.ne_other pos.sideToMove, Color.other_ne pos.sideToMove,
          Ne.symm hqp, hn]
      have hv2 : cnt2 pos.sideToMove (promotionTypeOf m)
          = pos.pieceCount pos.sideToMove (promotionTypeOf m) + 1 := by
        rw [← hcnt2]
        unfold coreAfterDo
        simp [hcap, hmt, put_piece, remove_piece, move_piece,
          Color.ne_other pos.sideToMove, Color.other_ne pos.sideToMove, hqp]
      have hsame : ∀ cp : Color × PieceType,
          cp ≠ (pos.sideToMove.other, cpt) →
          cp ≠ (pos.sideToMove, PieceType.pawn) →
          cp ≠ (pos.sideToMove, promotionTypeOf m) →
          cnt2 cp.1 cp.2 = pos.pieceCount cp.1 cp.2 := by
        intro cp h0 h1 h2
        obtain ⟨a, b⟩ := cp
        have n0 : ¬ (a = pos.sideToMove.other ∧ b = cpt) :=
          fun h => h0 (by rw [h.1, h.2])
        have n1 : ¬ (a = pos.sideToMove ∧ b = PieceType.pawn) :=
          fun h => h1 (by rw [h.1, h.2])
        have n2 : ¬ (a = pos.sideToMove ∧ b = promotionTypeOf m) :=
          fun h => h2 (by rw [h.1, h.2])
        rw [← hcnt2]
        unfold coreAfterDo
        simp [hcap, hmt, put_piece, remove_piece, move_piece, n0, n1, n2]
      rw [matFold_update3 zob pos.pieceCount cnt2
        (pos.sideToMove.other, cpt)
        (pos.sideToMove, PieceType.pawn)
        (pos.sideToMove, promotionTypeOf m)
        (fun h => Color.other_ne pos.sideToMove (congrArg Prod.fst h))
        (fun h => Color.other_ne pos.sideToMove (congrArg Prod.fst h))
        (fun h => hqp (congrArg Prod.snd h).symm) hsame]
      rw [matContrib_drop zob pos.pieceCount cnt2
        (pos.sideToMove.other, cpt) q hq hv0]
      rw [matContrib_drop zob pos.pieceCount cnt2
        (pos.sideToMove, PieceType.pawn) n hn hv1]
      rw [matContrib_raise zob pos.pieceCount cnt2
        (pos.sideToMove, promotionTypeOf m)
        (pos.pieceCount pos.sideToMove (promotionTypeOf m)) rfl hv2]
      simp only [hcap, hmt, reduceIte, if_true, doMoveFinish_matKey,
        doMovePawn_matKeyE, doMoveCapture_matKeyE, doMoveCapture_pos]
      rw [hmk2]
      simp [move_piece, remove_piece, Color.ne_other pos.sideToMove,
        Color.other_ne pos.sideToMove, hn, hq, Nat.xor_assoc, Nat.xor_comm,
        xor_left_comm, xor_cancel_left]
  · cases hcap : pos.board (toSq m) with
    | none =>
      have hsame : ∀ a b, cnt2 a b = pos.pieceCount a b := by
        intro a b
        rw [← hcnt2]
        unfold coreAfterDo
        simp [hcap, hmt, move_piece]
      rw [matFold_congr zob pos.pieceCount cnt2 hsame]
      by_cases hup : upt = PieceType.pawn
      · subst hup
        simp only [hcap, hmt, reduceIte, if_true, if_false,
          doMoveFinish_matKey, doMovePawn_matKeyE, doMoveCapture_matKeyE]
        rw [hmk2]
      · simp only [hcap, hmt, hup, reduceIte, if_false, doMoveFinish_matKey,
          doMoveCapture_matKeyE]
        rw [hmk2]
    | some cp =>
      obtain ⟨cc, cpt⟩ := cp
      obtain ⟨hcc, hck⟩ := hcapc cc cpt hcap
      subst hcc
      have hpcap : 1 ≤ pos.pieceCount pos.sideToMove.other cpt :=
        count_pos_of_board hC ht hcap
      obtain ⟨q, hq⟩ : ∃ q,
          pos.pieceCount pos.sideToMove.other cpt = q + 1 :=
        ⟨_, (Nat.succ_pred_eq_of_pos hpcap).symm⟩
      have hv0 : cnt2 pos.sideToMove.other cpt = q := by
        rw [← hcnt2]
        unfold coreAfterDo
        simp [hcap, hmt, remove_piece, move_piece, hq]
      have hsame : ∀ cp : Color × PieceType,
          cp ≠ (pos.sideToMove.other, cpt) →
          cnt2 cp.1 cp.2 = pos.pieceCount cp.1 cp.2 := by
        intro cp h0
        obtain ⟨a, b⟩ := cp
        have n0 : ¬ (a = pos.sideToMove.other ∧ b = cpt) :=
          fun h => h0 (by rw [h.1, h.2])
        rw [← hcnt2]
        unfold coreAfterDo
        simp [hcap, hmt, remove_piece, move_piece, n0]
      rw [matFold_update1 zob pos.pieceCount cnt2
        (pos.sideToMove.other, cpt) hsame]
      rw [matContrib_drop zob pos.pieceCount cnt2
        (pos.sideToMove.other, cpt) q hq hv0]
      by_cases hup : upt = PieceType.pawn
      · subst hup
        simp only [hcap, hmt, reduceIte, if_true, if_false,
          doMoveFinish_matKey, doMovePawn_matKeyE, doMoveCapture_matKeyE]
        rw [hmk2]
        simp [hq, Nat.xor_assoc, Nat.xor_comm, xor_left_comm,
          xor_cancel_left]
      · simp only [hcap, hmt, hup, reduceIte, if_false, doMoveFinish_matKey,
          doMoveCapture_matKeyE]
        rw [hmk2]
        simp [hq, Nat.xor_assoc, Nat.xor_comm, xor_left_comm,
          xor_cancel_left]

/-- The checkers bitboard installed by `doMoveFinish`, phrased on the
resulting position (whose board-store fields are those of `pos3`). -/
theorem doMoveFinish_checkers (env : AttackEnv) (gc : Bool) (pos : Position)
    (us : Color) (cap : Piece) (pos3 : Position) (st2 : StateInfo) (k3 : Key) :
    (doMoveFinish env gc pos us cap pos3 st2 k3).st.checkersBB
      = (if gc then
          attackers_to env (doMoveFinish env gc pos us cap pos3 st2 k3)
              ((doMoveFinish env gc pos us cap pos3 st2 k3).kingSq us.other)
              (doMoveFinish env gc pos us cap pos3 st2 k3).allBB
            &&& (doMoveFinish env gc pos us cap pos3 st2 k3).byColorBB us
        else 0) := rfl

/-- The stored checkers after `do_move` agree with the recomputed checkers
whenever the `givesCheck` hint was truthful. -/
theorem do_move_checkers (env : AttackEnv) (zob : Zobrist)
    (pval : PieceType → Int) (m : Move) (gc : Bool) (pos : Position)
    (upt : PieceType)
    (hpc : pos.board (fromSq m) = some (pos.sideToMove, upt))
    (hpp : moveTypeOf m = 1 → upt = PieceType.pawn) :
    (do_move env zob pval m gc pos).st.checkersBB
      = (if gc then stateCheckersC env (do_move env zob pval m gc pos)
         else 0) := by
  have hstm : (do_move env zob pval m gc pos).sideToMove
      = pos.sideToMove.other :=
    (do_move_store env zob pval m gc pos pos.sideToMove upt
      hpc hpp).2.2.2.2.2.2.2.1
  unfold stateCheckersC
  rw [hstm, Color.other_other]
  unfold do_move
  simp only [hpc]
  unfold doMoveMain
  simp only [doMoveFinish_checkers]

/-- Re-running `set_check_info` on the position produced by `do_move` is a
no-op: `do_move` already ends with exactly that computation. -/
theorem do_move_checkinfo (env : AttackEnv) (zob : Zobrist)
    (pval : PieceType → Int) (m : Move) (gc : Bool) (pos : Position)
    (uc : Color) (upt : PieceType)
    (hpc : pos.board (fromSq m) = some (uc, upt)) :
    applyCheckInfo env (do_move env zob pval m gc pos)
        (do_move env zob pval m gc pos).st
      = (do_move env zob pval m gc pos).st := by
  unfold do_move
  simp only [hpc]
  rfl

/-- After `do_move` with a truthful `givesCheck` hint, the incremental
state is exactly what `set_state` recomputes: `do_move` preserves the
state invariant. -/
theorem do_move_stateok (env : AttackEnv) (zob : Zobrist)
    (pval : PieceType → Int) (m : Move) (gc : Bool) (pos : Position)
    (upt : PieceType) (hC : Consistent pos) (hM : MoveOk pos m)
    (hpc : pos.board (fromSq m) = some (pos.sideToMove, upt))
    (hS : StateOk env zob pval pos)
    (hgc : gc = true ↔
      stateCheckersC env (do_move env zob pval m gc pos) ≠ 0) :
    StateOk env zob pval (do_move env zob pval m gc pos) := by
  have hpp : moveTypeOf m = 1 → upt = PieceType.pawn := by
    intro h1
    have h2 := hpc.symm.trans ((hM.2.2.2.2.2) h1).1
    simpa using h2
  have hkey0 : pos.st.key = stateKeyC zob pos := congrArg StateInfo.key hS
  have hpk0 : pos.st.pawnKey = statePawnKeyC zob pos :=
    congrArg StateInfo.pawnKey hS
  have hmk0 : pos.st.materialKey = stateMatKeyC zob pos :=
    congrArg StateInfo.materialKey hS
  have hnw0 : pos.st.npmWhite = stateNpmC pval pos Color.white :=
    congrArg StateInfo.npmWhite hS
  have hnb0 : pos.st.npmBlack = stateNpmC pval pos Color.black :=
    congrArg StateInfo.npmBlack hS
  have h1 := do_move_key_ok env zob pval m gc pos upt hC hM hpc hkey0
  have h2 := do_move_pawnKey_ok env zob pval m gc pos upt hC hM hpc hpk0
  have h3 := do_move_matKey_ok env zob pval m gc pos upt hC hM hpc hmk0
  have h4 := do_move_npmW_ok env zob pval m gc pos upt hC hM hpc hnw0
  have h5 := do_move_npmB_ok env zob pval m gc pos upt hC hM hpc hnb0
  have hchk2 := do_move_checkers env zob pval m gc pos upt hpc hpp
  have h6 : (do_move env zob pval m gc pos).st.checkersBB
      = stateCheckersC env (do_move env zob pval m gc pos) := by
    by_cases hgcb : gc = true
    · rw [hchk2, if_pos hgcb]
    · have h0 : stateCheckersC env (do_move env zob pval m gc pos) = 0 := by
        by_contra hne0
        exact hgcb (hgc.mpr hne0)
      rw [hchk2, if_neg hgcb, h0]
  unfold StateOk set_state
  rw [← h1, ← h2, ← h3, ← h4, ← h5, ← h6]
  exact (do_move_checkinfo env zob pval m gc pos pos.sideToMove upt hpc).symm

/-- White rook a1 and king e1 against black pawns a6 and b6 and king e8;
the rook capture a1xa6 exercises the swap-remove of the black pawn list. -/
def pos1c : Position :=
  mkPos wenv wzob wpval
    [(0, .white, .rook), (4, .white, .king), (40, .black, .pawn),
     (41, .black, .pawn), (60, .black, .king)] .white 0 0

/-- C1 (amended): for a structurally well-formed move on a consistent
position whose incremental state satisfies the `set_state` invariant,
`do_move(m)` followed by `undo_move(m)` restores the board array, both
bitboard families, the occupancy, the piece counts, the side to move, the
game ply and the whole `StateInfo` stack exactly, and restores each
per-(colour,type) piece list up to permutation (the lists are unordered
arrays maintained by swap-remove, so the order may change); moreover,
immediately after `do_move` with a truthful `givesCheck` hint the full
`set_state` recomputation from the new board equals the incrementally
maintained `StateInfo` field by field (primary, pawn and material keys,
non-pawn material of both sides, checkers, blockers, pinners and check
squares).  Quantifying over every such position covers arbitrarily deep
LIFO nesting of do/undo pairs. -/
theorem C1_do_undo_roundtrip (env : AttackEnv) (zob : Zobrist)
    (pval : PieceType → Int) (m : Move) (gc : Bool) (pos : Position)
    (hC : Consistent pos) (hM : MoveOk pos m)
    (hS : StateOk env zob pval pos)
    (hgc : gc = true ↔
      stateCheckersC env (do_move env zob pval m gc pos) ≠ 0) :
    RoundtripSpec env zob pval m gc pos ∧
      StateOk env zob pval (do_move env zob pval m gc pos) := by
  refine ⟨roundtrip_all env zob pval m gc pos hC hM, ?_⟩
  obtain ⟨upt, hpc⟩ := hM.2.2.2.1
  exact do_move_stateok env zob pval m gc pos upt hC hM hpc hS hgc

/-- Witness for C1: the quiet rook move a1-a2 in the three-piece position,
with a truthfully false `givesCheck` hint. -/
theorem C1_witness :
    Consistent pos9w ∧ MoveOk pos9w (mkMove 0 8) ∧
      StateOk wenv wzob wpval pos9w ∧
      (false = true ↔
        stateCheckersC wenv
          (do_move wenv wzob wpval (mkMove 0 8) false pos9w) ≠ 0) ∧
      (RoundtripSpec wenv wzob wpval (mkMove 0 8) false pos9w ∧
        StateOk wenv wzob wpval
          (do_move wenv wzob wpval (mkMove 0 8) false pos9w)) :=
  ⟨by decide, by decide, by decide, by decide,
    C1_do_undo_roundtrip wenv wzob wpval (mkMove 0 8) false pos9w
      (by decide) (by decide) (by decide) (by decide)⟩

/-- Counterexample to C1 as stated: after the capture a1xa6 and its undo,
the black pawn list is `[41, 40]` instead of the original `[40, 41]` -
swap-remove followed by re-append permutes the unordered array, so the
piece lists are not restored to their exact pre-call values. -/
theorem C1_counterexample :
    Consistent pos1c ∧ MoveOk pos1c (mkMove 0 40) ∧
      StateOk wenv wzob wpval pos1c ∧
      (undo_move (mkMove 0 40)
          (do_move wenv wzob wpval (mkMove 0 40) false pos1c)).pieceList
            Color.black PieceType.pawn
        ≠ pos1c.pieceList Color.black PieceType.pawn :=
  ⟨by decide, by decide, by decide, by decide⟩

end Makruk
